import Mathlib

/-!
# The Irodov problem extractor

A shallow embedding of `extract_all_problems.cjs`: the regular expressions of the script are
written out as matchers on lists of characters, the string methods that drive them
(`replace`, `split`, `match`, `exec`) as functions over such matchers, and `convertLatex`,
`buildContentArray`, `buildIntroText` and the stages of `parse` on top of them.  Of the viewer
`main.js` the dispatch of `createContentElement` and the image branch of `formatText` are
embedded, which read what the script writes.

A JavaScript string is modelled as the list of its characters.  None of the expressions of the
script tells the two halves of a surrogate pair apart, so reading the input by code point
rather than by UTF-16 code unit changes no text of the result.

The definitions come first: the character classes and string methods, the matching loops, the
expressions of the script one by one, then `convertLatex`, `buildContentArray`, the
segmentation, the catalog and the emitter, the viewer, and last what the theorems need to
speak of the spec.  The theorems follow: lemmas on the loops and the expressions, then the claims in order.
-/

namespace Irodov

/-- A JavaScript string. -/
abbrev Str := List Char

/-! ## Character classes -/

/-- The class `\s` of a JavaScript regular expression; `trim` removes the same characters. -/
def isSpace (c : Char) : Bool :=
  c == '\t' || c == '\n' || c == '\x0b' || c == '\x0c' || c == '\r' || c == ' ' ||
  c.toNat == 0x00a0 || c.toNat == 0x1680 || (0x2000 ≤ c.toNat && c.toNat ≤ 0x200a) ||
  c.toNat == 0x2028 || c.toNat == 0x2029 || c.toNat == 0x202f || c.toNat == 0x205f ||
  c.toNat == 0x3000 || c.toNat == 0xfeff

/-- A line terminator: what `.` does not match, and what `^` and `$` look at under the `m`
flag. -/
def isLineTerminator (c : Char) : Bool :=
  c == '\n' || c == '\r' || c.toNat == 0x2028 || c.toNat == 0x2029

/-- The class `\d`. -/
def isDigit (c : Char) : Bool :=
  48 ≤ c.toNat && c.toNat ≤ 57

/-- The class `[^}]`. -/
def notClose (c : Char) : Bool :=
  c != '\x7d'

/-! ## Strings -/

/-- The text after the literal `lit`, when `s` starts with it. -/
def dropLit : Str → Str → Option Str
  | [], s => some s
  | _ :: _, [] => none
  | a :: as, c :: cs => if a = c then dropLit as cs else none

/-- The method `startsWith`. -/
def startsWith (s lit : Str) : Bool :=
  (dropLit lit s).isSome

/-- The method `trim`. -/
def trim (s : Str) : Str :=
  (s.dropWhile isSpace).rdropWhile isSpace

/-- The method `split` with a one-character separator. -/
def splitOn (sep : Char) : Str → List Str
  | [] => [[]]
  | c :: cs =>
    if c = sep then [] :: splitOn sep cs
    else match splitOn sep cs with
      | [] => [[c]]
      | l :: ls => (c :: l) :: ls

/-- The method `join` with a one-character separator. -/
def joinWith (sep : Char) : List Str → Str
  | [] => []
  | [l] => l
  | l :: ls => l ++ sep :: joinWith sep ls

/-! ## Regular expressions

A regular expression is embedded as the function that tries it at one position: it is given
the character before the position (`none` at index 0) and the text from the position on, and
answers with the match the backtracking matcher of JavaScript finds there, if any. -/

/-- One match: the matched text `m[0]`, the captures `m[1]`, `m[2]`, ..., and the text after the
match. -/
structure Match where
  matched : Str
  groups : List Str
  rest : Str
deriving DecidableEq, Repr

/-- A regular expression, tried at one position. -/
abbrev Rx := Option Char → Str → Option Match

/-- The last character of `pre ++ matched`, or `prev` when both are empty: the character
before the position at which the scan resumes. -/
def lastChar (prev : Option Char) (t : Str) : Option Char :=
  match t.getLast? with
  | some c => some c
  | none => prev

/-- The leftmost match at or after the current position, with the text skipped before it. -/
def search (rx : Rx) : Option Char → Str → Option (Str × Match)
  | prev, [] => (rx prev []).map fun m => ([], m)
  | prev, c :: cs =>
    match rx prev (c :: cs) with
    | some m => some ([], m)
    | none => (search rx (some c) cs).map fun r => (c :: r.1, r.2)

/-- The replacement argument of `replace`: a pattern string or a function of the match. -/
inductive Replacement where
  | pattern (p : Str)
  | fn (f : Match → Str)

/-- The capture `$n` names, for `n` from 1. -/
def capture (groups : List Str) (n : Nat) : Option Str :=
  if n = 0 then none else groups.get? (n - 1)

/-- The expansion of a replacement pattern (`GetSubstitution`): `$$` is a dollar sign, `$&` the
matched text, `$n` the n-th capture when there is one, and any other character stands for
itself.  (The patterns of the script use no other form.) -/
def getSubstitution (m : Match) : Str → Str
  | [] => []
  | [c] => [c]
  | c :: d :: t =>
    if c = '$' then
      if d = '$' then '$' :: getSubstitution m t
      else if d = '&' then m.matched ++ getSubstitution m t
      else if isDigit d then
        match capture m.groups (d.toNat - 48) with
        | some g => g ++ getSubstitution m t
        | none => c :: d :: getSubstitution m t
      else c :: getSubstitution m (d :: t)
    else c :: getSubstitution m (d :: t)

/-- The text put in place of a match. -/
def Replacement.expand : Replacement → Match → Str
  | .pattern p, m => getSubstitution m p
  | .fn f, m => f m

/-- The loop of `replace` with a global expression.  After an empty match the scan moves on
by one character.  `fuel` bounds the number of matches: `replaceAll` starts the loop with more
than the length of the text, and no more is ever used (`replaceAll_fuel`). -/
def replaceAllFrom (rx : Rx) (r : Replacement) : Nat → Option Char → Str → Str
  | 0, _, s => s
  | fuel + 1, prev, s =>
    match search rx prev s with
    | none => s
    | some (pre, m) =>
      match m.matched, m.rest with
      | [], [] => pre ++ r.expand m
      | [], c :: cs => pre ++ r.expand m ++ c :: replaceAllFrom rx r fuel (some c) cs
      | _ :: _, rest =>
        pre ++ r.expand m ++ replaceAllFrom rx r fuel (lastChar prev (pre ++ m.matched)) rest

/-- The method `replace` with a global expression. -/
def replaceAll (rx : Rx) (r : Replacement) (s : Str) : Str :=
  replaceAllFrom rx r (s.length + 1) none s

/-- The method `replace` with an expression that is not global: the first match only. -/
def replaceFirst (rx : Rx) (r : Replacement) (s : Str) : Str :=
  match search rx none s with
  | none => s
  | some (pre, m) => pre ++ r.expand m ++ m.rest

/-- The loop of `exec` (or `matchAll`) with a global expression: every match with the index at
which it starts.  `pos` is the index of the current position.  The expressions the script runs
in such a loop match no empty text; after an empty match the scan moves on by one character,
as `matchAll` does. -/
def execAllFrom (rx : Rx) : Nat → Nat → Option Char → Str → List (Nat × Match)
  | 0, _, _, _ => []
  | fuel + 1, pos, prev, s =>
    match search rx prev s with
    | none => []
    | some (pre, m) =>
      let at_ := pos + pre.length
      match m.matched, m.rest with
      | [], [] => [(at_, m)]
      | [], c :: cs => (at_, m) :: execAllFrom rx fuel (at_ + 1) (some c) cs
      | _ :: _, rest =>
        (at_, m) ::
          execAllFrom rx fuel (at_ + m.matched.length) (lastChar prev (pre ++ m.matched)) rest

/-- Every match of a global expression in `s`, with its index. -/
def execAll (rx : Rx) (s : Str) : List (Nat × Match) :=
  execAllFrom rx (s.length + 1) 0 none s

/-- The loop of `split` with an expression whose one capture is the whole separator: the
pieces between the matches alternate with the matches themselves.  The one expression the
script splits on, the figure block, matches no empty text; an empty match ends the loop
here. -/
def splitKeepFrom (rx : Rx) : Nat → Option Char → Str → List Str
  | 0, _, s => [s]
  | fuel + 1, prev, s =>
    match search rx prev s with
    | none => [s]
    | some (pre, m) =>
      match m.matched with
      | [] => [s]
      | _ :: _ =>
        pre :: m.matched ::
          splitKeepFrom rx fuel (lastChar prev (pre ++ m.matched)) m.rest

/-- The method `split` with such an expression. -/
def splitKeep (rx : Rx) (s : Str) : List Str :=
  splitKeepFrom rx (s.length + 1) none s

/-- The capture `m[n]` as the script reads it (absent captures are not read by the script). -/
def Match.group (m : Match) (n : Nat) : Str :=
  (capture m.groups n).getD []

/-! ## The expressions of the script -/

/-- An alternation `a|b|...`: the alternatives are tried in order. -/
def rxAlt : List Rx → Rx
  | [], _, _ => none
  | rx :: rxs, prev, s =>
    match rx prev s with
    | some m => some m
    | none => rxAlt rxs prev s

/-- A literal text. -/
def rxLit (lit : Str) : Rx := fun _ s =>
  (dropLit lit s).map fun rest => ⟨lit, [], rest⟩

/-- A literal followed by a greedy `\s*`, as in `\\noindent\s*`. -/
def rxLitSpaces (lit : Str) : Rx := fun _ s =>
  (dropLit lit s).map fun rest =>
    ⟨lit ++ rest.takeWhile isSpace, [], rest.dropWhile isSpace⟩

/-- A greedy `\s*` followed by a literal, as in `\s*\\\]`.  Giving back white space cannot help
the literal, which starts with a backslash, so the expression matches at a position exactly
when the literal follows the whole run of white space there. -/
def rxSpacesLit (lit : Str) : Rx := fun _ s =>
  (dropLit lit (s.dropWhile isSpace)).map fun rest =>
    ⟨s.takeWhile isSpace ++ lit, [], rest⟩

/-- Where backtracking stops a greedy `\s*` that ran over `ws`: the longest initial part of
`ws` after which `ws` continues with a character satisfying `p`.  The result is that part, the
character, and what is left of `ws` after the character. -/
def backtrackTo (p : Char → Bool) : Str → Option (Str × Char × Str)
  | [] => none
  | c :: cs =>
    match backtrackTo p cs with
    | some (kept, d, back) => some (c :: kept, d, back)
    | none => if p c then some ([], c, cs) else none

/-- Two backslashes: the line break of LaTeX. -/
def lineBreak : Str := "\\\\".toList

/-- The expression `/\\\\\s*$/gm`.  Under the `m` flag `$` holds at the end of the input and
before a line terminator; the greedy `\s*` first runs over all the white space and is then
brought back until `$` holds. -/
def rxBreakEol : Rx := fun _ s =>
  match dropLit lineBreak s with
  | none => none
  | some t =>
    match t.dropWhile isSpace with
    | [] => some ⟨lineBreak ++ t, [], []⟩
    | a :: after =>
      match backtrackTo isLineTerminator (t.takeWhile isSpace) with
      | some (kept, d, back) => some ⟨lineBreak ++ kept, [], d :: back ++ a :: after⟩
      | none => none

/-- The expression `/\\\\\s*\n/g`: the greedy `\s*` is brought back to the last newline of the
run of white space. -/
def rxBreakNl : Rx := fun _ s =>
  match dropLit lineBreak s with
  | none => none
  | some t =>
    match backtrackTo (fun c => c == '\n') (t.takeWhile isSpace) with
    | some (kept, d, back) =>
      some ⟨lineBreak ++ kept ++ [d], [], back ++ t.dropWhile isSpace⟩
    | none => none

/-- A lazy `[\s\S]*?` followed by `stop`: the body ends at the first position at which `stop`
matches.  The result is the body, the text `stop` matched, and the text after it. -/
def lazyUntil (stop : Str → Option (Str × Str)) : Str → Option (Str × Str × Str)
  | [] => (stop []).map fun r => ([], r.1, r.2)
  | c :: cs =>
    match stop (c :: cs) with
    | some r => some ([], r.1, r.2)
    | none => (lazyUntil stop cs).map fun r => (c :: r.1, r.2.1, r.2.2)

/-- A tag `\\begin\{name\*?\}` or `\\end\{name\*?\}`, where `lit` is the text up to the name:
the asterisk is taken when it is there.  The result is the text of the tag and the text after
it. -/
def envTag (lit : Str) (s : Str) : Option (Str × Str) :=
  match dropLit lit s with
  | some ('*' :: '\x7d' :: t) => some (lit ++ "*\x7d".toList, t)
  | some ('\x7d' :: t) => some (lit ++ "\x7d".toList, t)
  | _ => none

/-- The expression `/\\begin\{name\*?\}([\s\S]*?)\\end\{name\*?\}/g`, for the names `equation`
and `align`. -/
def rxEnv (name : Str) : Rx := fun _ s =>
  match envTag ("\\begin\x7b".toList ++ name) s with
  | none => none
  | some (opening, t) =>
    match lazyUntil (envTag ("\\end\x7b".toList ++ name)) t with
    | none => none
    | some (body, closing, rest) => some ⟨opening ++ body ++ closing, [body], rest⟩

/-- The opening of a figure block. -/
def figureBegin : Str := "\\begin\x7bfigure\x7d".toList

/-- The end of a figure block. -/
def figureEnd : Str := "\\end\x7bfigure\x7d".toList

/-- The expression `\\begin\{figure\}([\s\S]*?)\\end\{figure\}`.  It occurs three times in the
script: without a capture in `convertLatex`, where the replacement is empty; with the whole
block captured in the `split` of `buildContentArray`, where `splitKeep` reads the matched text;
and with the inside captured in `figMatch`, which is the capture given here. -/
def rxFigure : Rx := fun _ s =>
  match dropLit figureBegin s with
  | none => none
  | some t =>
    match lazyUntil (fun u => (dropLit figureEnd u).map fun r => (figureEnd, r)) t with
    | none => none
    | some (inner, closing, rest) => some ⟨figureBegin ++ inner ++ closing, [inner], rest⟩

/-- True at index 0 and after a line terminator: where `^` holds under the `m` flag. -/
def atLineStart : Option Char → Bool
  | none => true
  | some c => isLineTerminator c

/-- The text `\item`. -/
def itemLit : Str := "\\item".toList

/-- The expression `/^\s*\\item\s*/gm`. -/
def rxItem : Rx := fun prev s =>
  if atLineStart prev then
    match dropLit itemLit (s.dropWhile isSpace) with
    | none => none
    | some t =>
      some ⟨s.takeWhile isSpace ++ itemLit ++ t.takeWhile isSpace, [], t.dropWhile isSpace⟩
  else none

/-- An expression `lit[^}]*\}` such as `\\tag\{[^}]*\}`, where `lit` ends with the opening
brace.  The greedy `[^}]*` stops at the first closing brace, and there is a match when there
is one.  The capture is the text between the braces: of the expressions of this form only
`\\text\{([^}]*)\}` declares it, and only its replacement reads it. -/
def rxBraced (lit : Str) : Rx := fun _ s =>
  match dropLit lit s with
  | none => none
  | some t =>
    match t.dropWhile notClose with
    | [] => none
    | c :: rest => some ⟨lit ++ t.takeWhile notClose ++ [c], [t.takeWhile notClose], rest⟩

/-- An expression `lit([^}]+)\}`: as `rxBraced`, with at least one character between the
braces. -/
def rxBraced1 (lit : Str) : Rx := fun _ s =>
  match dropLit lit s with
  | none => none
  | some t =>
    match t.takeWhile notClose, t.dropWhile notClose with
    | b :: body, c :: rest => some ⟨lit ++ b :: body ++ [c], [b :: body], rest⟩
    | _, _ => none

/-- The expression `/\\[hv]space\*?\{[^}]*\}/g`, by its four spellings. -/
def rxSpacing : Rx :=
  rxAlt [rxBraced "\\hspace*\x7b".toList, rxBraced "\\hspace\x7b".toList,
    rxBraced "\\vspace*\x7b".toList, rxBraced "\\vspace\x7b".toList]

/-- The expression `/\\(med|big|small)skip/g`. -/
def rxSkip : Rx :=
  rxAlt [rxLit "\\medskip".toList, rxLit "\\bigskip".toList, rxLit "\\smallskip".toList]

/-- The text `\includegraphics`. -/
def includeLit : Str := "\\includegraphics".toList

/-- The expression `/\\includegraphics[^\n]*/g`. -/
def rxIncludeLine : Rx := fun _ s =>
  (dropLit includeLit s).map fun t =>
    ⟨includeLit ++ t.takeWhile (fun c => c != '\n'), [], t.dropWhile (fun c => c != '\n')⟩

/-- The expression `/\n{3,}/g`. -/
def rxBlankLines : Rx := fun _ s =>
  if 3 ≤ (s.takeWhile (fun c => c == '\n')).length then
    some ⟨s.takeWhile (fun c => c == '\n'), [], s.dropWhile (fun c => c == '\n')⟩
  else none

/-- The part `\{([^}]+)\}` of the graphics expression: the text between the braces and the text
after the closing brace. -/
def bracedArg : Str → Option (Str × Str)
  | '\x7b' :: t =>
    match t.takeWhile notClose, t.dropWhile notClose with
    | b :: body, _ :: rest => some (b :: body, rest)
    | _, _ => none
  | _ => none

/-- The part `.*?\]` of the graphics expression followed by `\{([^}]+)\}`: the lazy `.*?` grows
over characters that are not line terminators until a `]` is followed by a braced argument.
The result is the text up to and including that `]`, the argument, and the text after it. -/
def optionsThenArg : Str → Option (Str × Str × Str)
  | [] => none
  | c :: cs =>
    match (if c = ']' then bracedArg cs else none) with
    | some r => some ([c], r.1, r.2)
    | none =>
      if isLineTerminator c then none
      else (optionsThenArg cs).map fun r => (c :: r.1, r.2.1, r.2.2)

/-- The expression `/\\includegraphics(?:\[.*?\])?\{([^}]+)\}/`: the optional group is tried
first, and the expression is tried without it when no way through the group leads to a
match. -/
def rxIncludeGraphics : Rx := fun _ s =>
  match dropLit includeLit s with
  | none => none
  | some t =>
    match (match t with
        | '[' :: u => optionsThenArg u
        | _ => none) with
    | some (opts, arg, rest) =>
      some ⟨includeLit ++ '[' :: opts ++ '\x7b' :: arg ++ ['\x7d'], [arg], rest⟩
    | none =>
      (bracedArg t).map fun r => ⟨includeLit ++ '\x7b' :: r.1 ++ ['\x7d'], [r.1], r.2⟩

/-- The text `\caption` with the opening brace. -/
def captionLit : Str := "\\caption\x7b".toList

/-- The expression `/\\caption\{([^}]*)\}/`. -/
def rxCaption : Rx := rxBraced captionLit

/-- The expression `/\\textit\{|\}/g`. -/
def rxTextit : Rx := rxAlt [rxLit "\\textit\x7b".toList, rxLit "\x7d".toList]

/-- The part `\d+\.\d+` of the section and answer expressions: the number and the text after
it. -/
def dottedNumber (s : Str) : Option (Str × Str) :=
  match s.takeWhile isDigit, s.dropWhile isDigit with
  | a :: as, '.' :: t =>
    match t.takeWhile isDigit with
    | b :: bs => some (a :: as ++ '.' :: b :: bs, t.dropWhile isDigit)
    | [] => none
  | _, _ => none

/-- The text `\subsection*` with the opening brace. -/
def subsectionLit : Str := "\\subsection*\x7b".toList

/-- The expression `/\\subsection\*\{(\d+\.\d+)\. ([^}]+)\}/g`. -/
def subsectionRe : Rx := fun _ s =>
  match dropLit subsectionLit s with
  | none => none
  | some t =>
    match dottedNumber t with
    | none => none
    | some (num, u) =>
      match dropLit ". ".toList u with
      | none => none
      | some v =>
        match v.takeWhile notClose, v.dropWhile notClose with
        | b :: body, c :: rest =>
          some ⟨subsectionLit ++ num ++ ". ".toList ++ b :: body ++ [c], [num, b :: body], rest⟩
        | _, _ => none

/-- The part `(major\.\d+)\.\s+` of the problem expression: the number, the whole text of the
marker, and the text after it. -/
def problemMarker (major : Str) (s : Str) : Option (Str × Str × Str) :=
  match dropLit major s with
  | some ('.' :: t) =>
    match t.takeWhile isDigit, t.dropWhile isDigit with
    | d :: ds, '.' :: u =>
      match u.takeWhile isSpace with
      | w :: ws =>
        some (major ++ '.' :: d :: ds, major ++ '.' :: d :: ds ++ '.' :: w :: ws,
          u.dropWhile isSpace)
      | [] => none
    | _, _ => none
  | _ => none

/-- The expression the script builds for a section, `(?:^|\n)(major\.\d+)\.\s+` with the `g`
flag, where `major` is the text of the section identifier before its dot (digits, so it stands
for itself in the expression).  Without the `m` flag `^` holds at index 0 only; it is the first
alternative, the newline the second. -/
def probNumPattern (major : Str) : Rx := fun prev s =>
  match (match prev with
      | none => problemMarker major s
      | some _ => none) with
  | some (num, marker, rest) => some ⟨marker, [num], rest⟩
  | none =>
    match s with
    | '\n' :: t =>
      (problemMarker major t).map fun r => ⟨'\n' :: r.2.1, [r.1], r.2.2⟩
    | _ => none

/-- The lookahead `(?=\n\d+\.\d+\. |$)` of the answer expression (no `m` flag: `$` is the end
of the input). -/
def answerStop : Str → Bool
  | [] => true
  | '\n' :: t =>
    match dottedNumber t with
    | some (_, u) => startsWith u ". ".toList
    | none => false
  | _ => false

/-- A lazy `[\s\S]*?` followed by a lookahead: the body and the text from the lookahead on. -/
def lazyBody (stop : Str → Bool) : Str → Option (Str × Str)
  | [] => if stop [] then some ([], []) else none
  | c :: cs =>
    if stop (c :: cs) then some ([], c :: cs)
    else (lazyBody stop cs).map fun r => (c :: r.1, r.2)

/-- The part `(\d+\.\d+)\. ([\s\S]*?)(?=\n\d+\.\d+\. |$)` of the answer expression: the number,
the answer, the text matched, and the text after it. -/
def answerEntry (s : Str) : Option (Str × Str × Str × Str) :=
  match dottedNumber s with
  | none => none
  | some (num, u) =>
    match dropLit ". ".toList u with
    | none => none
    | some v =>
      (lazyBody answerStop v).map fun r => (num, r.1, num ++ ". ".toList ++ r.1, r.2)

/-- The expression `/(?:^|\n)(\d+\.\d+)\. ([\s\S]*?)(?=\n\d+\.\d+\. |$)/g`. -/
def answerRe : Rx := fun prev s =>
  match (match prev with
      | none => answerEntry s
      | some _ => none) with
  | some (num, ans, text, rest) => some ⟨text, [num, ans], rest⟩
  | none =>
    match s with
    | '\n' :: t =>
      (answerEntry t).map fun r => ⟨'\n' :: r.2.2.1, [r.1, r.2.1], r.2.2.2⟩
    | _ => none

/-- The expression `/^\s+/`: no `m` flag, so it matches at index 0 only. -/
def rxLeadingSpace : Rx := fun prev s =>
  match prev, s.takeWhile isSpace with
  | none, w :: ws => some ⟨w :: ws, [], s.dropWhile isSpace⟩
  | _, _ => none

/-- The expression `/\s+$/`: white space up to the end of the input. -/
def rxTrailingSpace : Rx := fun _ s =>
  match s.takeWhile isSpace, s.dropWhile isSpace with
  | w :: ws, [] => some ⟨w :: ws, [], []⟩
  | _, _ => none

/-! ## Normalising a span -/

/-- A replacement by nothing. -/
def erase : Replacement := .pattern []

/-- The function `convertLatex`. -/
def convertLatex (text : Str) : Str :=
  if text = [] then [] else
  let text := replaceAll rxBreakEol erase text
  let text := replaceAll rxBreakNl (.pattern "\n".toList) text
  let text := replaceAll (rxLitSpaces "\\[".toList) (.pattern "$$\n".toList) text
  let text := replaceAll (rxSpacesLit "\\]".toList) (.pattern "\n$$".toList) text
  let text := replaceAll (rxLit "\\(".toList) (.pattern "$".toList) text
  let text := replaceAll (rxLit "\\)".toList) (.pattern "$".toList) text
  let text := replaceAll (rxEnv "equation".toList)
    (.fn fun m => "$$".toList ++ trim (m.group 1) ++ "$$".toList) text
  let text := replaceAll (rxEnv "align".toList)
    (.fn fun m => "$$".toList ++ trim (m.group 1) ++ "$$".toList) text
  let text := replaceAll (rxLit "\\begin\x7bitemize\x7d".toList) erase text
  let text := replaceAll (rxLit "\\end\x7bitemize\x7d".toList) erase text
  let text := replaceAll rxItem (.pattern "- ".toList) text
  let text := replaceAll (rxLit "\\begin\x7benumerate\x7d".toList) erase text
  let text := replaceAll (rxLit "\\end\x7benumerate\x7d".toList) erase text
  let text := replaceAll rxFigure erase text
  let text := replaceAll (rxBraced "\\tag\x7b".toList) erase text
  let text := replaceAll (rxBraced "\\captionsetup\x7b".toList) erase text
  let text := replaceAll (rxLit "\\begin\x7bcenter\x7d".toList) erase text
  let text := replaceAll (rxLit "\\end\x7bcenter\x7d".toList) erase text
  let text := replaceAll rxIncludeLine erase text
  let text := replaceAll (rxBraced "\\label\x7b".toList) erase text
  let text := replaceAll (rxBraced "\\ref\x7b".toList) erase text
  let text := replaceAll (rxLit "\\nonumber".toList) erase text
  let text := replaceAll rxSpacing erase text
  let text := replaceAll rxSkip erase text
  let text := replaceAll (rxLitSpaces "\\noindent".toList) erase text
  let text := replaceAll (rxLitSpaces "\\centering".toList) erase text
  let text := replaceAll (rxBraced "\\text\x7b".toList) (.pattern "$1".toList) text
  let text := replaceAll rxBlankLines (.pattern "\n\n".toList) text
  trim text

/-- A content block of the output: `type` is `text` or `image`. -/
inductive ContentBlock where
  | text (value : Str)
  | image (src : Str) (caption : Str)
deriving DecidableEq, Repr

/-- The directory put before a graphic reference. -/
def imageDir : Str := "images/irodov-problems/".toList

/-- The blocks one piece of the split span adds to `items`: the body of the loop of
`buildContentArray`. -/
def partItems (part : Str) : List ContentBlock :=
  match search rxFigure none part with
  | some (_, figMatch) =>
    match search rxIncludeGraphics none (figMatch.group 1) with
    | some (_, imgMatch) =>
      [.image (imageDir ++ imgMatch.group 1 ++ ".jpg".toList)
        (match search rxCaption none (figMatch.group 1) with
          | some (_, capMatch) => replaceAll rxTextit erase (capMatch.group 1)
          | none => [])]
    | none => []
  | none =>
    if trim (convertLatex part) ≠ [] then [.text (convertLatex part)] else []

/-- The function `buildContentArray`. -/
def buildContentArray (rawText : Str) : List ContentBlock :=
  let items := (splitKeep rxFigure rawText).foldl (fun items part => items ++ partItems part) []
  if items.length = 0 then [.text []] else items

/-- The function `buildIntroText`. -/
def buildIntroText (raw secId : Str) : Str :=
  let titleText :=
    match search (rxBraced1 subsectionLit) none raw with
    | some (_, titleMatch) => titleMatch.group 1
    | none => secId
  let body := trim (replaceFirst (rxBraced1 subsectionLit) erase raw)
  let body := convertLatex body
  let body := replaceFirst rxTrailingSpace erase (replaceFirst rxLeadingSpace erase body)
  "## ".toList ++ titleText ++ "\n\n".toList ++ body

/-! ## Segmenting the source -/

/-- The index from which the answers are looked for. -/
def answerSearchStart : Nat := 8000

/-- The text `1.1. ` the first answer starts with. -/
def firstAnswerLit : Str := "1.1. ".toList

/-- The loop that looks for the answers: `i` is the index of the first of `lines`.  The test
`/^1\.1\. /` has no `m` flag, so it asks whether the line starts with `1.1. `. -/
def findAnswerStart : Nat → List Str → Option Nat
  | _, [] => none
  | i, line :: lines =>
    if startsWith line firstAnswerLit then some i else findAnswerStart (i + 1) lines

/-- The index `answerStart` of the line the answers start at, `none` for the `-1` the script
throws on. -/
def answerStart (lines : List Str) : Option Nat :=
  findAnswerStart answerSearchStart (lines.drop answerSearchStart)

/-- The two regions of the source: `problemText` and `answerText`, or the error thrown. -/
def splitRegions (raw : Str) : Except String (Str × Str) :=
  match answerStart (splitOn '\n' raw) with
  | none => .error "Could not find answers section"
  | some i =>
    .ok (joinWith '\n' ((splitOn '\n' raw).take i), joinWith '\n' ((splitOn '\n' raw).drop i))

/-- A `Map` with string keys, as the list of its entries. -/
abbrev StrMap (α : Type) := List (Str × α)

/-- The method `set`: the value of an existing key is replaced. -/
def StrMap.set {α : Type} : StrMap α → Str → α → StrMap α
  | [], k, v => [(k, v)]
  | (k', v') :: m, k, v => if k' = k then (k, v) :: m else (k', v') :: StrMap.set m k v

/-- The method `get`. -/
def StrMap.get {α : Type} : StrMap α → Str → Option α
  | [], _ => none
  | (k', v') :: m, k => if k' = k then some v' else StrMap.get m k

/-- The answer table: each match of the answer expression sets its number to its trimmed
answer. -/
def parseAnswers (answerText : Str) : StrMap Str :=
  (execAll answerRe answerText).foldl
    (fun answers im => answers.set (im.2.group 1) (trim (im.2.group 2))) []

/-- A section heading found in the statements. -/
structure SectionBoundary where
  id : Str
  title : Str
  startIdx : Nat
deriving DecidableEq, Repr

/-- The list `sectionBoundaries`. -/
def sectionBoundaries (problemText : Str) : List SectionBoundary :=
  (execAll subsectionRe problemText).map fun im =>
    ⟨im.2.group 1, im.2.group 1 ++ ". ".toList ++ im.2.group 2, im.1⟩

/-- The method `slice` with two indices. -/
def slice (s : Str) (i j : Nat) : Str :=
  (s.take j).drop i

/-- A problem marker found in a section: an entry of `probMatches`. -/
structure ProbMatch where
  num : Str
  idx : Nat
  matchLen : Nat
deriving DecidableEq, Repr

/-- The list `probMatches` of a section. -/
def probMatches (major secRaw : Str) : List ProbMatch :=
  (execAll (probNumPattern major) secRaw).map fun im =>
    ⟨im.2.group 1, im.1 + (if startsWith im.2.matched "\n".toList then 1 else 0),
      im.2.matched.length⟩

/-- A problem as segmented. -/
structure RawProblem where
  number : Str
  statementRaw : Str
  answerRaw : Str
deriving DecidableEq, Repr

/-- The loop that builds `problems`, over the markers that are left. -/
def buildProblems (answers : StrMap Str) (secRaw : Str) : List ProbMatch → List RawProblem
  | [] => []
  | pm :: pms =>
    { number := pm.num
      statementRaw := slice secRaw (pm.idx + pm.matchLen)
        (match pms with
          | nextPm :: _ => nextPm.idx
          | [] => secRaw.length)
      answerRaw := (answers.get pm.num).getD [] } :: buildProblems answers secRaw pms

/-- The text before the first problem of a section. -/
def introRaw (secRaw : Str) (pms : List ProbMatch) : Str :=
  match pms with
  | pm :: _ => slice secRaw 0 pm.idx
  | [] => secRaw

/-- A section as segmented: an entry of `sectionData`. -/
structure SectionData where
  id : Str
  title : Str
  introRaw : Str
  problems : List RawProblem
deriving DecidableEq, Repr

/-- The text of a section identifier before its first dot: `sec.id.split('.')[0]`. -/
def secMajor (id : Str) : Str :=
  (splitOn '.' id).headD []

/-- The segmentation of one section from its span. -/
def parseSection (answers : StrMap Str) (id title secRaw : Str) : SectionData :=
  { id := id
    title := title
    introRaw := introRaw secRaw (probMatches (secMajor id) secRaw)
    problems := buildProblems answers secRaw (probMatches (secMajor id) secRaw) }

/-- The loop over `sectionBoundaries` that fills `sectionData`, over the headings that are
left. -/
def parseSections (answers : StrMap Str) (problemText : Str) :
    List SectionBoundary → StrMap SectionData → StrMap SectionData
  | [], sectionData => sectionData
  | sec :: secs, sectionData =>
    parseSections answers problemText secs
      (sectionData.set sec.id
        (parseSection answers sec.id sec.title
          (slice problemText sec.startIdx
            (match secs with
              | nextSec :: _ => nextSec.startIdx
              | [] => problemText.length))))

/-! ## Emitting the sections -/

/-- An entry of the catalog `SECTIONS`. -/
structure CatalogEntry where
  id : Str
  part : Str
  title : Str
deriving DecidableEq, Repr

/-- An entry of the catalog, from its three texts. -/
def entry (id part title : String) : CatalogEntry :=
  ⟨id.toList, part.toList, title.toList⟩

/-- The catalog `SECTIONS`. -/
def SECTIONS : List CatalogEntry := [
  entry "1.1" "part_1" "1.1. Kinematics",
  entry "1.2" "part_1" "1.2. The Fundamental Equation of Dynamics",
  entry "1.3" "part_1" "1.3. Laws of Conservation of Energy, Momentum, and Angular Momentum",
  entry "1.4" "part_1" "1.4. Universal Gravitation",
  entry "1.5" "part_1" "1.5. Dynamics of a Solid Body",
  entry "1.6" "part_1" "1.6. Elastic Deformations of a Solid Body",
  entry "1.7" "part_1" "1.7. Hydrodynamics",
  entry "1.8" "part_1" "1.8. Relativistic Mechanics",
  entry "2.1" "part_2" "2.1. Equation of the Gas State. Processes",
  entry "2.2" "part_2" "2.2. The First Law of Thermodynamics. Heat Capacity",
  entry "2.3" "part_2" "2.3. Kinetic Theory of Gases. Boltzmann's Law and Maxwell's Distribution",
  entry "2.4" "part_2" "2.4. The Second Law of Thermodynamics. Entropy",
  entry "2.5" "part_2" "2.5. Liquids. Capillary Effects",
  entry "2.6" "part_2" "2.6. Phase Transformations",
  entry "2.7" "part_2" "2.7. Transport Phenomena",
  entry "3.1" "part_3" "3.1. Constant Electric Field in Vacuum",
  entry "3.2" "part_3" "3.2. Conductors and Dielectrics in an Electric Field",
  entry "3.3" "part_3" "3.3. Electric Capacitance. Energy of an Electric Field",
  entry "3.4" "part_3" "3.4. Electric Current",
  entry "3.5" "part_3" "3.5. Constant Magnetic Field. Magnetics",
  entry "3.6" "part_3" "3.6. Electromagnetic Induction. Maxwell's Equations",
  entry "3.7" "part_3" "3.7. Motion of Charged Particles in Electric and Magnetic Fields",
  entry "4.1" "part_4" "4.1. Mechanical Oscillations",
  entry "4.2" "part_4" "4.2. Electric Oscillations",
  entry "4.3" "part_4" "4.3. Elastic Waves. Acoustics",
  entry "4.4" "part_4" "4.4. Electromagnetic Waves. Radiation",
  entry "5.1" "part_5" "5.1. Photometry and Geometrical Optics",
  entry "5.2" "part_5" "5.2. Interference of Light",
  entry "5.3" "part_5" "5.3. Diffraction of Light",
  entry "5.4" "part_5" "5.4. Polarization of Light",
  entry "5.5" "part_5" "5.5. Dispersion and Absorption of Light",
  entry "5.6" "part_5" "5.6. Optics of Moving Sources",
  entry "5.7" "part_5" "5.7. Thermal Radiation. Quantum Nature of Light",
  entry "6.1" "part_6" "6.1. Scattering of Particles. Rutherford-Bohr Atom",
  entry "6.2" "part_6" "6.2. Wave Properties of Particles. Schrödinger Equation",
  entry "6.3" "part_6" "6.3. Properties of Atoms. Spectra",
  entry "6.4" "part_6" "6.4. Molecules and Crystals",
  entry "6.5" "part_6" "6.5. Radioactivity",
  entry "6.6" "part_6" "6.6. Nuclear Reactions",
  entry "6.7" "part_6" "6.7. Elementary Particles"]

/-- An element of the `body` of a section: the intro block, which has a `value` only, or a
problem block, whose `type` is `problem`. -/
inductive BodyItem where
  | intro (value : Str)
  | problem (number : Str) (title : Str) (statement : List ContentBlock)
      (answer : List ContentBlock)
deriving DecidableEq, Repr

/-- The field `answer` of an element of the body, when it has one. -/
def BodyItem.answer? : BodyItem → Option (List ContentBlock)
  | .intro _ => none
  | .problem _ _ _ answer => some answer

/-- The field `statement` of an element of the body, when it has one. -/
def BodyItem.statement? : BodyItem → Option (List ContentBlock)
  | .intro _ => none
  | .problem _ _ statement _ => some statement

/-- The problem block pushed for a problem. -/
def problemBlock (prob : RawProblem) : BodyItem :=
  .problem prob.number [] (buildContentArray prob.statementRaw)
    (if trim prob.answerRaw ≠ [] then buildContentArray prob.answerRaw else [.text []])

/-- The array `body` of a section. -/
def sectionBody (data : SectionData) : List BodyItem :=
  (if trim (buildIntroText data.introRaw data.id) ≠ [] then
      [.intro (buildIntroText data.introRaw data.id)]
    else []) ++ data.problems.map problemBlock

/-- The object `jsonObj` written for a section. -/
structure SectionDoc where
  id : Str
  title : Str
  body : List BodyItem
deriving DecidableEq, Repr

/-- A file written: its directory under the output base, its name, and the document. -/
structure OutFile where
  part : Str
  name : Str
  doc : SectionDoc
deriving DecidableEq, Repr

/-- The loop over the catalog that writes the files, over the entries that are left.  An entry
with no data is skipped with a warning. -/
def emit (sectionData : StrMap SectionData) : List CatalogEntry → List OutFile
  | [] => []
  | sec :: secs =>
    match sectionData.get sec.id with
    | none => emit sectionData secs
    | some data =>
      ⟨sec.part, sec.id ++ ".json".toList, ⟨sec.id, sec.title, sectionBody data⟩⟩ ::
        emit sectionData secs

/-- The function `parse`: the files written, or the error thrown. -/
def parse (raw : Str) : Except String (List OutFile) :=
  match splitRegions raw with
  | .error e => .error e
  | .ok (problemText, answerText) =>
    .ok (emit
      (parseSections (parseAnswers answerText) problemText (sectionBoundaries problemText) [])
      SECTIONS)

/-- The path `<part>/<id>.json` the emitter joins for an entry of the catalog, under the
output base. -/
def CatalogEntry.path (sec : CatalogEntry) : Str :=
  sec.part ++ "/".toList ++ sec.id ++ ".json".toList

/-- The path of a file written, under the output base. -/
def OutFile.path (f : OutFile) : Str :=
  f.part ++ '/' :: f.name

/-! ## The viewer

The parts of `main.js` that read what the script writes: the dispatch of
`createContentElement` on the field `type`, and the image branch of `formatText`. -/

/-- The field `type` of an element of the body: the intro block is pushed with a `value`
only, a problem block with `type: 'problem'`. -/
def BodyItem.type? : BodyItem → Option Str
  | .intro _ => none
  | .problem _ _ _ _ => some "problem".toList

/-- The element a branch of `createContentElement` returns, by the branch that builds it. -/
inductive ViewerElement where
  | textParagraph
  | headerTitle
  | noteBlock
  | problemContainer
  | sectionContainer
  | subsectionContainer
  | equationWrapper
  | imageContainer
deriving DecidableEq, Repr

/-- The `switch (item.type)` of `createContentElement`: the branch taken for a value of the
field `type`, and `none` for the `null` of the `default` branch. -/
def elementOfType (type : Option Str) : Option ViewerElement :=
  if type = some "text".toList then some .textParagraph
  else if type = some "header".toList then some .headerTitle
  else if type = some "note".toList then some .noteBlock
  else if type = some "problem".toList then some .problemContainer
  else if type = some "section".toList then some .sectionContainer
  else if type = some "subsection".toList then some .subsectionContainer
  else if type = some "equation".toList then some .equationWrapper
  else if type = some "image".toList then some .imageContainer
  else none

/-- The function `createContentElement` on an element of a body. -/
def createContentElement (item : BodyItem) : Option ViewerElement :=
  elementOfType item.type?

/-- The elements `renderContent` appends for a body: those that are not `null`. -/
def renderContent (body : List BodyItem) : List ViewerElement :=
  body.filterMap createContentElement

/-- The variable `imgSrc` of the image branch of `formatText` once both tests are done, for a
block with the field `src` and no field `value`: an empty `src` leaves `undefined`, which
the template prints as such. -/
def imgSrc (src : Str) : Str :=
  if src = [] then "undefined".toList
  else
    let imgSrc := if startsWith src "/".toList then src.drop 1 else src
    if startsWith imgSrc "images/".toList then imgSrc.drop 7 else imgSrc

/-- The address put in the attribute `src` of the `img` by the image branch of `formatText`. -/
def imageUrl (baseUrl src : Str) : Str :=
  baseUrl ++ "images/".toList ++ imgSrc src

/-- The text the image branch of `formatText` returns for an image block. -/
def formatImage (baseUrl : Str) : ContentBlock → Str
  | .image src caption =>
    "<div class=\"image-container\"><img src=\"".toList ++ imageUrl baseUrl src
      ++ "\" alt=\"".toList ++ caption ++ "\">".toList
      ++ (if caption ≠ [] then "<p class=\"caption\">".toList ++ caption ++ "</p>".toList
          else [])
      ++ "</div>".toList
  | .text _ => []

/-! ## The words of the spec -/

/-- Following the spec's words: a problem marker `<major>.<n>. ` at the start of `s`, that is
the major number, a dot, a non-empty digit string, a dot and a space. -/
def specMarkerAt (major s : Str) : Bool :=
  match dropLit major s with
  | some ('.' :: t) =>
    match t.takeWhile isDigit, t.dropWhile isDigit with
    | _ :: _, '.' :: ' ' :: _ => true
    | _, _ => false
  | _ => false

/-- Following the spec's words: the number of line-start occurrences of a problem marker in a
span, line-start meaning at the start of the span or immediately after a newline.  `prev` is
the character before the current position. -/
def specMarkerCount (major : Str) : Option Char → Str → Nat
  | _, [] => 0
  | prev, c :: cs =>
    (if (prev = none ∨ prev = some '\n') ∧ specMarkerAt major (c :: cs) = true then 1 else 0) +
      specMarkerCount major (some c) cs

/-- Following the spec's words: the text contains a figure block, a `\begin{figure}` followed
later by an `\end{figure}`. -/
def ContainsFigureBlock (v : Str) : Prop :=
  ∃ a b c : Str, v = a ++ figureBegin ++ b ++ figureEnd ++ c

/-- Following the spec's words: a marker `d.d. ` at the start of `s`, that is digits, a dot,
digits, a dot and a space.  The result is the identifier `d.d` and the text after the
marker. -/
def specAnswerMarker (s : Str) : Option (Str × Str) :=
  match s.dropWhile isDigit with
  | '.' :: t =>
    match t.dropWhile isDigit with
    | '.' :: ' ' :: v =>
      if s.takeWhile isDigit ≠ [] ∧ t.takeWhile isDigit ≠ [] then
        some (s.takeWhile isDigit ++ '.' :: t.takeWhile isDigit, v)
      else none
    | _ => none
  | _ => none

/-- Following the spec's words: the text from the end of a marker to the next line-start
marker, that is to the first newline a marker follows, or to the end of the region. -/
def specAnswerText : Str → Str
  | [] => []
  | c :: cs =>
    if c = '\n' ∧ (specAnswerMarker cs).isSome then [] else c :: specAnswerText cs

/-- Following the spec's words: the entry of a marker at the start of `s`, its identifier with
the text up to the next line-start marker. -/
def specAnswerEntryAt (s : Str) : List (Str × Str) :=
  match specAnswerMarker s with
  | some (id, v) => [(id, specAnswerText v)]
  | none => []

/-- Following the spec's words: the entries of the markers that stand immediately after a
newline, in the order of the text. -/
def specEntriesAfterNewlines : Str → List (Str × Str)
  | [] => []
  | c :: cs => (if c = '\n' then specAnswerEntryAt cs else []) ++ specEntriesAfterNewlines cs

/-- Following the spec's words: the entries of the line-start markers of an answers region,
line-start meaning at the start of the region or immediately after a newline. -/
def specAnswerEntries (region : Str) : List (Str × Str) :=
  specAnswerEntryAt region ++ specEntriesAfterNewlines region

/-- Following the spec's words: the value of an identifier in the Answer Table, the trimmed
text of the last line-start marker with the identifier, if there is one. -/
def specAnswerValue (region id : Str) : Option Str :=
  ((specAnswerEntries region).reverse.find? fun e => e.1 == id).map fun e => trim e.2

/-- Following the spec's words: the text of a heading `\subsection*{<id>. <title>}`. -/
def headingText (id title : Str) : Str :=
  "\\subsection*\x7b".toList ++ id ++ ". ".toList ++ title ++ "\x7d".toList

/-- Following the spec's words: a heading `\subsection*{<id>. <title>}` with the identifier
`id` occurs in the text, with a title that is not empty and has no closing brace. -/
def HeadingOccurs (id text : Str) : Prop :=
  ∃ pre title post, title ≠ [] ∧ (∀ c ∈ title, c ≠ '\x7d') ∧
    text = pre ++ headingText id title ++ post

/-- Following the spec's words: an identifier `d.d`, digits, a dot and digits. -/
def IsSectionId (id : Str) : Prop :=
  ∃ a b : Str, a ≠ [] ∧ (∀ c ∈ a, isDigit c = true) ∧ b ≠ [] ∧ (∀ c ∈ b, isDigit c = true) ∧
    id = a ++ '.' :: b

/-! ## Forms and properties the theorems speak of -/

/-- A problem block of the body. -/
def BodyItem.isProblem : BodyItem → Bool
  | .intro _ => false
  | .problem _ _ _ _ => true

/-- The text blocks a piece of a span stands for: its normal form when that is not empty. -/
def textItems (part : Str) : List ContentBlock :=
  if trim (convertLatex part) ≠ [] then [.text (convertLatex part)] else []

/-- The start of the inside of a figure block of the form the spec describes: a text `X`, the
graphic `\includegraphics{foo}`, and a text `Y`. -/
def figureHead (X foo Y : Str) : Str :=
  X ++ (includeLit ++ ('\x7b' :: (foo ++ ('\x7d' :: Y))))

/-- The inside of a figure block of the form the spec describes: the start, the caption
`\caption{cap}`, and a text `Z`. -/
def figureInner (X foo Y cap Z : Str) : Str :=
  figureHead X foo Y ++ (captionLit ++ (cap ++ ('\x7d' :: Z)))

/-- A figure block of the form the spec describes,
`\begin{figure}X\includegraphics{foo}Y\caption{cap}Z\end{figure}`. -/
def figureBlock (X foo Y cap Z : Str) : Str :=
  figureBegin ++ figureInner X foo Y cap Z ++ figureEnd

/-- A matcher is sound when the text it is tried on is the text it matched followed by the
text it leaves: every matcher of this file is, so that the loops, which go on with the text
left, never run out of the fuel they start with. -/
def SoundRx (rx : Rx) : Prop :=
  ∀ prev s m, rx prev s = some m → s = m.matched ++ m.rest

/-- An expression that matches only in a text with a backslash. -/
def NeedsBackslash (rx : Rx) : Prop :=
  ∀ prev s, '\\' ∉ s → rx prev s = none

/-- The expressions of the steps of `convertLatex` before the blank-line step, in order. -/
def directiveSteps : List Rx :=
  [rxBreakEol, rxBreakNl, rxLitSpaces "\\[".toList, rxSpacesLit "\\]".toList,
    rxLit "\\(".toList, rxLit "\\)".toList, rxEnv "equation".toList, rxEnv "align".toList,
    rxLit "\\begin\x7bitemize\x7d".toList, rxLit "\\end\x7bitemize\x7d".toList, rxItem,
    rxLit "\\begin\x7benumerate\x7d".toList, rxLit "\\end\x7benumerate\x7d".toList, rxFigure,
    rxBraced "\\tag\x7b".toList, rxBraced "\\captionsetup\x7b".toList,
    rxLit "\\begin\x7bcenter\x7d".toList, rxLit "\\end\x7bcenter\x7d".toList, rxIncludeLine,
    rxBraced "\\label\x7b".toList, rxBraced "\\ref\x7b".toList, rxLit "\\nonumber".toList,
    rxSpacing, rxSkip, rxLitSpaces "\\noindent".toList, rxLitSpaces "\\centering".toList,
    rxBraced "\\text\x7b".toList]

/-- A text in which no step of `convertLatex` before the blank-line step finds a match. -/
def NoDirective (s : Str) : Prop :=
  ∀ rx ∈ directiveSteps, search rx none s = none

instance (s : Str) : Decidable (NoDirective s) :=
  inferInstanceAs (Decidable (∀ rx ∈ directiveSteps, search rx none s = none))

/-- A text in which at no position three newlines or more start. -/
def NoBlankRun (s : Str) : Prop :=
  ∀ P S, s = P ++ S → (S.takeWhile (fun c => c == '\n')).length < 3

/-! ## Inputs of the examples -/

/-- The section span of the end-to-end scenario of the spec. -/
def kinematicsSpan : Str :=
  "\\subsection*\x7b1.1. Kinematics\x7d\n1.1. Find velocity.".toList

/-- A section span in which a marker with an empty statement is followed by another marker. -/
def emptyStatementSpan : Str :=
  "\\subsection*\x7b1.1. Kinematics\x7d\n1.1. \n1.2. Find velocity.".toList

/-- A section span in which two markers carry the same number. -/
def repeatedNumberSpan : Str :=
  "\\subsection*\x7b1.1. Kinematics\x7d\n1.1. Find velocity.\n1.1. Find time.".toList

/-- A section span whose heading carries another title than the catalog. -/
def motionSpan : Str :=
  "\\subsection*\x7b1.1. Motion\x7d\nAll bodies move.\n1.1. Find velocity.".toList

/-- A span in which the two tags of a figure block are joined by the deletion of a
directive. -/
def splicedFigureSpan : Str :=
  "\\begin\x7bfig\\nonumberure\x7dx\\end\x7bfigure\x7d".toList

/-- A span in which an unclosed `\begin{figure}` stands before a figure block. -/
def strayOpenerSpan : Str :=
  ("\\begin\x7bfigure\x7d".toList ++
    "\\begin\x7bfigure\x7d\\includegraphics\x7bfoo\x7d\\caption\x7bBar\x7d\\end\x7bfigure\x7d".toList)
    ++ "B".toList

/-- A section span with one problem, on one line after the heading: the marker `1.1. `, one
character, which the code drops, and `statement`, which is then the raw statement. -/
def sectionWith (statement : Str) : Str :=
  "\\subsection*\x7b1.1. Kinematics\x7d\n1.1. x".toList ++ statement

/-- A text before a figure block. -/
def figureExampleBefore : Str := "See the figure.\n".toList

/-- A text after a figure block. -/
def figureExampleAfter : Str := "\nFind the force.".toList

/-- The answers region of the end-to-end scenario of the spec. -/
def scenarioAnswers : Str := "1.1. v = 5 m/s".toList

/-- A source of 8001 lines: `n` empty lines, a section span whose lines bring the count to 8000,
and the answers of the scenario on the line of index 8000.  The section span is then the last
of the statements region, and `parse` cuts exactly it for the section. -/
def sourceOf (n : Nat) (span : Str) : Str :=
  List.replicate n '\n' ++ (span ++ '\n' :: scenarioAnswers)

/-- The source of the end-to-end scenario of the spec: the heading of section 1.1 on the line
of index 7998, the problem on the next line, and the answers from the line of index 8000. -/
def scenarioSource : Str := sourceOf 7998 kinematicsSpan

/-- A source of 8001 lines: 8000 empty lines and then the line `1.1. v = 5 m/s`. -/
def answersOnlySource : Str :=
  List.replicate 8000 '\n' ++ "1.1. v = 5 m/s".toList

/-- A figure block with a graphic and no caption. -/
def plainFigureSpan : Str :=
  "\\begin\x7bfigure\x7d\\includegraphics[width=2cm]\x7bfig_1_3\x7d\\end\x7bfigure\x7d".toList

/-- A statements span in which a heading stands inside the braces of another. -/
def nestedHeadingSpan : Str :=
  "\\subsection*\x7b1.1. Kinematics \\subsection*\x7b1.2. Dynamics\x7d".toList

/-! # Theorems -/

/-! ## The matching loops -/

/-- The character before a position does not depend on what stands before a text that is not
empty. -/
theorem lastChar_cons (prev : Option Char) (c : Char) (t : Str) :
    lastChar prev (c :: t) = lastChar (some c) t := by
  cases t with
  | nil => simp [lastChar]
  | cons a as =>
    simp only [lastChar, List.getLast?_cons_cons]
    cases h : (a :: as).getLast? with
    | none => simp at h
    | some d => rfl

/-- The character before a position after a text that is not empty is the last of the text. -/
theorem lastChar_of_ne_nil (prev : Option Char) (t : Str) (h : t ≠ []) :
    ∃ p, lastChar prev t = some p := by
  unfold lastChar
  cases hl : t.getLast? with
  | none => exact absurd (List.getLast?_eq_none_iff.mp hl) h
  | some p => exact ⟨p, rfl⟩

/-- What `search` finds is a match of the expression at the position after the text skipped. -/
theorem search_some {rx : Rx} {prev : Option Char} {s pre : Str} {m : Match}
    (h : search rx prev s = some (pre, m)) :
    ∃ s', s = pre ++ s' ∧ rx (lastChar prev pre) s' = some m := by
  induction s generalizing prev pre with
  | nil =>
    simp only [search, Option.map_eq_some'] at h
    obtain ⟨m', hm, he⟩ := h
    simp only [Prod.mk.injEq] at he
    obtain ⟨rfl, rfl⟩ := he
    exact ⟨[], rfl, hm⟩
  | cons c cs ih =>
    simp only [search] at h
    split at h
    · rename_i m' hm
      simp only [Option.some.injEq, Prod.mk.injEq] at h
      obtain ⟨rfl, rfl⟩ := h
      exact ⟨c :: cs, rfl, hm⟩
    · simp only [Option.map_eq_some'] at h
      obtain ⟨r, hr, he⟩ := h
      simp only [Prod.mk.injEq] at he
      obtain ⟨rfl, rfl⟩ := he
      obtain ⟨s', hs, hm⟩ := @ih (some c) r.1 (by rw [hr])
      refine ⟨s', by rw [hs]; rfl, ?_⟩
      rw [lastChar_cons]; exact hm

/-- A match at the current position is the leftmost one. -/
theorem search_of_match {rx : Rx} {prev : Option Char} {s : Str} {m : Match}
    (h : rx prev s = some m) : search rx prev s = some ([], m) := by
  cases s with
  | nil => simp [search, h]
  | cons c cs => simp [search, h]

/-- The search finds nothing in a text at no position of which the expression matches. -/
theorem search_eq_none (rx : Rx) (s : Str) (prev : Option Char)
    (h : ∀ pre s' p, s = pre ++ s' → rx p s' = none) : search rx prev s = none := by
  cases hs : search rx prev s with
  | none => rfl
  | some r =>
    obtain ⟨pre, m⟩ := r
    obtain ⟨s', hs', hm⟩ := search_some hs
    rw [h pre s' _ hs'] at hm
    simp at hm

/-- The search finds a match when the expression matches after some text. -/
theorem search_isSome (rx : Rx) (a u : Str) (prev : Option Char)
    (h : ∀ p, (rx p u).isSome = true) : (search rx prev (a ++ u)).isSome = true := by
  induction a generalizing prev with
  | nil =>
    obtain ⟨m, hm⟩ := Option.isSome_iff_exists.mp (h prev)
    rw [List.nil_append, search_of_match hm]
    rfl
  | cons c cs ih =>
    simp only [List.cons_append, search]
    split
    · rfl
    · obtain ⟨r, hr⟩ := Option.isSome_iff_exists.mp (ih (some c))
      simp [hr]

/-- The search passes over a text at no position of which the expression matches, the
character before each position being the one that stands there. -/
theorem search_append_skip_from (rx : Rx) (P S : Str) (prev : Option Char)
    (hskip : ∀ k, k < P.length → rx (lastChar prev (P.take k)) (P.drop k ++ S) = none) :
    search rx prev (P ++ S)
      = (search rx (lastChar prev P) S).map fun r => (P ++ r.1, r.2) := by
  induction P generalizing prev with
  | nil =>
    simp only [List.nil_append, lastChar, List.getLast?_nil]
    cases search rx prev S <;> simp
  | cons c cs ih =>
    have h0 := hskip 0 (by simp)
    simp only [List.drop_zero, List.cons_append, List.take_zero, lastChar,
      List.getLast?_nil] at h0
    rw [List.cons_append, search, h0]
    dsimp only
    rw [ih (some c) (fun k hk => by
      have := hskip (k + 1) (by simp; omega)
      rw [List.take_succ_cons, lastChar_cons] at this
      simpa using this), lastChar_cons]
    cases search rx (lastChar (some c) cs) S <;> simp

/-- The search passes over a text at no position of which the expression matches. -/
theorem search_append_skip (rx : Rx) (P S : Str) (prev : Option Char)
    (hskip : ∀ k, k < P.length → ∀ p, rx p (P.drop k ++ S) = none) :
    search rx prev (P ++ S)
      = (search rx (lastChar prev P) S).map fun r => (P ++ r.1, r.2) := by
  induction P generalizing prev with
  | nil =>
    simp only [List.nil_append, lastChar, List.getLast?_nil]
    cases search rx prev S <;> simp
  | cons c cs ih =>
    have h0 := hskip 0 (by simp) prev
    simp only [List.drop_zero, List.cons_append] at h0
    rw [List.cons_append, search, h0]
    dsimp only
    rw [ih (some c) (fun k hk p => by
      have := hskip (k + 1) (by simp; omega) p
      simpa using this), lastChar_cons]
    cases search rx (lastChar (some c) cs) S <;> simp

/-- The search passes over such a text to a match right after it. -/
theorem search_append_match (rx : Rx) (P S : Str) (prev : Option Char) (m : Match)
    (hskip : ∀ k, k < P.length → ∀ p, rx p (P.drop k ++ S) = none)
    (hm : ∀ p, rx p S = some m) : search rx prev (P ++ S) = some (P, m) := by
  rw [search_append_skip rx P S prev hskip, search_of_match (hm _)]
  simp

/-- Every match `execAllFrom` lists is a match of the expression somewhere. -/
theorem execAllFrom_mem {rx : Rx} {fuel pos : Nat} {prev : Option Char} {s : Str}
    {im : Nat × Match} (h : im ∈ execAllFrom rx fuel pos prev s) :
    ∃ prev' s', rx prev' s' = some im.2 := by
  induction fuel generalizing pos prev s with
  | zero => simp [execAllFrom] at h
  | succ fuel ih =>
    simp only [execAllFrom] at h
    split at h
    · simp at h
    · rename_i pre m hsearch
      obtain ⟨s', _, hm⟩ := search_some hsearch
      split at h
      · simp only [List.mem_singleton] at h
        subst h
        exact ⟨_, _, hm⟩
      · simp only [List.mem_cons] at h
        rcases h with h | h
        · subst h; exact ⟨_, _, hm⟩
        · exact ih h
      · simp only [List.mem_cons] at h
        rcases h with h | h
        · subst h; exact ⟨_, _, hm⟩
        · exact ih h

/-- The first match `execAllFrom` lists is the one the search finds first. -/
theorem execAllFrom_head (rx : Rx) (fuel pos : Nat) (prev : Option Char) (s pre : Str)
    (m : Match) (h : search rx prev s = some (pre, m)) :
    ∃ tl, execAllFrom rx (fuel + 1) pos prev s = (pos + pre.length, m) :: tl := by
  rw [execAllFrom, h]
  dsimp only
  split
  · exact ⟨_, rfl⟩
  · exact ⟨_, rfl⟩
  · exact ⟨_, rfl⟩

/-- A global replacement changes nothing in a text in which the expression has no match. -/
theorem replaceAll_of_search_none (rx : Rx) (r : Replacement) (s : Str)
    (h : search rx none s = none) : replaceAll rx r s = s := by
  simp [replaceAll, replaceAllFrom, h]

/-! ## Literals, lazy bodies and trimmed texts -/

/-- A text that starts with a literal continues with the rest. -/
theorem dropLit_append (lit x : Str) : dropLit lit (lit ++ x) = some x := by
  induction lit with
  | nil => cases x <;> rfl
  | cons a as ih => simp [dropLit, ih]

/-- The literal is dropped exactly from the texts that start with it. -/
theorem dropLit_eq_some {lit s r : Str} : dropLit lit s = some r ↔ s = lit ++ r := by
  constructor
  · intro h
    induction lit generalizing s with
    | nil =>
      cases s <;> simp [dropLit] at h <;> simp [h]
    | cons a as ih =>
      cases s with
      | nil => simp [dropLit] at h
      | cons c cs =>
        simp only [dropLit] at h
        split at h
        · rename_i hac
          rw [hac, ih h]; rfl
        · simp at h
  · rintro rfl
    exact dropLit_append lit r

/-- A command literal, a backslash followed by characters that are not backslashes, does not
start inside a text in which it does not occur, when that text is followed by a backslash. -/
theorem dropLit_none_inside (lit P W : Str) (hlit : '\\' ∉ lit)
    (hP : ¬ ('\\' :: lit) <:+: P) (k : Nat) (hk : k < P.length) :
    dropLit ('\\' :: lit) (P.drop k ++ '\\' :: W) = none := by
  cases h : dropLit ('\\' :: lit) (P.drop k ++ '\\' :: W) with
  | none => rfl
  | some r =>
    exfalso
    have he := dropLit_eq_some.mp h
    rcases List.append_eq_append_iff.mp he with ⟨a', h1, h2⟩ | ⟨c', h1, h2⟩
    · cases a' with
      | nil =>
        apply hP
        refine ⟨P.take k, [], ?_⟩
        rw [List.append_nil] at h1
        rw [List.append_nil, h1, List.take_append_drop]
      | cons x xs =>
        simp only [List.cons_append, List.cons.injEq] at h2
        obtain ⟨rfl, _⟩ := h2
        cases hD : P.drop k with
        | nil =>
          have := List.drop_eq_nil_iff.mp hD
          omega
        | cons d ds =>
          rw [hD] at h1
          simp only [List.cons_append, List.cons.injEq] at h1
          apply hlit
          rw [h1.2]
          simp
    · apply hP
      refine ⟨P.take k, c', ?_⟩
      rw [List.append_assoc, ← h1, List.take_append_drop]

/-- The text up to the first closing brace. -/
theorem takeWhile_notClose (T R : Str) (hclose : ∀ c ∈ T, c ≠ '\x7d') :
    (T ++ '\x7d' :: R).takeWhile notClose = T ∧
      (T ++ '\x7d' :: R).dropWhile notClose = '\x7d' :: R := by
  have h : ∀ c ∈ T, notClose c = true := by
    intro c hc
    simp [notClose, hclose c hc]
  constructor
  · rw [List.takeWhile_append_of_pos h, List.takeWhile_cons_of_neg (by simp [notClose])]
    simp
  · rw [List.dropWhile_append_of_pos h, List.dropWhile_cons_of_neg (by simp [notClose])]

/-- A lazy body ends where `stop` matches: the text is the body followed by a text at which
`stop` gives the result. -/
theorem lazyUntil_some {stop : Str → Option (Str × Str)} {t body closing rest : Str}
    (h : lazyUntil stop t = some (body, closing, rest)) :
    ∃ u, t = body ++ u ∧ stop u = some (closing, rest) := by
  induction t generalizing body with
  | nil =>
    simp only [lazyUntil, Option.map_eq_some'] at h
    obtain ⟨r, hr, he⟩ := h
    simp only [Prod.mk.injEq] at he
    obtain ⟨rfl, rfl, rfl⟩ := he
    exact ⟨[], rfl, hr⟩
  | cons c cs ih =>
    simp only [lazyUntil] at h
    split at h
    · rename_i r hr
      simp only [Option.some.injEq, Prod.mk.injEq] at h
      obtain ⟨rfl, rfl, rfl⟩ := h
      exact ⟨c :: cs, rfl, hr⟩
    · simp only [Option.map_eq_some'] at h
      obtain ⟨r, hr, he⟩ := h
      simp only [Prod.mk.injEq] at he
      obtain ⟨rfl, rfl, rfl⟩ := he
      obtain ⟨u, hu, hs⟩ := @ih r.1 (by rw [hr])
      exact ⟨u, by rw [hu]; rfl, hs⟩

/-- A lazy body is found whenever `stop` matches somewhere. -/
theorem lazyUntil_isSome (stop : Str → Option (Str × Str)) (b u : Str)
    (h : (stop u).isSome = true) : (lazyUntil stop (b ++ u)).isSome = true := by
  induction b with
  | nil =>
    obtain ⟨r, hr⟩ := Option.isSome_iff_exists.mp h
    cases u with
    | nil => simp [lazyUntil, hr]
    | cons c cs => simp [lazyUntil, hr]
  | cons c cs ih =>
    simp only [List.cons_append, lazyUntil]
    split
    · rfl
    · obtain ⟨r, hr⟩ := Option.isSome_iff_exists.mp ih
      simp [hr]

/-- A lazy body runs over a text at no position of which `stop` matches, up to a match of
`stop` right after it. -/
theorem lazyUntil_append (stop : Str → Option (Str × Str)) (b u closing rest : Str)
    (hskip : ∀ k, k < b.length → stop (b.drop k ++ u) = none)
    (hu : stop u = some (closing, rest)) :
    lazyUntil stop (b ++ u) = some (b, closing, rest) := by
  induction b with
  | nil =>
    cases u with
    | nil => simp [lazyUntil, hu]
    | cons c cs => simp [lazyUntil, hu]
  | cons c cs ih =>
    have h0 := hskip 0 (by simp)
    simp only [List.drop_zero, List.cons_append] at h0
    rw [List.cons_append, lazyUntil, h0]
    dsimp only
    rw [ih (fun k hk => by
      have := hskip (k + 1) (by simp; omega)
      simpa using this)]
    rfl

/-- A trimmed text does not start with white space. -/
theorem takeWhile_isSpace_trim (x : Str) : (trim x).takeWhile isSpace = [] := by
  unfold trim
  obtain ⟨t, ht⟩ := List.rdropWhile_prefix (p := isSpace) (l := x.dropWhile isSpace)
  cases hr : List.rdropWhile isSpace (x.dropWhile isSpace) with
  | nil => rfl
  | cons a as =>
    rw [hr] at ht
    have hne : x.dropWhile isSpace ≠ [] := by rw [← ht]; simp
    have hhead := List.head_dropWhile_not isSpace x hne
    have key : ∀ (l : Str) (hl : l ≠ []), a :: as ++ t = l → l.head hl = a := by
      intro l hl h; subst h; rfl
    rw [key _ hne ht] at hhead
    simp [hhead]

/-- A trimmed text does not end with white space. -/
theorem trim_no_trailing_space (x pre w : Str) (h : trim x = pre ++ w) (hw : w ≠ [])
    (hsp : ∀ c ∈ w, isSpace c = true) : False := by
  have hne : trim x ≠ [] := by rw [h]; simp [hw]
  have hlast := List.rdropWhile_last_not (p := isSpace) (l := x.dropWhile isSpace) hne
  apply hlast
  have key : ∀ (l : Str) (hl : l ≠ []), l = pre ++ w → l.getLast hl = w.getLast hw := by
    intro l hl e; subst e; exact List.getLast_append_of_ne_nil hw
  have := key (trim x) hne h
  unfold trim at this
  rw [this]
  exact hsp _ (List.getLast_mem hw)

/-- Removing leading white space from a trimmed text changes nothing. -/
theorem replaceFirst_leading_trim (x : Str) :
    replaceFirst rxLeadingSpace erase (trim x) = trim x := by
  unfold replaceFirst
  cases hs : search rxLeadingSpace none (trim x) with
  | none => rfl
  | some r =>
    obtain ⟨pre, m⟩ := r
    obtain ⟨s', hs', hm⟩ := search_some hs
    exfalso
    unfold rxLeadingSpace at hm
    split at hm
    · rename_i w ws hprev hw
      cases pre with
      | nil =>
        simp only [List.nil_append] at hs'
        rw [← hs', takeWhile_isSpace_trim] at hw
        simp at hw
      | cons a as =>
        rw [lastChar_cons] at hprev
        unfold lastChar at hprev
        split at hprev <;> simp at hprev
    · simp at hm

/-- Removing trailing white space from a trimmed text changes nothing. -/
theorem replaceFirst_trailing_trim (x : Str) :
    replaceFirst rxTrailingSpace erase (trim x) = trim x := by
  unfold replaceFirst
  cases hs : search rxTrailingSpace none (trim x) with
  | none => rfl
  | some r =>
    obtain ⟨pre, m⟩ := r
    obtain ⟨s', hs', hm⟩ := search_some hs
    exfalso
    unfold rxTrailingSpace at hm
    split at hm
    · rename_i w ws hw hd
      have hall : ∀ c ∈ s', isSpace c = true := List.dropWhile_eq_nil_iff.mp hd
      refine trim_no_trailing_space x pre s' hs' ?_ hall
      intro h; rw [h] at hw; simp at hw
    · simp at hm

/-- The result of `convertLatex` is a trimmed text. -/
theorem convertLatex_trimmed (text : Str) : ∃ x, convertLatex text = trim x := by
  unfold convertLatex
  split
  · exact ⟨[], rfl⟩
  · exact ⟨_, rfl⟩

/-- A text that starts with `#` is not empty after trimming. -/
theorem trim_heading_ne_nil (t : Str) : trim ("## ".toList ++ t) ≠ [] := by
  unfold trim
  rw [Ne, List.rdropWhile_eq_nil_iff]
  intro h
  have := h '#' (by simp [List.dropWhile, isSpace])
  revert this
  decide

/-! ## The expressions -/

/-- A match of the figure expression is a `\begin{figure}`, the inside, which is the capture,
and an `\end{figure}`; the text continues with the rest. -/
theorem rxFigure_some {prev : Option Char} {s : Str} {m : Match}
    (h : rxFigure prev s = some m) :
    ∃ inner, m.matched = figureBegin ++ inner ++ figureEnd ∧ m.groups = [inner] ∧
      s = m.matched ++ m.rest := by
  unfold rxFigure at h
  split at h
  · simp at h
  · rename_i t ht
    split at h
    · simp at h
    · rename_i inner closing rest hl
      simp only [Option.some.injEq] at h
      subst h
      obtain ⟨u, hu, hstop⟩ := lazyUntil_some hl
      simp only [Option.map_eq_some'] at hstop
      obtain ⟨r, hr, he⟩ := hstop
      simp only [Prod.mk.injEq] at he
      obtain ⟨rfl, rfl⟩ := he
      refine ⟨inner, rfl, rfl, ?_⟩
      rw [dropLit_eq_some.mp ht, hu, dropLit_eq_some.mp hr]
      simp

/-- The figure expression matches at a `\begin{figure}` that has an `\end{figure}` after it. -/
theorem rxFigure_isSome (prev : Option Char) (b c : Str) :
    (rxFigure prev (figureBegin ++ b ++ figureEnd ++ c)).isSome = true := by
  have h := lazyUntil_isSome
    (fun u => (dropLit figureEnd u).map fun r => (figureEnd, r)) b (figureEnd ++ c)
    (by simp [dropLit_append])
  obtain ⟨r, hr⟩ := Option.isSome_iff_exists.mp h
  unfold rxFigure
  rw [List.append_assoc, List.append_assoc, dropLit_append]
  dsimp only
  rw [hr]
  rfl

/-- The figure expression matches a block whose inside has no `\end{figure}`, up to the
`\end{figure}` after the inside. -/
theorem rxFigure_block (p : Option Char) (inner rest : Str) (hEnd : ¬ figureEnd <:+: inner) :
    rxFigure p (figureBegin ++ inner ++ figureEnd ++ rest)
      = some ⟨figureBegin ++ inner ++ figureEnd, [inner], rest⟩ := by
  have hl := lazyUntil_append (fun u => (dropLit figureEnd u).map fun r => (figureEnd, r))
    inner (figureEnd ++ rest) figureEnd rest
    (fun k hk => by
      have := dropLit_none_inside "end\x7bfigure\x7d".toList inner
        ("end\x7bfigure\x7d".toList ++ rest) (by decide) hEnd k hk
      have hfe : figureEnd ++ rest = '\\' :: ("end\x7bfigure\x7d".toList ++ rest) := rfl
      have hfe' : figureEnd = '\\' :: "end\x7bfigure\x7d".toList := rfl
      rw [hfe]
      simp only [hfe', this, Option.map_none'])
    (by simp [dropLit_append])
  unfold rxFigure
  rw [List.append_assoc, List.append_assoc, dropLit_append]
  dsimp only
  rw [hl]

/-- The figure expression does not match inside a text without `\begin{figure}` that is
followed by a backslash. -/
theorem rxFigure_skip (A W : Str) (hA : ¬ figureBegin <:+: A) (k : Nat) (hk : k < A.length)
    (p : Option Char) : rxFigure p (A.drop k ++ '\\' :: W) = none := by
  have := dropLit_none_inside "begin\x7bfigure\x7d".toList A W (by decide) hA k hk
  have hfb : figureBegin = '\\' :: "begin\x7bfigure\x7d".toList := rfl
  unfold rxFigure
  rw [hfb, this]

/-- The graphics expression matches `\includegraphics{foo}` where it stands. -/
theorem rxIncludeGraphics_at (p : Option Char) (foo rest : Str) (hfoo : foo ≠ [])
    (hclose : ∀ c ∈ foo, c ≠ '\x7d') :
    rxIncludeGraphics p (includeLit ++ ('\x7b' :: (foo ++ ('\x7d' :: rest))))
      = some ⟨includeLit ++ '\x7b' :: foo ++ ['\x7d'], [foo], rest⟩ := by
  obtain ⟨h1, h2⟩ := takeWhile_notClose foo rest hclose
  have hb : bracedArg ('\x7b' :: (foo ++ ('\x7d' :: rest))) = some (foo, rest) := by
    unfold bracedArg
    simp only [h1, h2]
    cases foo with
    | nil => exact absurd rfl hfoo
    | cons b body => rfl
  unfold rxIncludeGraphics
  rw [dropLit_append]
  dsimp only
  rw [hb]
  rfl

/-- The graphics expression does not match inside a text without `\includegraphics` that is
followed by a backslash. -/
theorem rxIncludeGraphics_skip (X W : Str) (hX : ¬ includeLit <:+: X) (k : Nat)
    (hk : k < X.length) (p : Option Char) :
    rxIncludeGraphics p (X.drop k ++ '\\' :: W) = none := by
  have := dropLit_none_inside "includegraphics".toList X W (by decide) hX k hk
  have hl : includeLit = '\\' :: "includegraphics".toList := rfl
  unfold rxIncludeGraphics
  rw [hl, this]

/-- A braced command is matched where it stands. -/
theorem rxBraced_at (lit T R : Str) (p : Option Char) (hclose : ∀ c ∈ T, c ≠ '\x7d') :
    rxBraced lit p (lit ++ (T ++ ('\x7d' :: R))) = some ⟨lit ++ T ++ ['\x7d'], [T], R⟩ := by
  obtain ⟨h1, h2⟩ := takeWhile_notClose T R hclose
  unfold rxBraced
  rw [dropLit_append]
  simp only [h1, h2]

/-- A braced command with a body that is not empty is matched where it stands. -/
theorem rxBraced1_at (lit T R : Str) (prev : Option Char) (hT : T ≠ [])
    (hclose : ∀ c ∈ T, c ≠ '\x7d') :
    rxBraced1 lit prev (lit ++ T ++ '\x7d' :: R) = some ⟨lit ++ T ++ ['\x7d'], [T], R⟩ := by
  obtain ⟨h1, h2⟩ := takeWhile_notClose T R hclose
  unfold rxBraced1
  rw [List.append_assoc, dropLit_append]
  simp only [h1, h2]
  cases T with
  | nil => exact absurd rfl hT
  | cons b body => simp

/-- The caption expression does not match inside a text without `\caption{` that is followed
by a backslash. -/
theorem rxCaption_skip (P W : Str) (hP : ¬ captionLit <:+: P) (k : Nat) (hk : k < P.length)
    (p : Option Char) : rxCaption p (P.drop k ++ '\\' :: W) = none := by
  have := dropLit_none_inside "caption\x7b".toList P W (by decide) hP k hk
  have hl : captionLit = '\\' :: "caption\x7b".toList := rfl
  unfold rxCaption rxBraced
  rw [hl, this]

/-- Removing `\textit{` and closing braces changes nothing in a text without backslash and
closing brace. -/
theorem replaceAll_rxTextit (cap : Str) (hcap : ∀ c ∈ cap, c ≠ '\x7d' ∧ c ≠ '\\') :
    replaceAll rxTextit erase cap = cap := by
  apply replaceAll_of_search_none
  apply search_eq_none
  intro pre s' p hs
  cases s' with
  | nil => rfl
  | cons c cs =>
    have hc := hcap c (by rw [hs]; simp)
    have h1 : dropLit "\\textit\x7b".toList (c :: cs) = none := by
      have : "\\textit\x7b".toList = '\\' :: "textit\x7b".toList := rfl
      rw [this, dropLit, if_neg (Ne.symm hc.2)]
    have h2 : dropLit "\x7d".toList (c :: cs) = none := by
      have : "\x7d".toList = ['\x7d'] := rfl
      rw [this, dropLit, if_neg (Ne.symm hc.1)]
    simp only [rxTextit, rxAlt, rxLit, h1, h2, Option.map_none']

/-- A number `\d+\.\d+` is digits, a dot, digits. -/
theorem dottedNumber_some {s num u : Str} (h : dottedNumber s = some (num, u)) :
    ∃ a b : Str, a ≠ [] ∧ (∀ c ∈ a, isDigit c = true) ∧ b ≠ [] ∧ (∀ c ∈ b, isDigit c = true) ∧
      num = a ++ '.' :: b := by
  unfold dottedNumber at h
  split at h
  · rename_i a as t ha _
    split at h
    · rename_i b bs hb
      simp only [Option.some.injEq, Prod.mk.injEq] at h
      refine ⟨a :: as, b :: bs, by simp, ?_, by simp, ?_, h.1.symm⟩
      · intro c hc; rw [← ha] at hc; exact List.mem_takeWhile_imp hc
      · intro c hc; rw [← hb] at hc; exact List.mem_takeWhile_imp hc
    · simp at h
  · simp at h

/-- The first capture of a heading is digits, a dot, digits. -/
theorem subsectionRe_group {prev : Option Char} {s : Str} {m : Match}
    (h : subsectionRe prev s = some m) :
    ∃ a b : Str, a ≠ [] ∧ (∀ c ∈ a, isDigit c = true) ∧ b ≠ [] ∧ (∀ c ∈ b, isDigit c = true) ∧
      m.group 1 = a ++ '.' :: b := by
  unfold subsectionRe at h
  split at h
  · simp at h
  · split at h
    · simp at h
    · rename_i num u hnum
      split at h
      · simp at h
      · split at h
        · simp only [Option.some.injEq] at h
          subst h
          exact dottedNumber_some hnum
        · simp at h

/-- The capture of a problem marker is the major number, a dot, and digits. -/
theorem probNumPattern_group {major : Str} {prev : Option Char} {s : Str} {m : Match}
    (h : probNumPattern major prev s = some m) :
    ∃ minor : Str, minor ≠ [] ∧ (∀ c ∈ minor, isDigit c = true) ∧
      m.group 1 = major ++ '.' :: minor := by
  have key : ∀ {t : Str} {r : Str × Str × Str}, problemMarker major t = some r →
      ∃ minor : Str, minor ≠ [] ∧ (∀ c ∈ minor, isDigit c = true) ∧
        r.1 = major ++ '.' :: minor := by
    intro t r hr
    unfold problemMarker at hr
    split at hr
    · split at hr
      · rename_i d ds u hd _
        split at hr
        · simp only [Option.some.injEq] at hr
          subst hr
          refine ⟨d :: ds, by simp, ?_, rfl⟩
          intro c hc; rw [← hd] at hc; exact List.mem_takeWhile_imp hc
        · simp at hr
      · simp at hr
    · simp at hr
  unfold probNumPattern at h
  split at h
  · rename_i num marker rest hm
    simp only [Option.some.injEq] at h
    subst h
    split at hm
    · exact key hm
    · simp at hm
  · split at h
    · simp only [Option.map_eq_some'] at h
      obtain ⟨r, hr, rfl⟩ := h
      exact key hr
    · simp at h

/-- No problem marker is found inside a text that starts with a backslash and has no newline,
when the major number is made of digits. -/
theorem probNumPattern_skip (major H rest : Str) (hmajor : ∀ c ∈ major, isDigit c = true)
    (hH : ∀ c ∈ H, c ≠ '\n') (hhead : ∀ t, H ≠ '.' :: t)
    (hhead' : ∀ c t, H = c :: t → isDigit c = false)
    (k : Nat) (hk : k < H.length) :
    probNumPattern major (lastChar none (H.take k)) (H.drop k ++ rest) = none := by
  have hnl : ∀ t, H.drop k ++ rest ≠ '\n' :: t := by
    intro t ht
    cases hd : H.drop k with
    | nil =>
      have := List.drop_eq_nil_iff.mp hd
      omega
    | cons c cs =>
      rw [hd] at ht
      simp only [List.cons_append, List.cons.injEq] at ht
      have : c ∈ H := List.mem_of_mem_drop (by rw [hd]; simp)
      exact hH c this ht.1
  cases k with
  | zero =>
    simp only [List.take_zero, List.drop_zero, lastChar, List.getLast?_nil] at hnl ⊢
    have hpm : problemMarker major (H ++ rest) = none := by
      unfold problemMarker
      cases H with
      | nil => simp at hk
      | cons c t =>
        cases major with
        | nil =>
          simp only [List.cons_append, dropLit]
          split
          · rename_i t' heq
            simp only [Option.some.injEq, List.cons.injEq] at heq
            exact absurd (by rw [heq.1]) (hhead t)
          · rfl
        | cons d ds =>
          have hd := hmajor d (by simp)
          have hc := hhead' c t rfl
          have : d ≠ c := by
            intro h; rw [h, hc] at hd; exact absurd hd (by decide)
          simp only [List.cons_append, dropLit, if_neg this]
    unfold probNumPattern
    rw [hpm]
    dsimp only
    split
    · rename_i t ht
      exact absurd ht (hnl t)
    · rfl
  | succ k =>
    have hprev : ∃ c, lastChar none (H.take (k + 1)) = some c := by
      cases H with
      | nil => simp at hk
      | cons c t =>
        rw [List.take_succ_cons, lastChar_cons]
        unfold lastChar
        split
        · exact ⟨_, rfl⟩
        · exact ⟨_, rfl⟩
    obtain ⟨c, hc⟩ := hprev
    unfold probNumPattern
    rw [hc]
    dsimp only
    split
    · rename_i t ht
      exact absurd ht (hnl t)
    · rfl

/-- After index 0 the problem expression matches at a newline followed by a marker. -/
theorem probNumPattern_newline (major t : Str) (q : Char) :
    probNumPattern major (some q) ('\n' :: t)
      = (problemMarker major t).map fun r => ⟨'\n' :: r.2.1, [r.1], r.2.2⟩ := rfl

/-- A problem marker is matched where it stands: the major number, a dot, digits, a dot and the
whole run of white space. -/
theorem problemMarker_at (major ds w body : Str) (hds : ds ≠ [])
    (hdig : ∀ c ∈ ds, isDigit c = true) (hw : w ≠ []) (hsp : ∀ c ∈ w, isSpace c = true)
    (hbody : ∀ c t, body = c :: t → isSpace c = false) :
    problemMarker major (major ++ '.' :: (ds ++ '.' :: (w ++ body)))
      = some (major ++ '.' :: ds, major ++ '.' :: ds ++ '.' :: w, body) := by
  have h1 : (ds ++ '.' :: (w ++ body)).takeWhile isDigit = ds := by
    rw [List.takeWhile_append_of_pos hdig, List.takeWhile_cons_of_neg (by decide)]
    simp
  have h2 : (ds ++ '.' :: (w ++ body)).dropWhile isDigit = '.' :: (w ++ body) := by
    rw [List.dropWhile_append_of_pos hdig, List.dropWhile_cons_of_neg (by decide)]
  have hb : body.takeWhile isSpace = [] ∧ body.dropWhile isSpace = body := by
    cases body with
    | nil => exact ⟨rfl, rfl⟩
    | cons c t =>
      have := hbody c t rfl
      simp [this]
  have h3 : (w ++ body).takeWhile isSpace = w := by
    rw [List.takeWhile_append_of_pos hsp, hb.1]
    simp
  have h4 : (w ++ body).dropWhile isSpace = body := by
    rw [List.dropWhile_append_of_pos hsp, hb.2]
  unfold problemMarker
  rw [dropLit_append]
  obtain ⟨d, ds', rfl⟩ := List.exists_cons_of_ne_nil hds
  obtain ⟨x, w', rfl⟩ := List.exists_cons_of_ne_nil hw
  simp only [List.cons_append] at h1 h2 h3 h4
  simp [h1, h2, h3, h4]

/-- No problem marker is found after index 0 in a text without newline. -/
theorem search_probNumPattern_none (major body : Str) (p : Char)
    (hbody : ∀ c ∈ body, c ≠ '\n') : search (probNumPattern major) (some p) body = none := by
  induction body generalizing p with
  | nil => rfl
  | cons c cs ih =>
    have hc : c ≠ '\n' := hbody c (by simp)
    have hrx : probNumPattern major (some p) (c :: cs) = none := by
      unfold probNumPattern
      dsimp only
      split
      · rename_i t ht
        simp only [List.cons.injEq] at ht
        exact absurd ht.1 hc
      · rfl
    rw [search, hrx]
    dsimp only
    rw [ih c (fun d hd => hbody d (by simp [hd]))]
    rfl

/-! ## The fuel of the loops -/

/-- What the search of a sound matcher finds splits the text. -/
theorem search_sound {rx : Rx} (h : SoundRx rx) {prev : Option Char} {s pre : Str} {m : Match}
    (hs : search rx prev s = some (pre, m)) : s = pre ++ (m.matched ++ m.rest) := by
  obtain ⟨s', hs', hm⟩ := search_some hs
  rw [hs', h _ _ _ hm]

/-- The loop of `replace` gives the same text with any fuel above the length of the text. -/
theorem replaceAllFrom_fuel (rx : Rx) (r : Replacement) (h : SoundRx rx) (fuel : Nat) :
    ∀ (prev : Option Char) (s : Str), s.length < fuel →
      replaceAllFrom rx r fuel prev s = replaceAllFrom rx r (s.length + 1) prev s := by
  induction fuel using Nat.strong_induction_on with
  | _ fuel ih =>
    intro prev s hlt
    cases fuel with
    | zero => omega
    | succ n =>
      rw [replaceAllFrom, replaceAllFrom]
      cases hs : search rx prev s with
      | none => rfl
      | some pm =>
        obtain ⟨pre, matched, groups, rest⟩ := pm
        have hsplit := search_sound h hs
        have hlen : s.length = pre.length + (matched.length + rest.length) := by
          rw [hsplit]; simp
        cases matched with
        | nil =>
          cases rest with
          | nil => rfl
          | cons c cs =>
            simp only [List.length_cons, List.length_nil] at hlen
            show _ ++ _ ++ c :: replaceAllFrom rx r n (some c) cs
              = _ ++ _ ++ c :: replaceAllFrom rx r s.length (some c) cs
            rw [ih n (by omega) (some c) cs (by omega),
              ih s.length (by omega) (some c) cs (by omega)]
        | cons a as =>
          simp only [List.length_cons] at hlen
          show _ ++ _ ++ replaceAllFrom rx r n _ rest
            = _ ++ _ ++ replaceAllFrom rx r s.length _ rest
          rw [ih n (by omega) _ rest (by omega), ih s.length (by omega) _ rest (by omega)]

/-- The loop of `exec` lists the same matches with any fuel above the length of the text. -/
theorem execAllFrom_fuel (rx : Rx) (h : SoundRx rx) (fuel : Nat) :
    ∀ (pos : Nat) (prev : Option Char) (s : Str), s.length < fuel →
      execAllFrom rx fuel pos prev s = execAllFrom rx (s.length + 1) pos prev s := by
  induction fuel using Nat.strong_induction_on with
  | _ fuel ih =>
    intro pos prev s hlt
    cases fuel with
    | zero => omega
    | succ n =>
      rw [execAllFrom, execAllFrom]
      cases hs : search rx prev s with
      | none => rfl
      | some pm =>
        obtain ⟨pre, matched, groups, rest⟩ := pm
        have hsplit := search_sound h hs
        have hlen : s.length = pre.length + (matched.length + rest.length) := by
          rw [hsplit]; simp
        cases matched with
        | nil =>
          cases rest with
          | nil => rfl
          | cons c cs =>
            simp only [List.length_cons, List.length_nil] at hlen
            show _ :: execAllFrom rx n _ (some c) cs = _ :: execAllFrom rx s.length _ (some c) cs
            rw [ih n (by omega) _ (some c) cs (by omega),
              ih s.length (by omega) _ (some c) cs (by omega)]
        | cons a as =>
          simp only [List.length_cons] at hlen
          show _ :: execAllFrom rx n _ _ rest = _ :: execAllFrom rx s.length _ _ rest
          rw [ih n (by omega) _ _ rest (by omega), ih s.length (by omega) _ _ rest (by omega)]

/-- The loop of `split` gives the same pieces with any fuel above the length of the text. -/
theorem splitKeepFrom_fuel (rx : Rx) (h : SoundRx rx) (fuel : Nat) :
    ∀ (prev : Option Char) (s : Str), s.length < fuel →
      splitKeepFrom rx fuel prev s = splitKeepFrom rx (s.length + 1) prev s := by
  induction fuel using Nat.strong_induction_on with
  | _ fuel ih =>
    intro prev s hlt
    cases fuel with
    | zero => omega
    | succ n =>
      rw [splitKeepFrom, splitKeepFrom]
      cases hs : search rx prev s with
      | none => rfl
      | some pm =>
        obtain ⟨pre, matched, groups, rest⟩ := pm
        have hsplit := search_sound h hs
        have hlen : s.length = pre.length + (matched.length + rest.length) := by
          rw [hsplit]; simp
        cases matched with
        | nil => rfl
        | cons a as =>
          simp only [List.length_cons] at hlen
          show _ :: _ :: splitKeepFrom rx n _ rest = _ :: _ :: splitKeepFrom rx s.length _ rest
          rw [ih n (by omega) _ rest (by omega), ih s.length (by omega) _ rest (by omega)]

/-- The loop of `replace` with more fuel than `replaceAll` gives it does the same. -/
theorem replaceAll_fuel (rx : Rx) (r : Replacement) (h : SoundRx rx) (s : Str) (fuel : Nat)
    (hfuel : s.length < fuel) : replaceAllFrom rx r fuel none s = replaceAll rx r s :=
  replaceAllFrom_fuel rx r h fuel none s hfuel

/-- The loop of `exec` with more fuel than `execAll` gives it does the same. -/
theorem execAll_fuel (rx : Rx) (h : SoundRx rx) (s : Str) (fuel : Nat)
    (hfuel : s.length < fuel) : execAllFrom rx fuel 0 none s = execAll rx s :=
  execAllFrom_fuel rx h fuel 0 none s hfuel

/-- The loop of `split` with more fuel than `splitKeep` gives it does the same. -/
theorem splitKeep_fuel (rx : Rx) (h : SoundRx rx) (s : Str) (fuel : Nat)
    (hfuel : s.length < fuel) : splitKeepFrom rx fuel none s = splitKeep rx s :=
  splitKeepFrom_fuel rx h fuel none s hfuel

/-- Where a greedy run is brought back to lies in the run. -/
theorem backtrackTo_some {p : Char → Bool} {ws kept back : Str} {d : Char}
    (h : backtrackTo p ws = some (kept, d, back)) : ws = kept ++ d :: back := by
  induction ws generalizing kept with
  | nil => simp [backtrackTo] at h
  | cons c cs ih =>
    simp only [backtrackTo] at h
    split at h
    · rename_i k d' b hb
      simp only [Option.some.injEq, Prod.mk.injEq] at h
      obtain ⟨rfl, rfl, rfl⟩ := h
      rw [ih hb]; rfl
    · split at h
      · simp only [Option.some.injEq, Prod.mk.injEq] at h
        obtain ⟨rfl, rfl, rfl⟩ := h
        rfl
      · simp at h

/-- An alternation of sound matchers is sound. -/
theorem soundRx_rxAlt (rxs : List Rx) (h : ∀ rx ∈ rxs, SoundRx rx) : SoundRx (rxAlt rxs) := by
  induction rxs with
  | nil => intro prev s m hm; simp [rxAlt] at hm
  | cons rx rxs ih =>
    intro prev s m hm
    simp only [rxAlt] at hm
    split at hm
    · rename_i m' hm'
      simp only [Option.some.injEq] at hm
      subst hm
      exact h rx (by simp) _ _ _ hm'
    · exact ih (fun rx' hrx' => h rx' (by simp [hrx'])) _ _ _ hm

/-- A literal is a sound matcher. -/
theorem soundRx_rxLit (lit : Str) : SoundRx (rxLit lit) := by
  intro prev s m hm
  simp only [rxLit, Option.map_eq_some'] at hm
  obtain ⟨rest, hr, rfl⟩ := hm
  exact dropLit_eq_some.mp hr

/-- A literal followed by white space is a sound matcher. -/
theorem soundRx_rxLitSpaces (lit : Str) : SoundRx (rxLitSpaces lit) := by
  intro prev s m hm
  simp only [rxLitSpaces, Option.map_eq_some'] at hm
  obtain ⟨rest, hr, rfl⟩ := hm
  rw [dropLit_eq_some.mp hr]
  simp

/-- White space followed by a literal is a sound matcher. -/
theorem soundRx_rxSpacesLit (lit : Str) : SoundRx (rxSpacesLit lit) := by
  intro prev s m hm
  simp only [rxSpacesLit, Option.map_eq_some'] at hm
  obtain ⟨rest, hr, rfl⟩ := hm
  have := dropLit_eq_some.mp hr
  calc s = s.takeWhile isSpace ++ s.dropWhile isSpace := by simp
    _ = s.takeWhile isSpace ++ lit ++ rest := by rw [this]; simp

/-- The line break at the end of a line is a sound matcher. -/
theorem soundRx_rxBreakEol : SoundRx rxBreakEol := by
  intro prev s m hm
  unfold rxBreakEol at hm
  split at hm
  · simp at hm
  · rename_i t ht
    have hst := dropLit_eq_some.mp ht
    split at hm
    · simp only [Option.some.injEq] at hm
      subst hm
      simp [hst]
    · rename_i a after hafter
      split at hm
      · rename_i kept d back hb
        simp only [Option.some.injEq] at hm
        subst hm
        have hws := backtrackTo_some hb
        have e : t = (kept ++ d :: back) ++ (a :: after) := by rw [← hws, ← hafter]; simp
        rw [hst]
        conv_lhs => rw [e]
        simp
      · simp at hm

/-- The line break before a newline is a sound matcher. -/
theorem soundRx_rxBreakNl : SoundRx rxBreakNl := by
  intro prev s m hm
  unfold rxBreakNl at hm
  split at hm
  · simp at hm
  · rename_i t ht
    have hst := dropLit_eq_some.mp ht
    split at hm
    · rename_i kept d back hb
      simp only [Option.some.injEq] at hm
      subst hm
      have hws := backtrackTo_some hb
      have e : t = (kept ++ d :: back) ++ t.dropWhile isSpace := by rw [← hws]; simp
      rw [hst]
      conv_lhs => rw [e]
      simp
    · simp at hm

/-- A tag of an environment is followed by the text after it. -/
theorem envTag_some {lit s tag rest : Str} (h : envTag lit s = some (tag, rest)) :
    s = tag ++ rest := by
  unfold envTag at h
  split at h
  · rename_i t ht
    simp only [Option.some.injEq, Prod.mk.injEq] at h
    obtain ⟨rfl, rfl⟩ := h
    rw [dropLit_eq_some.mp ht]
    simp
  · rename_i t ht
    simp only [Option.some.injEq, Prod.mk.injEq] at h
    obtain ⟨rfl, rfl⟩ := h
    rw [dropLit_eq_some.mp ht]
    simp
  · simp at h

/-- An environment is a sound matcher. -/
theorem soundRx_rxEnv (name : Str) : SoundRx (rxEnv name) := by
  intro prev s m hm
  unfold rxEnv at hm
  split at hm
  · simp at hm
  · rename_i opening t hopen
    split at hm
    · simp at hm
    · rename_i body closing rest hl
      simp only [Option.some.injEq] at hm
      subst hm
      obtain ⟨u, hu, hstop⟩ := lazyUntil_some hl
      rw [envTag_some hopen, hu, envTag_some hstop]
      simp

/-- The figure expression is a sound matcher. -/
theorem soundRx_rxFigure : SoundRx rxFigure := by
  intro prev s m hm
  obtain ⟨_, _, _, h⟩ := rxFigure_some hm
  exact h

/-- The list item is a sound matcher. -/
theorem soundRx_rxItem : SoundRx rxItem := by
  intro prev s m hm
  unfold rxItem at hm
  split at hm
  · split at hm
    · simp at hm
    · rename_i t ht
      simp only [Option.some.injEq] at hm
      subst hm
      have e : s = s.takeWhile isSpace ++ s.dropWhile isSpace := by simp
      conv_lhs => rw [e, dropLit_eq_some.mp ht]
      simp
  · simp at hm

/-- A braced command is a sound matcher. -/
theorem soundRx_rxBraced (lit : Str) : SoundRx (rxBraced lit) := by
  intro prev s m hm
  unfold rxBraced at hm
  split at hm
  · simp at hm
  · rename_i t ht
    split at hm
    · simp at hm
    · rename_i c rest hd
      simp only [Option.some.injEq] at hm
      subst hm
      have e : t = t.takeWhile notClose ++ t.dropWhile notClose := by simp
      rw [dropLit_eq_some.mp ht]
      conv_lhs => rw [e, hd]
      simp

/-- A braced command with a body that is not empty is a sound matcher. -/
theorem soundRx_rxBraced1 (lit : Str) : SoundRx (rxBraced1 lit) := by
  intro prev s m hm
  unfold rxBraced1 at hm
  split at hm
  · simp at hm
  · rename_i t ht
    split at hm
    · rename_i b body c rest htw hd
      simp only [Option.some.injEq] at hm
      subst hm
      have e : t = t.takeWhile notClose ++ t.dropWhile notClose := by simp
      rw [dropLit_eq_some.mp ht]
      conv_lhs => rw [e, hd, htw]
      simp
    · simp at hm

/-- The spacing commands are a sound matcher. -/
theorem soundRx_rxSpacing : SoundRx rxSpacing := by
  apply soundRx_rxAlt
  intro rx hrx
  simp only [List.mem_cons, List.mem_singleton, List.not_mem_nil, or_false] at hrx
  rcases hrx with rfl | rfl | rfl | rfl <;> exact soundRx_rxBraced _

/-- The skips are a sound matcher. -/
theorem soundRx_rxSkip : SoundRx rxSkip := by
  apply soundRx_rxAlt
  intro rx hrx
  simp only [List.mem_cons, List.mem_singleton, List.not_mem_nil, or_false] at hrx
  rcases hrx with rfl | rfl | rfl <;> exact soundRx_rxLit _

/-- The italic command and the closing brace are a sound matcher. -/
theorem soundRx_rxTextit : SoundRx rxTextit := by
  apply soundRx_rxAlt
  intro rx hrx
  simp only [List.mem_cons, List.mem_singleton, List.not_mem_nil, or_false] at hrx
  rcases hrx with rfl | rfl <;> exact soundRx_rxLit _

/-- The graphics line is a sound matcher. -/
theorem soundRx_rxIncludeLine : SoundRx rxIncludeLine := by
  intro prev s m hm
  simp only [rxIncludeLine, Option.map_eq_some'] at hm
  obtain ⟨t, ht, rfl⟩ := hm
  rw [dropLit_eq_some.mp ht]
  simp

/-- The blank lines are a sound matcher. -/
theorem soundRx_rxBlankLines : SoundRx rxBlankLines := by
  intro prev s m hm
  unfold rxBlankLines at hm
  split at hm
  · simp only [Option.some.injEq] at hm
    subst hm
    simp
  · simp at hm

/-- The character at which a run without closing brace stops is a closing brace. -/
theorem dropWhile_notClose_head {t rest : Str} {c : Char}
    (h : t.dropWhile notClose = c :: rest) : c = '\x7d' := by
  have hne : t.dropWhile notClose ≠ [] := by rw [h]; simp
  have := List.head_dropWhile_not notClose t hne
  have hc : (t.dropWhile notClose).head hne = c := by
    have key : ∀ (l : Str) (hl : l ≠ []), l = c :: rest → l.head hl = c := by
      intro l hl e; subst e; rfl
    exact key _ hne h
  rw [hc] at this
  simpa [notClose] using this

/-- A braced argument is followed by the text after it. -/
theorem bracedArg_some {s arg rest : Str} (h : bracedArg s = some (arg, rest)) :
    s = '\x7b' :: arg ++ '\x7d' :: rest := by
  unfold bracedArg at h
  split at h
  · rename_i t
    split at h
    · rename_i b body c rest' htw hd
      simp only [Option.some.injEq, Prod.mk.injEq] at h
      obtain ⟨rfl, rfl⟩ := h
      have e : t = t.takeWhile notClose ++ t.dropWhile notClose := by simp
      have hc := dropWhile_notClose_head hd
      subst hc
      conv_lhs => rw [e, hd, htw]
      simp
    · simp at h
  · simp at h

/-- Options and a braced argument are followed by the text after them. -/
theorem optionsThenArg_some {s opts arg rest : Str}
    (h : optionsThenArg s = some (opts, arg, rest)) :
    s = opts ++ '\x7b' :: arg ++ '\x7d' :: rest := by
  induction s generalizing opts with
  | nil => simp [optionsThenArg] at h
  | cons c cs ih =>
    simp only [optionsThenArg] at h
    split at h
    · rename_i r hr
      simp only [Option.some.injEq, Prod.mk.injEq] at h
      obtain ⟨rfl, rfl, rfl⟩ := h
      split at hr
      · have := @bracedArg_some _ r.1 r.2 hr
        rw [this]; simp
      · simp at hr
    · split at h
      · simp at h
      · simp only [Option.map_eq_some'] at h
        obtain ⟨r, hr, he⟩ := h
        simp only [Prod.mk.injEq] at he
        obtain ⟨rfl, rfl, rfl⟩ := he
        have := @ih r.1 (by rw [hr])
        rw [this]; simp

/-- The graphics expression is a sound matcher. -/
theorem soundRx_rxIncludeGraphics : SoundRx rxIncludeGraphics := by
  intro prev s m hm
  unfold rxIncludeGraphics at hm
  split at hm
  · simp at hm
  · rename_i t ht
    rw [dropLit_eq_some.mp ht]
    split at hm
    · rename_i opts arg rest ho
      simp only [Option.some.injEq] at hm
      subst hm
      split at ho
      · rename_i u
        rw [optionsThenArg_some ho]
        simp
      · simp at ho
    · simp only [Option.map_eq_some'] at hm
      obtain ⟨r, hr, rfl⟩ := hm
      rw [@bracedArg_some _ r.1 r.2 hr]
      simp

/-- The caption expression is a sound matcher. -/
theorem soundRx_rxCaption : SoundRx rxCaption :=
  soundRx_rxBraced captionLit

/-- A number `\d+\.\d+` is followed by the text after it. -/
theorem dottedNumber_sound {s num u : Str} (h : dottedNumber s = some (num, u)) :
    s = num ++ u := by
  unfold dottedNumber at h
  split at h
  · rename_i a as t ha hd
    split at h
    · rename_i b bs hb
      simp only [Option.some.injEq, Prod.mk.injEq] at h
      obtain ⟨rfl, rfl⟩ := h
      have e : s = s.takeWhile isDigit ++ s.dropWhile isDigit := by simp
      have e' : t = t.takeWhile isDigit ++ t.dropWhile isDigit := by simp
      conv_lhs => rw [e, hd, ha, e', hb]
      simp
    · simp at h
  · simp at h

/-- The heading expression is a sound matcher. -/
theorem soundRx_subsectionRe : SoundRx subsectionRe := by
  intro prev s m hm
  unfold subsectionRe at hm
  split at hm
  · simp at hm
  · rename_i t ht
    split at hm
    · simp at hm
    · rename_i num u hnum
      split at hm
      · simp at hm
      · rename_i v hv
        split at hm
        · rename_i b body c rest htw hd
          simp only [Option.some.injEq] at hm
          subst hm
          have e : v = v.takeWhile notClose ++ v.dropWhile notClose := by simp
          rw [dropLit_eq_some.mp ht, dottedNumber_sound hnum, dropLit_eq_some.mp hv]
          conv_lhs => rw [e, hd, htw]
          simp
        · simp at hm

/-- A problem marker is followed by the text after it. -/
theorem problemMarker_sound {major s : Str} {r : Str × Str × Str}
    (h : problemMarker major s = some r) : s = r.2.1 ++ r.2.2 := by
  unfold problemMarker at h
  split at h
  · rename_i t ht
    split at h
    · rename_i d ds u hd hdd
      split at h
      · rename_i w ws hw
        simp only [Option.some.injEq] at h
        subst h
        have e : t = t.takeWhile isDigit ++ t.dropWhile isDigit := by simp
        have e' : u = u.takeWhile isSpace ++ u.dropWhile isSpace := by simp
        rw [dropLit_eq_some.mp ht]
        conv_lhs => rw [e, hdd, hd, e', hw]
        simp
      · simp at h
    · simp at h
  · simp at h

/-- The problem expression is a sound matcher. -/
theorem soundRx_probNumPattern (major : Str) : SoundRx (probNumPattern major) := by
  intro prev s m hm
  unfold probNumPattern at hm
  split at hm
  · rename_i num marker rest hpm
    simp only [Option.some.injEq] at hm
    subst hm
    split at hpm
    · exact problemMarker_sound hpm
    · simp at hpm
  · split at hm
    · rename_i t
      simp only [Option.map_eq_some'] at hm
      obtain ⟨r, hr, rfl⟩ := hm
      rw [problemMarker_sound hr]
      rfl
    · simp at hm

/-- A lazy body before a lookahead is followed by the text from the lookahead on. -/
theorem lazyBody_some {stop : Str → Bool} {s body rest : Str}
    (h : lazyBody stop s = some (body, rest)) : s = body ++ rest := by
  induction s generalizing body with
  | nil =>
    simp only [lazyBody] at h
    split at h
    · simp only [Option.some.injEq, Prod.mk.injEq] at h
      obtain ⟨rfl, rfl⟩ := h
      rfl
    · simp at h
  | cons c cs ih =>
    simp only [lazyBody] at h
    split at h
    · simp only [Option.some.injEq, Prod.mk.injEq] at h
      obtain ⟨rfl, rfl⟩ := h
      rfl
    · simp only [Option.map_eq_some'] at h
      obtain ⟨r, hr, he⟩ := h
      simp only [Prod.mk.injEq] at he
      obtain ⟨rfl, rfl⟩ := he
      rw [@ih r.1 (by rw [hr])]
      rfl

/-- An answer entry is followed by the text after it. -/
theorem answerEntry_sound {s : Str} {r : Str × Str × Str × Str}
    (h : answerEntry s = some r) : s = r.2.2.1 ++ r.2.2.2 := by
  unfold answerEntry at h
  split at h
  · simp at h
  · rename_i num u hnum
    split at h
    · simp at h
    · rename_i v hv
      simp only [Option.map_eq_some'] at h
      obtain ⟨b, hb, rfl⟩ := h
      rw [dottedNumber_sound hnum, dropLit_eq_some.mp hv, @lazyBody_some _ v b.1 b.2 hb]
      simp

/-- The answer expression is a sound matcher. -/
theorem soundRx_answerRe : SoundRx answerRe := by
  intro prev s m hm
  unfold answerRe at hm
  split at hm
  · rename_i num ans text rest ha
    simp only [Option.some.injEq] at hm
    subst hm
    split at ha
    · exact answerEntry_sound ha
    · simp at ha
  · split at hm
    · rename_i t
      simp only [Option.map_eq_some'] at hm
      obtain ⟨r, hr, rfl⟩ := hm
      rw [answerEntry_sound hr]
      rfl
    · simp at hm

/-- The leading white space is a sound matcher. -/
theorem soundRx_rxLeadingSpace : SoundRx rxLeadingSpace := by
  intro prev s m hm
  unfold rxLeadingSpace at hm
  split at hm
  · rename_i w ws hw
    simp only [Option.some.injEq] at hm
    subst hm
    have e : s = s.takeWhile isSpace ++ s.dropWhile isSpace := by simp
    conv_lhs => rw [e, hw]
  · simp at hm

/-- The trailing white space is a sound matcher. -/
theorem soundRx_rxTrailingSpace : SoundRx rxTrailingSpace := by
  intro prev s m hm
  unfold rxTrailingSpace at hm
  split at hm
  · rename_i w ws hw hd
    simp only [Option.some.injEq] at hm
    subst hm
    have e : s = s.takeWhile isSpace ++ s.dropWhile isSpace := by simp
    conv_lhs => rw [e, hw, hd]
  · simp at hm

/-! ## Sources padded with empty lines -/

/-- Splitting into lines a text that starts with `n` newlines gives `n` empty lines first. -/
theorem splitOn_replicate (n : Nat) (s : Str) :
    splitOn '\n' (List.replicate n '\n' ++ s) = List.replicate n [] ++ splitOn '\n' s := by
  induction n with
  | zero => simp
  | succ n ih => simp [List.replicate_succ, splitOn, ih]

/-- A text splits into at least one line. -/
theorem splitOn_ne_nil (sep : Char) (s : Str) : splitOn sep s ≠ [] := by
  cases s with
  | nil => simp [splitOn]
  | cons c cs =>
    simp only [splitOn]
    split
    · simp
    · split <;> simp

/-- Splitting into lines distributes over a newline between two texts. -/
theorem splitOn_append_newline (s t : Str) :
    splitOn '\n' (s ++ '\n' :: t) = splitOn '\n' s ++ splitOn '\n' t := by
  induction s with
  | nil => simp [splitOn]
  | cons c cs ih =>
    by_cases hc : c = '\n'
    · subst hc
      simp [splitOn, ih]
    · rw [List.cons_append, splitOn, if_neg hc, splitOn, if_neg hc, ih]
      cases h : splitOn '\n' cs with
      | nil => exact absurd h (splitOn_ne_nil '\n' cs)
      | cons l ls => simp

/-- Joining the lines of a text gives the text back. -/
theorem joinWith_splitOn (sep : Char) (s : Str) : joinWith sep (splitOn sep s) = s := by
  induction s with
  | nil => rfl
  | cons c cs ih =>
    simp only [splitOn]
    split
    · rename_i hc
      cases h : splitOn sep cs with
      | nil => exact absurd h (splitOn_ne_nil sep cs)
      | cons l ls =>
        rw [joinWith]
        · rw [← h, ih, hc]; rfl
        · simp
    · cases h : splitOn sep cs with
      | nil => exact absurd h (splitOn_ne_nil sep cs)
      | cons l ls =>
        rw [h] at ih
        dsimp only
        cases ls with
        | nil =>
          simp only [joinWith] at ih ⊢
          rw [ih]
        | cons l' ls' =>
          rw [joinWith] at ih ⊢
          · rw [← ih]; rfl
          · simp
          · simp

/-- Joining lines that start with `n` empty lines gives `n` newlines first. -/
theorem joinWith_replicate (n : Nat) (l : Str) (ls : List Str) :
    joinWith '\n' (List.replicate n [] ++ l :: ls)
      = List.replicate n '\n' ++ joinWith '\n' (l :: ls) := by
  induction n with
  | zero => rfl
  | succ n ih =>
    rw [List.replicate_succ, List.replicate_succ, List.cons_append, List.cons_append]
    cases h : List.replicate n ([] : Str) ++ l :: ls with
    | nil => simp at h
    | cons a as =>
      rw [joinWith]
      · rw [← h, ih]
        rfl
      · simp

/-- The character before a position after two texts. -/
theorem lastChar_append (prev : Option Char) (P t : Str) :
    lastChar prev (P ++ t) = lastChar (lastChar prev P) t := by
  induction P generalizing prev with
  | nil => simp [lastChar]
  | cons c cs ih =>
    rw [List.cons_append, lastChar_cons, lastChar_cons, ih]

/-- The loop of `exec` passes over a text at no position of which the expression matches. -/
theorem execAllFrom_append_skip (rx : Rx) (fuel pos : Nat) (prev : Option Char) (P S : Str)
    (hskip : ∀ k, k < P.length → ∀ p, rx p (P.drop k ++ S) = none) :
    execAllFrom rx fuel pos prev (P ++ S)
      = execAllFrom rx fuel (pos + P.length) (lastChar prev P) S := by
  cases fuel with
  | zero => rfl
  | succ n =>
    rw [execAllFrom, execAllFrom, search_append_skip rx P S prev hskip]
    cases h : search rx (lastChar prev P) S with
    | none => rfl
    | some r =>
      obtain ⟨pre, matched, groups, rest⟩ := r
      simp only [Option.map_some', List.length_append, List.append_assoc, lastChar_append,
        Nat.add_assoc]

/-- For an expression that does not look at the character before the position, neither does
the search. -/
theorem search_prev (rx : Rx) (hrx : ∀ p p' s, rx p s = rx p' s) (p p' : Option Char)
    (s : Str) : search rx p s = search rx p' s := by
  cases s with
  | nil => rw [search, search, hrx p p']
  | cons c cs => rw [search, search, hrx p p']

/-- For such an expression, neither does the loop of `exec`. -/
theorem execAllFrom_prev (rx : Rx) (hrx : ∀ p p' s, rx p s = rx p' s) (fuel pos : Nat)
    (p p' : Option Char) (s : Str) :
    execAllFrom rx fuel pos p s = execAllFrom rx fuel pos p' s := by
  induction fuel generalizing pos p p' s with
  | zero => rfl
  | succ n ih =>
    rw [execAllFrom, execAllFrom, search_prev rx hrx p p']
    cases h : search rx p' s with
    | none => rfl
    | some r =>
      obtain ⟨pre, matched, groups, rest⟩ := r
      cases matched with
      | nil => cases rest <;> rfl
      | cons a as =>
        dsimp only
        rw [ih _ (lastChar p (pre ++ a :: as)) (lastChar p' (pre ++ a :: as))]

/-- Starting the loop of `exec` at a later index adds the difference to the indices. -/
theorem execAllFrom_shift (rx : Rx) (fuel pos n : Nat) (prev : Option Char) (s : Str) :
    execAllFrom rx fuel (pos + n) prev s
      = (execAllFrom rx fuel pos prev s).map fun im => (im.1 + n, im.2) := by
  induction fuel generalizing pos prev s with
  | zero => rfl
  | succ k ih =>
    rw [execAllFrom, execAllFrom]
    cases h : search rx prev s with
    | none => rfl
    | some r =>
      obtain ⟨pre, matched, groups, rest⟩ := r
      cases matched with
      | nil =>
        cases rest with
        | nil =>
          dsimp only
          simp only [List.map_cons, List.map_nil]
          congr 2
          omega
        | cons c cs =>
          dsimp only
          rw [show pos + n + pre.length + 1 = (pos + pre.length + 1) + n by omega, ih]
          simp only [List.map_cons]
          congr 2
          omega
      | cons a as =>
        dsimp only
        rw [show pos + n + pre.length + (a :: as).length
          = (pos + pre.length + (a :: as).length) + n by omega, ih]
        simp only [List.map_cons]
        congr 2
        omega

/-- The headings of a text that starts with `n` newlines are those of the rest, `n` characters
later. -/
theorem sectionBoundaries_padded (n : Nat) (span : Str) :
    sectionBoundaries (List.replicate n '\n' ++ span)
      = (sectionBoundaries span).map fun b => ⟨b.id, b.title, b.startIdx + n⟩ := by
  have hlen : (List.replicate n '\n').length = n := List.length_replicate _ _
  have hskip : ∀ k, k < (List.replicate n '\n').length → ∀ p,
      subsectionRe p ((List.replicate n '\n').drop k ++ span) = none := by
    intro k hk p
    rw [hlen] at hk
    rw [List.drop_replicate]
    obtain ⟨j, hj⟩ : ∃ j, n - k = j + 1 := ⟨n - k - 1, by omega⟩
    rw [hj, List.replicate_succ]
    rfl
  have hexec : execAll subsectionRe (List.replicate n '\n' ++ span)
      = (execAll subsectionRe span).map fun im => (im.1 + n, im.2) := by
    unfold execAll
    rw [execAllFrom_append_skip subsectionRe _ 0 none _ span hskip, hlen,
      execAllFrom_prev subsectionRe (fun _ _ _ => rfl) _ _ _ none,
      execAllFrom_fuel subsectionRe soundRx_subsectionRe _ _ none span
        (by simp only [List.length_append]; omega),
      execAllFrom_shift]
  unfold sectionBoundaries
  rw [hexec, List.map_map, List.map_map]
  rfl

/-- A slice of a text after `n` characters. -/
theorem slice_padded (P s : Str) (i j : Nat) :
    slice (P ++ s) (i + P.length) (j + P.length) = slice s i j := by
  unfold slice
  rw [List.take_append_eq_append_take, List.take_of_length_le (by omega),
    show j + P.length - P.length = j by omega, Nat.add_comm i, ← List.drop_drop,
    List.drop_left]

/-- The sections of a text that starts with `n` newlines are those of the rest. -/
theorem parseSections_padded (answers : StrMap Str) (n : Nat) (span : Str)
    (bs : List SectionBoundary) (acc : StrMap SectionData) :
    parseSections answers (List.replicate n '\n' ++ span)
        (bs.map fun b => ⟨b.id, b.title, b.startIdx + n⟩) acc
      = parseSections answers span bs acc := by
  have hlen : (List.replicate n '\n').length = n := List.length_replicate _ _
  induction bs generalizing acc with
  | nil => rfl
  | cons b bs ih =>
    cases bs with
    | nil =>
      have := slice_padded (List.replicate n '\n') span b.startIdx span.length
      rw [hlen] at this
      simp only [List.map_cons, List.map_nil, parseSections, List.length_append, hlen]
      rw [Nat.add_comm n, this]
    | cons b' bs' =>
      have := slice_padded (List.replicate n '\n') span b.startIdx b'.startIdx
      rw [hlen] at this
      have ih' := ih (acc.set b.id
        (parseSection answers b.id b.title (slice span b.startIdx b'.startIdx)))
      simp only [List.map_cons] at ih' ⊢
      rw [parseSections.eq_def]
      dsimp only
      rw [this, ih']
      conv_rhs => rw [parseSections.eq_def]

/-- The regions of a source made of `n` empty lines, a text whose lines bring the count to
8000, and answers whose first line starts with `1.1. `. -/
theorem splitRegions_padded (n : Nat) (span ans : Str)
    (hn : n + (splitOn '\n' span).length = 8000)
    (hans : startsWith ((splitOn '\n' ans).headD []) firstAnswerLit = true) :
    splitRegions (List.replicate n '\n' ++ (span ++ '\n' :: ans))
      = .ok (List.replicate n '\n' ++ span, ans) := by
  have hlines : splitOn '\n' (List.replicate n '\n' ++ (span ++ '\n' :: ans))
      = (List.replicate n [] ++ splitOn '\n' span) ++ splitOn '\n' ans := by
    rw [splitOn_replicate, splitOn_append_newline, List.append_assoc]
  have hlen : (List.replicate n ([] : Str) ++ splitOn '\n' span).length = 8000 := by
    rw [List.length_append, List.length_replicate, hn]
  have hdrop : (splitOn '\n' (List.replicate n '\n' ++ (span ++ '\n' :: ans))).drop 8000
      = splitOn '\n' ans := by
    rw [hlines, List.drop_left' hlen]
  have htake : (splitOn '\n' (List.replicate n '\n' ++ (span ++ '\n' :: ans))).take 8000
      = List.replicate n [] ++ splitOn '\n' span := by
    rw [hlines, List.take_left' hlen]
  have hstart : answerStart (splitOn '\n' (List.replicate n '\n' ++ (span ++ '\n' :: ans)))
      = some 8000 := by
    rw [answerStart, show answerSearchStart = 8000 from rfl, hdrop]
    cases h : splitOn '\n' ans with
    | nil => exact absurd h (splitOn_ne_nil '\n' ans)
    | cons a as =>
      rw [h] at hans
      rw [findAnswerStart, if_pos (by simpa using hans)]
  rw [splitRegions, hstart]
  dsimp only
  rw [hdrop, htake, joinWith_splitOn]
  cases h : splitOn '\n' span with
  | nil => exact absurd h (splitOn_ne_nil '\n' span)
  | cons l ls => rw [joinWith_replicate, ← h, joinWith_splitOn]

/-- What `parse` writes for such a source: the sections of the text, with the answers. -/
theorem parse_padded (n : Nat) (span ans : Str)
    (hn : n + (splitOn '\n' span).length = 8000)
    (hans : startsWith ((splitOn '\n' ans).headD []) firstAnswerLit = true) :
    parse (List.replicate n '\n' ++ (span ++ '\n' :: ans))
      = .ok (emit (parseSections (parseAnswers ans) span (sectionBoundaries span) [])
          SECTIONS) := by
  rw [parse, splitRegions_padded n span ans hn hans]
  dsimp only
  rw [sectionBoundaries_padded, parseSections_padded]

/-- What `parse` writes for a source made of empty lines, one section span and the answers of
the scenario. -/
theorem parse_sourceOf (n : Nat) (span : Str) (hn : n + (splitOn '\n' span).length = 8000) :
    parse (sourceOf n span)
      = .ok (emit (parseSections (parseAnswers scenarioAnswers) span (sectionBoundaries span) [])
          SECTIONS) :=
  parse_padded n span scenarioAnswers hn (by decide)

/-- The end-to-end scenario of the spec: from a source with the heading
`\subsection*{1.1. Kinematics}`, the problem `1.1. Find velocity.` and, in the answers,
`1.1. v = 5 m/s`, `parse` writes one file, `part_1/1.1.json`, with the identifier and title of
the catalog, the intro block, and one problem numbered `1.1` with the answer `v = 5 m/s`; the
statement it gets is `ind velocity.`. -/
theorem parse_scenario :
    parse scenarioSource
      = .ok [⟨"part_1".toList, "1.1.json".toList,
          ⟨"1.1".toList, "1.1. Kinematics".toList,
            [.intro "## 1.1. Kinematics\n\n".toList,
              .problem "1.1".toList [] [.text "ind velocity.".toList]
                [.text "v = 5 m/s".toList]]⟩⟩] := by
  rw [scenarioSource, parse_sourceOf 7998 kinematicsSpan (by decide)]
  exact congrArg Except.ok (by decide)

/-! ## Claims C1, C2, C3: evaluation at the failing inputs -/

/-- The statement of the one problem of a section whose span is a heading without line break,
a newline, a marker and a text `body` without newline that starts with no white space: it is
`body` without its first character. -/
theorem statement_of_single_problem (answers : StrMap Str) (id title T ds w body : Str)
    (hT : ∀ c ∈ T, c ≠ '\n') (hmajor : ∀ c ∈ secMajor id, isDigit c = true)
    (hds : ds ≠ []) (hdig : ∀ c ∈ ds, isDigit c = true)
    (hw : w ≠ []) (hsp : ∀ c ∈ w, isSpace c = true)
    (hbody : ∀ c t, body = c :: t → isSpace c = false) (hline : ∀ c ∈ body, c ≠ '\n') :
    (parseSection answers id title
        (subsectionLit ++ T ++ '\x7d' :: '\n' ::
          (secMajor id ++ '.' :: (ds ++ '.' :: (w ++ body))))).problems
      = [⟨secMajor id ++ '.' :: ds, body.drop 1,
          (answers.get (secMajor id ++ '.' :: ds)).getD []⟩] := by
  have hsl : subsectionLit = '\\' :: "subsection*\x7b".toList := rfl
  have hH : ∀ c ∈ subsectionLit ++ T ++ ['\x7d'], c ≠ '\n' := by
    intro c hc
    simp only [List.mem_append, List.mem_singleton] at hc
    rcases hc with (hc | hc) | hc
    · revert c; decide
    · exact hT c hc
    · rw [hc]; decide
  have hsplit : subsectionLit ++ T ++ '\x7d' :: '\n' ::
        (secMajor id ++ '.' :: (ds ++ '.' :: (w ++ body)))
      = (subsectionLit ++ T ++ ['\x7d']) ++
          '\n' :: (secMajor id ++ '.' :: (ds ++ '.' :: (w ++ body))) := by
    simp
  obtain ⟨q, hq⟩ := lastChar_of_ne_nil none (subsectionLit ++ T ++ ['\x7d']) (by simp)
  have hpm := problemMarker_at (secMajor id) ds w body hds hdig hw hsp hbody
  have hm : probNumPattern (secMajor id) (some q)
        ('\n' :: (secMajor id ++ '.' :: (ds ++ '.' :: (w ++ body))))
      = some ⟨'\n' :: (secMajor id ++ '.' :: ds ++ '.' :: w), [secMajor id ++ '.' :: ds],
          body⟩ := by
    rw [probNumPattern_newline, hpm]
    rfl
  have hsearch := search_append_skip_from (probNumPattern (secMajor id))
    (subsectionLit ++ T ++ ['\x7d'])
    ('\n' :: (secMajor id ++ '.' :: (ds ++ '.' :: (w ++ body)))) none
    (probNumPattern_skip (secMajor id) _ _ hmajor hH
      (by intro t h; rw [hsl] at h; simp at h)
      (by intro c t h; rw [hsl] at h; simp at h; rw [← h.1]; decide))
  rw [hq, search_of_match hm] at hsearch
  simp only [Option.map_some', List.append_nil] at hsearch
  have hexec : execAll (probNumPattern (secMajor id))
        ((subsectionLit ++ T ++ ['\x7d']) ++
          '\n' :: (secMajor id ++ '.' :: (ds ++ '.' :: (w ++ body))))
      = [((subsectionLit ++ T ++ ['\x7d']).length,
          ⟨'\n' :: (secMajor id ++ '.' :: ds ++ '.' :: w), [secMajor id ++ '.' :: ds],
            body⟩)] := by
    unfold execAll
    rw [execAllFrom, hsearch]
    dsimp only
    rw [Nat.zero_add]
    congr 1
    generalize ((subsectionLit ++ T ++ ['\x7d']) ++
      '\n' :: (secMajor id ++ '.' :: (ds ++ '.' :: (w ++ body)))).length = n
    cases n with
    | zero => rfl
    | succ n =>
      rw [execAllFrom]
      obtain ⟨p, hp⟩ := lastChar_of_ne_nil none ((subsectionLit ++ T ++ ['\x7d']) ++
          '\n' :: (secMajor id ++ '.' :: ds ++ '.' :: w)) (by simp)
      rw [hp, search_probNumPattern_none (secMajor id) body p hline]
  show buildProblems answers _ (probMatches (secMajor id) _) = _
  rw [hsplit]
  unfold probMatches
  rw [hexec]
  simp only [List.map_cons, List.map_nil, buildProblems, Match.group, capture, slice]
  simp only [if_neg (by decide : ¬ (1 = 0)), Nat.sub_self, List.get?_cons_zero,
    Option.getD_some, List.take_length]
  have hst : startsWith ('\n' :: (secMajor id ++ '.' :: ds ++ '.' :: w)) "\n".toList = true := rfl
  rw [hst, if_pos rfl]
  congr 1
  simp only [RawProblem.mk.injEq, true_and, and_true]
  rw [show (subsectionLit ++ T ++ ['\x7d']).length + 1 +
        ('\n' :: (secMajor id ++ '.' :: ds ++ '.' :: w)).length
      = ((subsectionLit ++ T ++ ['\x7d']) ++
          '\n' :: (secMajor id ++ '.' :: ds ++ '.' :: w)).length + 1 by
    simp only [List.length_append, List.length_cons]; omega]
  rw [← List.drop_drop]
  congr 1
  have : (subsectionLit ++ T ++ ['\x7d']) ++
        '\n' :: (secMajor id ++ '.' :: (ds ++ '.' :: (w ++ body)))
      = ((subsectionLit ++ T ++ ['\x7d']) ++
          '\n' :: (secMajor id ++ '.' :: ds ++ '.' :: w)) ++ body := by simp
  rw [this, List.drop_left]

/-- Claim C1, at the source of the spec's scenario: `parse` cuts the span
`\subsection*{1.1. Kinematics}`, newline, `1.1. Find velocity.` for section 1.1 and finds in it
the one problem numbered `1.1`, but its raw statement is `ind velocity.`, the text after the
marker without its first character; the statement block written does not contain
`Find velocity.`. -/
theorem statement_drops_first_character :
    (parseSection (parseAnswers scenarioAnswers) "1.1".toList "1.1. Kinematics".toList
          kinematicsSpan).problems
        = [⟨"1.1".toList, "ind velocity.".toList, "v = 5 m/s".toList⟩] ∧
      parse scenarioSource
        = .ok [⟨"part_1".toList, "1.1.json".toList,
            ⟨"1.1".toList, "1.1. Kinematics".toList,
              [.intro "## 1.1. Kinematics\n\n".toList,
                .problem "1.1".toList [] [.text "ind velocity.".toList]
                  [.text "v = 5 m/s".toList]]⟩⟩] ∧
      ¬ ("Find velocity.".toList <:+: "ind velocity.".toList) :=
  ⟨by decide, parse_scenario, by decide⟩

/-- Claim C2, at the span `\[x^2\]`: `convertLatex` gives the body between single dollar signs,
`$`, newline, `x^2`, newline, `$`, and `buildContentArray` the one text block with that value;
the double-dollar form of the claim is not produced.  So it is in the file `parse` writes for a
source whose problem 1.1 has that statement. -/
theorem display_math_gets_single_dollars :
    convertLatex "\\[x^2\\]".toList = "$\nx^2\n$".toList ∧
      buildContentArray "\\[x^2\\]".toList = [.text "$\nx^2\n$".toList] ∧
      convertLatex "\\[x^2\\]".toList ≠ "$$\nx^2\n$$".toList ∧
      ¬ ("$$".toList <:+: convertLatex "\\[x^2\\]".toList) ∧
      parse (sourceOf 7998 (sectionWith "\\[x^2\\]".toList))
        = .ok [⟨"part_1".toList, "1.1.json".toList,
            ⟨"1.1".toList, "1.1. Kinematics".toList,
              [.intro "## 1.1. Kinematics\n\n".toList,
                .problem "1.1".toList [] [.text "$\nx^2\n$".toList]
                  [.text "v = 5 m/s".toList]]⟩⟩] := by
  refine ⟨by decide, by decide, by decide, by decide, ?_⟩
  rw [parse_sourceOf 7998 _ (by decide)]
  exact congrArg Except.ok (by decide)

/-- Claim C3, at a source whose section 1.1 has two line-start markers, `1.1. ` with an empty
statement and then `1.2. `: the span has two line-start markers, the section gets one problem,
and the body written one problem block. -/
theorem marker_after_empty_statement_is_missed :
    specMarkerCount "1".toList none emptyStatementSpan = 2 ∧
      (parseSection (parseAnswers scenarioAnswers) "1.1".toList "1.1. Kinematics".toList
          emptyStatementSpan).problems
        = [⟨"1.1".toList, ".2. Find velocity.".toList, "v = 5 m/s".toList⟩] ∧
      parse (sourceOf 7997 emptyStatementSpan)
        = .ok [⟨"part_1".toList, "1.1.json".toList,
            ⟨"1.1".toList, "1.1. Kinematics".toList,
              [.intro "## 1.1. Kinematics\n\n".toList,
                .problem "1.1".toList [] [.text ".2. Find velocity.".toList]
                  [.text "v = 5 m/s".toList]]⟩⟩] := by
  refine ⟨by decide, by decide, ?_⟩
  rw [parse_sourceOf 7997 emptyStatementSpan (by decide)]
  exact congrArg Except.ok (by decide)

/-! ## Claim C4: the region boundary -/

/-- The search for the answers fails exactly when no line starts with `1.1. `. -/
theorem findAnswerStart_eq_none (i : Nat) (ls : List Str) :
    findAnswerStart i ls = none ↔ ∀ l ∈ ls, startsWith l firstAnswerLit = false := by
  induction ls generalizing i with
  | nil => simp [findAnswerStart]
  | cons l ls ih =>
    simp only [findAnswerStart, List.mem_cons, forall_eq_or_imp]
    by_cases h : startsWith l firstAnswerLit = true
    · simp [h]
    · simp only [h, Bool.false_eq_true, if_false, ih]
      simp at h
      simp [h]

/-- The search for the answers stops at the first line that starts with `1.1. `. -/
theorem findAnswerStart_first (i : Nat) (ls : List Str) (j : Nat) (l : Str)
    (hl : ls[j]? = some l) (hs : startsWith l firstAnswerLit = true)
    (hmin : ∀ k l', k < j → ls[k]? = some l' → startsWith l' firstAnswerLit = false) :
    findAnswerStart i ls = some (i + j) := by
  induction ls generalizing i j with
  | nil => simp at hl
  | cons a ls ih =>
    cases j with
    | zero =>
      simp at hl
      subst hl
      simp [findAnswerStart, hs]
    | succ j =>
      have ha : startsWith a firstAnswerLit = false := hmin 0 a (Nat.succ_pos j) (by simp)
      simp only [findAnswerStart, ha, Bool.false_eq_true, if_false]
      rw [ih (i + 1) j (by simpa using hl)]
      · congr 1; omega
      · intro k l' hk hk'
        exact hmin (k + 1) l' (by omega) (by simpa using hk')

/-- Claim C4: `parse` throws `Could not find answers section` exactly when no line at index
8000 or later starts with `1.1. ` (and it throws exactly when the region split does); when
`i` is the smallest index from 8000 on whose line starts with `1.1. `, the split point is `i`,
the statements region is the lines before `i` and the answers region the lines from `i` on,
each joined by newlines. -/
theorem answers_region_split (raw : Str) :
    (parse raw = .error "Could not find answers section" ↔
        ∀ i l, 8000 ≤ i → (splitOn '\n' raw)[i]? = some l →
          startsWith l firstAnswerLit = false) ∧
      (splitRegions raw = .error "Could not find answers section" ↔
        parse raw = .error "Could not find answers section") ∧
      ∀ i l, 8000 ≤ i → (splitOn '\n' raw)[i]? = some l →
        startsWith l firstAnswerLit = true →
        (∀ j l', 8000 ≤ j → j < i → (splitOn '\n' raw)[j]? = some l' →
          startsWith l' firstAnswerLit = false) →
        answerStart (splitOn '\n' raw) = some i ∧
          splitRegions raw =
            .ok (joinWith '\n' ((splitOn '\n' raw).take i),
              joinWith '\n' ((splitOn '\n' raw).drop i)) := by
  have h8 : answerSearchStart = 8000 := rfl
  have hnone : answerStart (splitOn '\n' raw) = none ↔
      ∀ i l, 8000 ≤ i → (splitOn '\n' raw)[i]? = some l →
        startsWith l firstAnswerLit = false := by
    rw [answerStart, findAnswerStart_eq_none, h8]
    constructor
    · intro h i l hi hl
      apply h l
      rw [List.mem_iff_getElem?]
      refine ⟨i - 8000, ?_⟩
      rw [List.getElem?_drop, Nat.add_sub_of_le hi, hl]
    · intro h l hl
      rw [List.mem_iff_getElem?] at hl
      obtain ⟨k, hk⟩ := hl
      rw [List.getElem?_drop] at hk
      exact h _ l (Nat.le_add_right _ _) hk
  have hsome : ∀ i l, 8000 ≤ i → (splitOn '\n' raw)[i]? = some l →
        startsWith l firstAnswerLit = true →
        (∀ j l', 8000 ≤ j → j < i → (splitOn '\n' raw)[j]? = some l' →
          startsWith l' firstAnswerLit = false) →
        answerStart (splitOn '\n' raw) = some i := by
    intro i l hi hl hs hmin
    rw [answerStart, h8]
    have := findAnswerStart_first 8000 ((splitOn '\n' raw).drop 8000)
      (i - 8000) l (by rw [List.getElem?_drop, Nat.add_sub_of_le hi, hl]) hs
      (by
        intro k l' hk hk'
        rw [List.getElem?_drop] at hk'
        exact hmin _ l' (Nat.le_add_right _ _) (by omega) hk')
    rw [this, Nat.add_sub_of_le hi]
  have hparse : splitRegions raw = .error "Could not find answers section" ↔
      parse raw = .error "Could not find answers section" := by
    unfold parse
    cases splitRegions raw with
    | error e => simp
    | ok r => simp
  have hsplit : splitRegions raw = .error "Could not find answers section" ↔
      answerStart (splitOn '\n' raw) = none := by
    unfold splitRegions
    cases answerStart (splitOn '\n' raw) <;> simp
  refine ⟨?_, hparse, ?_⟩
  · rw [← hparse, hsplit, hnone]
  · intro i l hi hl hs hmin
    have h := hsome i l hi hl hs hmin
    refine ⟨h, ?_⟩
    simp [splitRegions, h]

/-- Claim C4, at a source of 8001 lines whose last line, at index 8000, is the first to start
with `1.1. `: the split point is 8000 and the regions are the lines before and from it. -/
theorem answers_region_split_witness :
    answerStart (splitOn '\n' answersOnlySource) = some 8000 ∧
      splitRegions answersOnlySource =
        .ok (joinWith '\n' ((splitOn '\n' answersOnlySource).take 8000),
          joinWith '\n' ((splitOn '\n' answersOnlySource).drop 8000)) := by
  have hl : (splitOn '\n' answersOnlySource)[8000]? = some "1.1. v = 5 m/s".toList := by
    rw [answersOnlySource, splitOn_replicate,
      List.getElem?_append_right (Nat.le_of_eq (List.length_replicate _ _)),
      List.length_replicate, Nat.sub_self]
    decide
  exact (answers_region_split answersOnlySource).2.2 8000 _ (Nat.le_refl _) hl (by decide)
    (fun j _ h1 h2 _ => absurd h2 (Nat.not_lt.mpr h1))

/-! ## Claim C5: a problem without an answer -/

/-- The raw answer of a problem built by `buildProblems` is the entry of the answer table for its
number, or the empty text when there is none. -/
theorem answerRaw_of_mem_buildProblems (answers : StrMap Str) (secRaw : Str)
    (pms : List ProbMatch) (prob : RawProblem) (h : prob ∈ buildProblems answers secRaw pms) :
    prob.answerRaw = (answers.get prob.number).getD [] := by
  induction pms with
  | nil => simp [buildProblems] at h
  | cons pm pms ih =>
    simp only [buildProblems, List.mem_cons] at h
    rcases h with h | h
    · subst h; rfl
    · exact ih h

/-- The problem block of a problem whose raw answer is empty after trimming. -/
theorem problemBlock_blank_answer (prob : RawProblem) (h : trim prob.answerRaw = []) :
    problemBlock prob
      = .problem prob.number [] (buildContentArray prob.statementRaw) [ContentBlock.text []] := by
  simp [problemBlock, h]

/-- Claim C5: for every answer table and every section span, each problem block in the body
emitted for the section whose number has no entry in the answer table, or an entry that is
empty after trimming, has an `answer` field (the block is a problem block with its four
fields) and the field is the one-element list of an empty text block. -/
theorem missing_answer_gives_empty_block (answers : StrMap Str) (id title secRaw : Str)
    (item : BodyItem) (number : Str)
    (hmem : item ∈ sectionBody (parseSection answers id title secRaw))
    (hnum : ∃ t st an, item = .problem number t st an)
    (hans : answers.get number = none ∨ ∃ v, answers.get number = some v ∧ trim v = []) :
    item.answer? = some [ContentBlock.text []] := by
  obtain ⟨t, st, an, rfl⟩ := hnum
  unfold sectionBody at hmem
  rcases List.mem_append.mp hmem with h | h
  · split at h
    · simp at h
    · simp at h
  · obtain ⟨prob, hprob, hblock⟩ := List.mem_map.mp h
    have hraw := answerRaw_of_mem_buildProblems answers secRaw _ prob hprob
    have hn : prob.number = number := by
      unfold problemBlock at hblock
      simp only [BodyItem.problem.injEq] at hblock
      exact hblock.1
    have htrim : trim prob.answerRaw = [] := by
      rw [hraw, hn]
      rcases hans with h | ⟨v, h, hv⟩
      · rw [h]; rfl
      · rw [h]; exact hv
    rw [problemBlock_blank_answer prob htrim] at hblock
    rw [← hblock]
    rfl

/-- Claim C5, at the section of the spec's scenario with an answer table that has an entry
for another problem only. -/
theorem missing_answer_gives_empty_block_witness :
    (BodyItem.problem "1.1".toList [] [.text "ind velocity.".toList] [.text []]).answer?
      = some [ContentBlock.text []] :=
  missing_answer_gives_empty_block [("1.2".toList, "v = 5 m/s".toList)] "1.1".toList
    "1.1. Kinematics".toList kinematicsSpan _ "1.1".toList (by decide) ⟨_, _, _, rfl⟩
    (Or.inl (by decide))

/-! ## Claim C6: at least one block -/

/-- The loop of `buildContentArray` appends the blocks of the pieces in order. -/
theorem foldl_partItems (parts : List Str) (init : List ContentBlock) :
    parts.foldl (fun items part => items ++ partItems part) init
      = init ++ parts.flatMap partItems := by
  induction parts generalizing init with
  | nil => simp
  | cons p ps ih => simp [List.foldl_cons, ih, List.flatMap_cons, List.append_assoc]

/-- A text block a piece adds is the normal form of the piece, which is not empty after
trimming, and the piece has no match of the figure expression. -/
theorem text_mem_partItems (part v : Str) (h : ContentBlock.text v ∈ partItems part) :
    v = convertLatex part ∧ trim v ≠ [] ∧ search rxFigure none part = none := by
  unfold partItems at h
  split at h
  · split at h
    · simp at h
    · simp at h
  · rename_i hnone
    split at h
    · rename_i ht
      simp only [List.mem_singleton, ContentBlock.text.injEq] at h
      subst h
      exact ⟨rfl, ht, hnone⟩
    · simp at h

/-- The blocks `buildContentArray` returns: those of the pieces, or the fallback. -/
theorem buildContentArray_eq (rawText : Str) :
    buildContentArray rawText =
      if (splitKeep rxFigure rawText).flatMap partItems = [] then [ContentBlock.text []]
      else (splitKeep rxFigure rawText).flatMap partItems := by
  simp only [buildContentArray, foldl_partItems, List.nil_append, List.length_eq_zero]

/-- Claim C6: for every raw span `buildContentArray` returns at least one block, and the
sequence is either the fallback, one empty text block, or such that every text block in it has
a value that is not empty after trimming. -/
theorem buildContentArray_nonempty (rawText : Str) :
    1 ≤ (buildContentArray rawText).length ∧
      (buildContentArray rawText = [ContentBlock.text []] ∨
        ∀ v, ContentBlock.text v ∈ buildContentArray rawText → trim v ≠ []) := by
  rw [buildContentArray_eq]
  split
  · exact ⟨by simp, Or.inl rfl⟩
  · rename_i hne
    refine ⟨?_, Or.inr ?_⟩
    · exact List.length_pos.mpr hne
    · intro v hv
      obtain ⟨part, _, hp⟩ := List.mem_flatMap.mp hv
      exact (text_mem_partItems part v hp).2.1

/-! ## Claim C7: a figure block between two texts -/

/-- A text in which the figure expression has no match contains no figure block. -/
theorem not_containsFigureBlock_of_search (part : Str) (h : search rxFigure none part = none) :
    ¬ ContainsFigureBlock part := by
  rintro ⟨a, b, c, rfl⟩
  have := search_isSome rxFigure a (figureBegin ++ b ++ figureEnd ++ c) none
    (fun p => rxFigure_isSome p b c)
  simp only [List.append_assoc] at this h
  rw [h] at this
  simp at this

/-- The search for a figure block finds nothing in a text that contains none. -/
theorem search_rxFigure_none (s : Str) (prev : Option Char) (h : ¬ ContainsFigureBlock s) :
    search rxFigure prev s = none := by
  cases hs : search rxFigure prev s with
  | none => rfl
  | some r =>
    obtain ⟨pre, m⟩ := r
    obtain ⟨s', hs', hm⟩ := search_some hs
    obtain ⟨inner, hmatched, _, hsplit⟩ := rxFigure_some hm
    exfalso
    apply h
    refine ⟨pre, inner, m.rest, ?_⟩
    rw [hs', hsplit, hmatched]
    simp

/-- A text without `\begin{figure}` contains no figure block. -/
theorem not_containsFigureBlock_of_no_opener (A : Str) (hA : ¬ figureBegin <:+: A) :
    ¬ ContainsFigureBlock A := by
  rintro ⟨a, b, c, rfl⟩
  apply hA
  exact ⟨a, b ++ figureEnd ++ c, by simp⟩

/-- A piece without a figure block stands for its text blocks. -/
theorem partItems_text (part : Str) (h : ¬ ContainsFigureBlock part) :
    partItems part = textItems part := by
  unfold partItems textItems
  rw [search_rxFigure_none part none h]

/-- The split of a span `A ++ F ++ B`, where `A` has no `\begin{figure}`, `F` is a figure block
whose inside has no `\end{figure}`, and `B` contains no figure block: the pieces are `A`, `F`
and `B`. -/
theorem splitKeep_figure (A inner B : Str) (hA : ¬ figureBegin <:+: A)
    (hEnd : ¬ figureEnd <:+: inner) (hB : ¬ ContainsFigureBlock B) :
    splitKeep rxFigure (A ++ (figureBegin ++ inner ++ figureEnd) ++ B)
      = [A, figureBegin ++ inner ++ figureEnd, B] := by
  have hfb : figureBegin = '\\' :: "begin\x7bfigure\x7d".toList := rfl
  have hs : search rxFigure none (A ++ (figureBegin ++ inner ++ figureEnd ++ B))
      = some (A, ⟨figureBegin ++ inner ++ figureEnd, [inner], B⟩) := by
    apply search_append_match
    · intro k hk p
      have := rxFigure_skip A ("begin\x7bfigure\x7d".toList ++ inner ++ figureEnd ++ B) hA k hk p
      rw [hfb]
      simpa using this
    · intro p
      exact rxFigure_block p inner B hEnd
  have hlen : (A ++ (figureBegin ++ inner ++ figureEnd) ++ B).length
      = ((A ++ inner ++ figureEnd ++ B).length + 13) + 1 := by
    simp only [List.length_append, hfb, List.length_cons]
    have : "begin\x7bfigure\x7d".toList.length = 13 := rfl
    omega
  unfold splitKeep
  rw [hlen, splitKeepFrom, List.append_assoc A, hs]
  dsimp only
  have hne : figureBegin ++ inner ++ figureEnd = '\\' :: ("begin\x7bfigure\x7d".toList ++ inner ++ figureEnd) := by
    rw [hfb]; simp
  rw [hne]
  dsimp only
  rw [splitKeepFrom, search_rxFigure_none B _ hB]

/-- The blocks of a figure block of the form the spec describes: the image block of its first
graphic and its first caption. -/
theorem partItems_figureBlock (X foo Y cap Z : Str)
    (hEnd : ¬ figureEnd <:+: figureInner X foo Y cap Z)
    (hInc : ¬ includeLit <:+: X) (hCap : ¬ captionLit <:+: figureHead X foo Y)
    (hfoo : foo ≠ []) (hfoo' : ∀ c ∈ foo, c ≠ '\x7d')
    (hcap : ∀ c ∈ cap, c ≠ '\x7d' ∧ c ≠ '\\') :
    partItems (figureBlock X foo Y cap Z)
      = [ContentBlock.image (imageDir ++ foo ++ ".jpg".toList) cap] := by
  have hl : includeLit = '\\' :: "includegraphics".toList := rfl
  have hc : captionLit = '\\' :: "caption\x7b".toList := rfl
  have hfig : search rxFigure none (figureBlock X foo Y cap Z)
      = some ([], ⟨figureBlock X foo Y cap Z, [figureInner X foo Y cap Z], []⟩) := by
    apply search_of_match
    have := rxFigure_block none (figureInner X foo Y cap Z) [] hEnd
    rw [List.append_nil] at this
    exact this
  have himg : search rxIncludeGraphics none (figureInner X foo Y cap Z)
      = some (X, ⟨includeLit ++ '\x7b' :: foo ++ ['\x7d'], [foo],
          Y ++ (captionLit ++ (cap ++ ('\x7d' :: Z)))⟩) := by
    have hi : figureInner X foo Y cap Z = X ++ (includeLit ++
        ('\x7b' :: (foo ++ ('\x7d' :: (Y ++ (captionLit ++ (cap ++ ('\x7d' :: Z)))))))) := by
      simp [figureInner, figureHead]
    rw [hi]
    apply search_append_match
    · intro k hk p
      have := rxIncludeGraphics_skip X ("includegraphics".toList ++
        ('\x7b' :: (foo ++ ('\x7d' :: (Y ++ (captionLit ++ (cap ++ ('\x7d' :: Z)))))))) hInc k hk p
      rw [hl]
      simpa using this
    · intro p
      exact rxIncludeGraphics_at p foo _ hfoo hfoo'
  have hcapm : search rxCaption none (figureInner X foo Y cap Z)
      = some (figureHead X foo Y, ⟨captionLit ++ cap ++ ['\x7d'], [cap], Z⟩) := by
    unfold figureInner
    apply search_append_match
    · intro k hk p
      have := rxCaption_skip (figureHead X foo Y)
        ("caption\x7b".toList ++ (cap ++ ('\x7d' :: Z))) hCap k hk p
      rw [hc]
      simpa using this
    · intro p
      exact rxBraced_at captionLit cap Z p (fun c h => (hcap c h).1)
  unfold partItems
  rw [hfig]
  dsimp only [Match.group, capture]
  simp only [if_neg (by decide : ¬ (1 = 0)), List.get?_cons_zero, Option.getD_some,
    Nat.sub_self]
  rw [himg, hcapm]
  dsimp only [Match.group, capture]
  simp only [if_neg (by decide : ¬ (1 = 0)), List.get?_cons_zero, Option.getD_some,
    Nat.sub_self]
  rw [replaceAll_rxTextit cap hcap]

/-- Claim C7, as amended: for every span `A ++ F ++ B` in which `A` has no `\begin{figure}`,
`B` contains no figure block, and `F` is the figure block
`\begin{figure}X\includegraphics{foo}Y\caption{cap}Z\end{figure}` whose `\end{figure}` is the
first after its beginning, whose graphic `foo` (not empty, no closing brace) is its first
`\includegraphics` and whose caption `cap` (no backslash, no closing brace) is its first
`\caption{`, `buildContentArray` returns the text block of `A` if the normal form of `A` is not
empty, the image block with `src` the image directory, `foo` and `.jpg` and with caption `cap`,
and the text block of `B` if the normal form of `B` is not empty: three blocks when both
normal forms are not empty, two when exactly one is. -/
theorem figure_between_texts (A B X foo Y cap Z : Str)
    (hA : ¬ figureBegin <:+: A) (hB : ¬ ContainsFigureBlock B)
    (hEnd : ¬ figureEnd <:+: figureInner X foo Y cap Z)
    (hInc : ¬ includeLit <:+: X) (hCap : ¬ captionLit <:+: figureHead X foo Y)
    (hfoo : foo ≠ []) (hfoo' : ∀ c ∈ foo, c ≠ '\x7d')
    (hcap : ∀ c ∈ cap, c ≠ '\x7d' ∧ c ≠ '\\') :
    buildContentArray (A ++ figureBlock X foo Y cap Z ++ B)
        = textItems A ++ [ContentBlock.image (imageDir ++ foo ++ ".jpg".toList) cap]
          ++ textItems B ∧
      (trim (convertLatex A) ≠ [] → trim (convertLatex B) ≠ [] →
        buildContentArray (A ++ figureBlock X foo Y cap Z ++ B)
          = [.text (convertLatex A), .image (imageDir ++ foo ++ ".jpg".toList) cap,
              .text (convertLatex B)]) ∧
      (trim (convertLatex A) ≠ [] → trim (convertLatex B) = [] →
        buildContentArray (A ++ figureBlock X foo Y cap Z ++ B)
          = [.text (convertLatex A), .image (imageDir ++ foo ++ ".jpg".toList) cap]) ∧
      (trim (convertLatex A) = [] → trim (convertLatex B) ≠ [] →
        buildContentArray (A ++ figureBlock X foo Y cap Z ++ B)
          = [.image (imageDir ++ foo ++ ".jpg".toList) cap, .text (convertLatex B)]) := by
  have hsplit := splitKeep_figure A (figureInner X foo Y cap Z) B hA hEnd hB
  have hpA := partItems_text A (not_containsFigureBlock_of_no_opener A hA)
  have hpB := partItems_text B hB
  have hpF := partItems_figureBlock X foo Y cap Z hEnd hInc hCap hfoo hfoo' hcap
  have hmain : buildContentArray (A ++ figureBlock X foo Y cap Z ++ B)
      = textItems A ++ [ContentBlock.image (imageDir ++ foo ++ ".jpg".toList) cap]
        ++ textItems B := by
    rw [buildContentArray_eq]
    unfold figureBlock at hpF ⊢
    rw [hsplit]
    simp only [List.flatMap_cons, List.flatMap_nil, hpA, hpB, hpF, List.append_nil]
    rw [if_neg (by simp)]
    simp
  refine ⟨hmain, ?_, ?_, ?_⟩
  · intro h1 h2
    rw [hmain, textItems, textItems, if_pos h1, if_pos h2]
    rfl
  · intro h1 h2
    rw [hmain, textItems, textItems, if_pos h1, if_neg (not_not.mpr h2)]
    rfl
  · intro h1 h2
    rw [hmain, textItems, textItems, if_neg (not_not.mpr h1), if_pos h2]
    rfl

/-- Claim C7, as amended, at the span `See the figure.`, the figure block with a `\centering` line,
the graphic `foo` and the caption `Bar`, and `Find the force.`. -/
theorem figure_between_texts_witness :
    buildContentArray (figureExampleBefore ++
        figureBlock "\n\\centering\n".toList "foo".toList "\n".toList "Bar".toList "\n".toList
        ++ figureExampleAfter)
      = [.text "See the figure.".toList,
          .image "images/irodov-problems/foo.jpg".toList "Bar".toList,
          .text "Find the force.".toList] :=
  (figure_between_texts figureExampleBefore figureExampleAfter "\n\\centering\n".toList
    "foo".toList "\n".toList "Bar".toList "\n".toList (by decide)
    (not_containsFigureBlock_of_search _ (by decide)) (by decide) (by decide) (by decide)
    (by decide) (by decide) (by decide)).2.1 (by decide) (by decide)

/-- Claim C7, at a span `A ++ F ++ B` in which `A` is an unclosed `\begin{figure}`: `A` and `B`
contain no figure block and have the normal forms `\begin{figure}` and `B`, which are not
empty, and `F` is a figure block with the graphic `foo` and the caption `Bar`; two blocks are
returned, the image block and the text block of `B`, and no text block for `A`.  So it is in
the file `parse` writes for a source whose problem 1.1 has that statement. -/
theorem stray_opener_loses_text_block :
    strayOpenerSpan = figureBegin ++ figureBlock [] "foo".toList [] "Bar".toList [] ++ "B".toList ∧
      ¬ ContainsFigureBlock figureBegin ∧ ¬ ContainsFigureBlock "B".toList ∧
      trim (convertLatex figureBegin) ≠ [] ∧ trim (convertLatex "B".toList) ≠ [] ∧
      buildContentArray strayOpenerSpan
        = [.image "images/irodov-problems/foo.jpg".toList "Bar".toList, .text "B".toList] ∧
      parse (sourceOf 7998 (sectionWith strayOpenerSpan))
        = .ok [⟨"part_1".toList, "1.1.json".toList,
            ⟨"1.1".toList, "1.1. Kinematics".toList,
              [.intro "## 1.1. Kinematics\n\n".toList,
                .problem "1.1".toList []
                  [.image "images/irodov-problems/foo.jpg".toList "Bar".toList,
                    .text "B".toList]
                  [.text "v = 5 m/s".toList]]⟩⟩] := by
  refine ⟨by decide, not_containsFigureBlock_of_search _ (by decide),
    not_containsFigureBlock_of_search _ (by decide), by decide, by decide, by decide, ?_⟩
  rw [parse_sourceOf 7998 _ (by decide)]
  exact congrArg Except.ok (by set_option maxRecDepth 4000 in decide)

/-! ## Claim C8: figure blocks and text blocks -/

/-- The pieces of the split, figure blocks included, make up the span. -/
theorem splitKeepFrom_flatten (fuel : Nat) (prev : Option Char) (s : Str) :
    (splitKeepFrom rxFigure fuel prev s).flatten = s := by
  induction fuel generalizing prev s with
  | zero => simp [splitKeepFrom]
  | succ fuel ih =>
    simp only [splitKeepFrom]
    split
    · simp
    · rename_i pre m hs
      obtain ⟨s', hs', hm⟩ := search_some hs
      obtain ⟨inner, _, _, hsplit⟩ := rxFigure_some hm
      split
      · simp
      · rename_i hmatched
        simp only [List.flatten_cons, ih]
        rw [hs', hsplit, hmatched]

/-- Claim C8, as amended: for every raw span, the pieces of the split make up the span, and
the blocks returned are the fallback, one empty text block, or such that every text block has
as value the normal form of a piece of the span that contains no figure block. -/
theorem text_blocks_come_from_figure_free_pieces (rawText : Str) :
    (splitKeep rxFigure rawText).flatten = rawText ∧
      (buildContentArray rawText = [ContentBlock.text []] ∨
        ∀ v, ContentBlock.text v ∈ buildContentArray rawText →
          ∃ part ∈ splitKeep rxFigure rawText, ¬ ContainsFigureBlock part ∧
            v = convertLatex part) := by
  refine ⟨splitKeepFrom_flatten _ _ _, ?_⟩
  rw [buildContentArray_eq]
  split
  · exact Or.inl rfl
  · refine Or.inr ?_
    intro v hv
    obtain ⟨part, hpart, hp⟩ := List.mem_flatMap.mp hv
    obtain ⟨hv, _, hnone⟩ := text_mem_partItems part v hp
    exact ⟨part, hpart, not_containsFigureBlock_of_search part hnone, hv⟩

/-- Claim C8, at a span in which the deletion of `\nonumber` joins the two tags of a figure
block: the text block returned has the figure block as its value.  So it is in the file `parse`
writes for a source whose problem 1.1 has that statement. -/
theorem spliced_figure_reaches_text_block :
    (∃ v, ContentBlock.text v ∈ buildContentArray splicedFigureSpan ∧ ContainsFigureBlock v) ∧
      parse (sourceOf 7998 (sectionWith splicedFigureSpan))
        = .ok [⟨"part_1".toList, "1.1.json".toList,
            ⟨"1.1".toList, "1.1. Kinematics".toList,
              [.intro "## 1.1. Kinematics\n\n".toList,
                .problem "1.1".toList []
                  [.text "\\begin\x7bfigure\x7dx\\end\x7bfigure\x7d".toList]
                  [.text "v = 5 m/s".toList]]⟩⟩] := by
  refine ⟨⟨"\\begin\x7bfigure\x7dx\\end\x7bfigure\x7d".toList, by decide, [], ['x'], [],
    by decide⟩, ?_⟩
  rw [parse_sourceOf 7998 _ (by decide)]
  exact congrArg Except.ok (by decide)

/-! ## Claim C9: the numbers of the problems -/

/-- The text before the first dot of digits, a dot, and more is the digits. -/
theorem secMajor_digits (a b : Str) (ha : ∀ c ∈ a, isDigit c = true) :
    secMajor (a ++ '.' :: b) = a := by
  unfold secMajor
  induction a with
  | nil => simp [splitOn]
  | cons c cs ih =>
    have hc : c ≠ '.' := by
      intro hc
      have := ha c (by simp)
      rw [hc] at this
      exact absurd this (by decide)
    have ih' := ih (fun d hd => ha d (by simp [hd]))
    simp only [List.cons_append, splitOn, hc, if_false]
    cases hsp : splitOn '.' (cs ++ '.' :: b) with
    | nil => rw [hsp] at ih'; simp at ih'; subst ih'; simp
    | cons l ls => rw [hsp] at ih'; simp at ih'; subst ih'; simp

/-- The numbers of the problems built are the numbers of the markers, in order. -/
theorem buildProblems_numbers (answers : StrMap Str) (secRaw : Str) (pms : List ProbMatch) :
    (buildProblems answers secRaw pms).map RawProblem.number = pms.map ProbMatch.num := by
  induction pms with
  | nil => rfl
  | cons pm pms ih => simp [buildProblems, ih]

/-- Claim C9, as amended: for every statements region, every section heading the Segmenter
finds in it and every span taken for the section, the number of each problem is the section's
major number (a non-empty digit string), a dot and a non-empty digit string; and the numbers
of the problems are the numbers of the markers found, in the order of the span. -/
theorem problem_number_format (problemText : Str) (sec : SectionBoundary)
    (hsec : sec ∈ sectionBoundaries problemText) (answers : StrMap Str) (secRaw : Str) :
    (∀ prob ∈ (parseSection answers sec.id sec.title secRaw).problems,
      ∃ major minor : Str, major ≠ [] ∧ (∀ c ∈ major, isDigit c = true) ∧
        minor ≠ [] ∧ (∀ c ∈ minor, isDigit c = true) ∧
        secMajor sec.id = major ∧ prob.number = major ++ '.' :: minor) ∧
      (parseSection answers sec.id sec.title secRaw).problems.map RawProblem.number
        = (probMatches (secMajor sec.id) secRaw).map ProbMatch.num := by
  refine ⟨?_, buildProblems_numbers _ _ _⟩
  intro prob hprob
  obtain ⟨im, him, rfl⟩ := List.mem_map.mp hsec
  obtain ⟨p1, s1, hm1⟩ := execAllFrom_mem him
  obtain ⟨a, b, ha, had, _, _, hid⟩ := subsectionRe_group hm1
  have hmajor : secMajor (im.2.group 1) = a := by rw [hid]; exact secMajor_digits a b had
  have hnum : prob.number ∈ (probMatches (secMajor (im.2.group 1)) secRaw).map ProbMatch.num := by
    rw [← buildProblems_numbers answers secRaw]
    exact List.mem_map_of_mem _ hprob
  obtain ⟨pm, hpm, hpmn⟩ := List.mem_map.mp hnum
  obtain ⟨im2, him2, rfl⟩ := List.mem_map.mp hpm
  obtain ⟨p2, s2, hm2⟩ := execAllFrom_mem him2
  obtain ⟨minor, hmin, hmind, hg⟩ := probNumPattern_group hm2
  refine ⟨a, minor, ha, had, hmin, hmind, hmajor, ?_⟩
  rw [← hpmn, ← hmajor]
  exact hg

/-- Claim C9, as amended, at the heading and span of the spec's scenario. -/
theorem problem_number_format_witness :
    (∀ prob ∈ (parseSection [] "1.1".toList "1.1. Kinematics".toList kinematicsSpan).problems,
      ∃ major minor : Str, major ≠ [] ∧ (∀ c ∈ major, isDigit c = true) ∧
        minor ≠ [] ∧ (∀ c ∈ minor, isDigit c = true) ∧
        secMajor "1.1".toList = major ∧ prob.number = major ++ '.' :: minor) ∧
      (parseSection [] "1.1".toList "1.1. Kinematics".toList kinematicsSpan).problems.map
          RawProblem.number
        = (probMatches (secMajor "1.1".toList) kinematicsSpan).map ProbMatch.num :=
  problem_number_format kinematicsSpan ⟨"1.1".toList, "1.1. Kinematics".toList, 0⟩ (by decide) []
    kinematicsSpan

/-- Claim C9, at a source in whose section 1.1 two markers carry the number `1.1`: the section
gets two problems numbered `1.1`, so the numbers are not pairwise distinct, and both are
written. -/
theorem repeated_marker_repeats_number :
    (parseSection (parseAnswers scenarioAnswers) "1.1".toList "1.1. Kinematics".toList
        repeatedNumberSpan).problems.map RawProblem.number = ["1.1".toList, "1.1".toList] ∧
      ¬ ((parseSection (parseAnswers scenarioAnswers) "1.1".toList "1.1. Kinematics".toList
        repeatedNumberSpan).problems.map RawProblem.number).Nodup ∧
      parse (sourceOf 7997 repeatedNumberSpan)
        = .ok [⟨"part_1".toList, "1.1.json".toList,
            ⟨"1.1".toList, "1.1. Kinematics".toList,
              [.intro "## 1.1. Kinematics\n\n".toList,
                .problem "1.1".toList [] [.text "ind velocity.".toList]
                  [.text "v = 5 m/s".toList],
                .problem "1.1".toList [] [.text "ind time.".toList]
                  [.text "v = 5 m/s".toList]]⟩⟩] := by
  refine ⟨by decide, by decide, ?_⟩
  rw [parse_sourceOf 7997 repeatedNumberSpan (by decide)]
  exact congrArg Except.ok (by decide)

/-! ## Claim C10: the intro block -/

/-- The heading text of an intro span that starts with a heading, and the rest of the span:
`buildIntroText` puts the text between the braces of the heading after `## `, then a blank
line, then the normal form of the rest. -/
theorem buildIntroText_heading (T R secId : Str) (hT : T ≠ [])
    (hclose : ∀ c ∈ T, c ≠ '\x7d') :
    buildIntroText (subsectionLit ++ T ++ '\x7d' :: R) secId
      = "## ".toList ++ T ++ "\n\n".toList ++ convertLatex (trim R) := by
  have hs := search_of_match (rxBraced1_at subsectionLit T R none hT hclose)
  have h2 : replaceFirst (rxBraced1 subsectionLit) erase (subsectionLit ++ T ++ '\x7d' :: R)
      = R := by
    unfold replaceFirst
    rw [hs]
    rfl
  obtain ⟨x, hx⟩ := convertLatex_trimmed (trim R)
  unfold buildIntroText
  dsimp only
  rw [hs, h2, hx, replaceFirst_leading_trim, replaceFirst_trailing_trim]
  rfl

/-- The body of a section whose intro span starts with a heading `\subsection*{T}` followed by
`R`: the intro block with the heading text of the source, and the problem blocks. -/
theorem sectionBody_heading (data : SectionData) (T R : Str) (hT : T ≠ [])
    (hclose : ∀ c ∈ T, c ≠ '\x7d') (hraw : data.introRaw = subsectionLit ++ T ++ '\x7d' :: R) :
    sectionBody data =
      BodyItem.intro ("## ".toList ++ T ++ "\n\n".toList ++ convertLatex (trim R)) ::
        data.problems.map problemBlock := by
  unfold sectionBody
  rw [hraw, buildIntroText_heading T R data.id hT hclose]
  have h : trim ("## ".toList ++ T ++ "\n\n".toList ++ convertLatex (trim R)) ≠ [] := by
    have := trim_heading_ne_nil (T ++ "\n\n".toList ++ convertLatex (trim R))
    rwa [← List.append_assoc, ← List.append_assoc] at this
  rw [if_pos h]
  rfl

/-- The intro span of a section whose span starts with a heading without a line break: the
heading and an initial part of the text after it. -/
theorem introRaw_heading (answers : StrMap Str) (id title T rest : Str)
    (hT : ∀ c ∈ T, c ≠ '\n') (hmajor : ∀ c ∈ secMajor id, isDigit c = true) :
    ∃ R, R <+: rest ∧
      (parseSection answers id title (subsectionLit ++ T ++ '\x7d' :: rest)).introRaw
        = subsectionLit ++ T ++ '\x7d' :: R := by
  have hsl : subsectionLit = '\\' :: "subsection*\x7b".toList := rfl
  have hH : ∀ c ∈ subsectionLit ++ T ++ ['\x7d'], c ≠ '\n' := by
    intro c hc
    simp only [List.mem_append, List.mem_singleton] at hc
    rcases hc with (hc | hc) | hc
    · revert c; decide
    · exact hT c hc
    · rw [hc]; decide
  have hsplit : subsectionLit ++ T ++ '\x7d' :: rest = (subsectionLit ++ T ++ ['\x7d']) ++ rest := by
    simp
  have hsearch := search_append_skip_from (probNumPattern (secMajor id))
    (subsectionLit ++ T ++ ['\x7d']) rest none
    (probNumPattern_skip (secMajor id) _ rest hmajor hH
      (by intro t h; rw [hsl] at h; simp at h)
      (by intro c t h; rw [hsl] at h; simp at h; rw [← h.1]; decide))
  have key : ∃ R, R <+: rest ∧
      introRaw (subsectionLit ++ T ++ ['\x7d'] ++ rest)
        (probMatches (secMajor id) (subsectionLit ++ T ++ ['\x7d'] ++ rest))
        = subsectionLit ++ T ++ ['\x7d'] ++ R := by
    unfold probMatches execAll
    cases hs : search (probNumPattern (secMajor id))
        (lastChar none (subsectionLit ++ T ++ ['\x7d'])) rest with
    | none =>
      rw [hs] at hsearch
      simp only [Option.map_none'] at hsearch
      refine ⟨rest, List.prefix_refl _, ?_⟩
      rw [execAllFrom, hsearch]
      rfl
    | some r =>
      rw [hs] at hsearch
      simp only [Option.map_some'] at hsearch
      obtain ⟨tl, htl⟩ := execAllFrom_head (probNumPattern (secMajor id))
        ((subsectionLit ++ T ++ ['\x7d'] ++ rest).length) 0 none _ _ _ hsearch
      rw [htl]
      simp only [List.map_cons, introRaw, slice, List.drop_zero, Nat.zero_add]
      refine ⟨rest.take (r.1.length +
        (if startsWith r.2.matched "\n".toList = true then 1 else 0)), List.take_prefix _ _, ?_⟩
      rw [List.length_append, Nat.add_assoc, List.take_append]
  obtain ⟨R, hR, h⟩ := key
  refine ⟨R, hR, ?_⟩
  rw [hsplit]
  show introRaw _ (probMatches (secMajor id) _) = _
  rw [h]
  simp

/-- The major number of a section the Segmenter finds is made of digits. -/
theorem secMajor_of_mem_sectionBoundaries (problemText : Str) (sec : SectionBoundary)
    (hsec : sec ∈ sectionBoundaries problemText) : ∀ c ∈ secMajor sec.id, isDigit c = true := by
  obtain ⟨im, him, rfl⟩ := List.mem_map.mp hsec
  obtain ⟨p1, s1, hm1⟩ := execAllFrom_mem him
  obtain ⟨a, b, _, had, _, _, hid⟩ := subsectionRe_group hm1
  show ∀ c ∈ secMajor (im.2.group 1), isDigit c = true
  rw [hid, secMajor_digits a b had]
  exact had

/-- Claim C10, as amended: for every section the Segmenter finds and every span taken for it
that starts with a heading `\subsection*{T}`, `T` not empty and without closing brace and line
break, followed by `rest`, the intro span is the heading and an initial part `R` of `rest`, and
the body of the section starts with the intro block, whose value is `## ` followed by `T`, the
text the source carries between the braces of the heading, then a blank line, then the normal
form of `R`; the problem blocks follow.  The title of the catalog is not read. -/
theorem intro_block_value (problemText : Str) (sec : SectionBoundary)
    (hsec : sec ∈ sectionBoundaries problemText) (answers : StrMap Str) (T rest : Str)
    (hT : T ≠ []) (hclose : ∀ c ∈ T, c ≠ '\x7d' ∧ c ≠ '\n') :
    ∃ R, R <+: rest ∧
      (parseSection answers sec.id sec.title (subsectionLit ++ T ++ '\x7d' :: rest)).introRaw
        = subsectionLit ++ T ++ '\x7d' :: R ∧
      sectionBody (parseSection answers sec.id sec.title (subsectionLit ++ T ++ '\x7d' :: rest))
        = BodyItem.intro ("## ".toList ++ T ++ "\n\n".toList ++ convertLatex (trim R)) ::
          (parseSection answers sec.id sec.title
            (subsectionLit ++ T ++ '\x7d' :: rest)).problems.map problemBlock := by
  obtain ⟨R, hR, hraw⟩ := introRaw_heading answers sec.id sec.title T rest
    (fun c hc => (hclose c hc).2) (secMajor_of_mem_sectionBoundaries problemText sec hsec)
  exact ⟨R, hR, hraw, sectionBody_heading _ T R hT (fun c hc => (hclose c hc).1) hraw⟩

/-- Claim C10, as amended, at the section of a span whose heading reads `1.1. Motion`. -/
theorem intro_block_value_witness :
    ∃ R, R <+: "\nAll bodies move.\n1.1. Find velocity.".toList ∧
      (parseSection [] "1.1".toList "1.1. Motion".toList
          (subsectionLit ++ "1.1. Motion".toList ++
            '\x7d' :: "\nAll bodies move.\n1.1. Find velocity.".toList)).introRaw
        = subsectionLit ++ "1.1. Motion".toList ++ '\x7d' :: R ∧
      sectionBody (parseSection [] "1.1".toList "1.1. Motion".toList
          (subsectionLit ++ "1.1. Motion".toList ++
            '\x7d' :: "\nAll bodies move.\n1.1. Find velocity.".toList))
        = BodyItem.intro ("## ".toList ++ "1.1. Motion".toList ++ "\n\n".toList ++
            convertLatex (trim R)) ::
          (parseSection [] "1.1".toList "1.1. Motion".toList
            (subsectionLit ++ "1.1. Motion".toList ++
              '\x7d' :: "\nAll bodies move.\n1.1. Find velocity.".toList)).problems.map
            problemBlock :=
  intro_block_value motionSpan ⟨"1.1".toList, "1.1. Motion".toList, 0⟩ (by decide) []
    "1.1. Motion".toList "\nAll bodies move.\n1.1. Find velocity.".toList (by decide)
    (by decide)

/-- Claim C10, at a source whose heading of section 1.1 reads `1.1. Motion`: the file written
has the title of the catalog, `1.1. Kinematics`, and its intro block the heading of the source,
`## 1.1. Motion`, not `## 1.1. Kinematics`. -/
theorem intro_heading_follows_source :
    parse (sourceOf 7997 motionSpan)
        = .ok [⟨"part_1".toList, "1.1.json".toList,
            ⟨"1.1".toList, "1.1. Kinematics".toList,
              [.intro "## 1.1. Motion\n\nAll bodies move.".toList,
                .problem "1.1".toList [] [.text "ind velocity.".toList]
                  [.text "v = 5 m/s".toList]]⟩⟩] ∧
      "## 1.1. Motion\n\nAll bodies move.".toList
        ≠ "## ".toList ++ "1.1. Kinematics".toList ++ "\n\n".toList ++
            convertLatex "All bodies move.".toList := by
  refine ⟨?_, by decide⟩
  rw [parse_sourceOf 7997 motionSpan (by decide)]
  exact congrArg Except.ok (by decide)

/-! ## What the scanning loops find -/

/-- No match starts before the one `search` finds. -/
theorem search_leftmost {rx : Rx} {prev : Option Char} {s pre : Str} {m : Match}
    (h : search rx prev s = some (pre, m)) (P S : Str) (hs : s = P ++ S)
    (hlt : P.length < pre.length) : rx (lastChar prev P) S = none := by
  induction s generalizing prev pre P with
  | nil =>
    simp only [search, Option.map_eq_some'] at h
    obtain ⟨m', _, he⟩ := h
    simp only [Prod.mk.injEq] at he
    rw [← he.1] at hlt
    simp at hlt
  | cons c cs ih =>
    rw [search] at h
    cases hr : rx prev (c :: cs) with
    | some m' =>
      rw [hr] at h
      simp only [Option.some.injEq, Prod.mk.injEq] at h
      rw [← h.1] at hlt
      simp at hlt
    | none =>
      rw [hr] at h
      simp only [Option.map_eq_some'] at h
      obtain ⟨⟨pre', m'⟩, hs', he⟩ := h
      simp only [Prod.mk.injEq] at he
      obtain ⟨rfl, rfl⟩ := he
      cases P with
      | nil =>
        simp only [List.nil_append] at hs
        subst hs
        exact hr
      | cons p P' =>
        simp only [List.cons_append, List.cons.injEq] at hs
        obtain ⟨rfl, hcs⟩ := hs
        rw [lastChar_cons]
        exact ih hs' P' hcs (by simpa using hlt)

/-- When `search` finds nothing, the expression matches at no position. -/
theorem search_none_all {rx : Rx} {prev : Option Char} {s : Str}
    (h : search rx prev s = none) (P S : Str) (hs : s = P ++ S) :
    rx (lastChar prev P) S = none := by
  induction s generalizing prev P with
  | nil =>
    simp only [search, Option.map_eq_none'] at h
    have hP : P = [] := by
      cases P with
      | nil => rfl
      | cons _ _ => simp at hs
    have hS : S = [] := by
      subst hP
      simpa using hs.symm
    subst hP hS
    exact h
  | cons c cs ih =>
    rw [search] at h
    cases hr : rx prev (c :: cs) with
    | some m' =>
      rw [hr] at h
      simp at h
    | none =>
      rw [hr] at h
      simp only [Option.map_eq_none'] at h
      cases P with
      | nil =>
        simp only [List.nil_append] at hs
        subst hs
        exact hr
      | cons p P' =>
        simp only [List.cons_append, List.cons.injEq] at hs
        obtain ⟨rfl, hcs⟩ := hs
        rw [lastChar_cons]
        exact ih h P' hcs

/-- The step of the loop of `exec` at a match that is not empty. -/
theorem execAllFrom_step (rx : Rx) (fuel pos : Nat) (prev : Option Char) (s pre : Str)
    (m : Match) (h : search rx prev s = some (pre, m)) (hne : m.matched ≠ []) :
    execAllFrom rx (fuel + 1) pos prev s
      = (pos + pre.length, m) ::
          execAllFrom rx fuel (pos + pre.length + m.matched.length)
            (lastChar prev (pre ++ m.matched)) m.rest := by
  rw [execAllFrom, h]
  dsimp only
  split
  · rename_i hm _
    exact absurd hm hne
  · rename_i hm _
    exact absurd hm hne
  · rfl

/-- Every match of the loop of `exec` stands at its index in the text, where the expression
matches. -/
theorem execAllFrom_mem_split (rx : Rx) (hrx : SoundRx rx) (fuel : Nat) :
    ∀ (pos : Nat) (prev : Option Char) (s : Str) (im : Nat × Match),
      im ∈ execAllFrom rx fuel pos prev s →
      ∃ P, s = P ++ (im.2.matched ++ im.2.rest) ∧ im.1 = pos + P.length ∧
        rx (lastChar prev P) (im.2.matched ++ im.2.rest) = some im.2 := by
  induction fuel with
  | zero => intro pos prev s im h; simp [execAllFrom] at h
  | succ fuel ih =>
    intro pos prev s im h
    simp only [execAllFrom] at h
    split at h
    · simp at h
    · rename_i pre m hsearch
      obtain ⟨s', hs', hm⟩ := search_some hsearch
      have hsound := hrx _ _ _ hm
      have hhead : ∃ P, s = P ++ (m.matched ++ m.rest) ∧ pos + pre.length = pos + P.length ∧
          rx (lastChar prev P) (m.matched ++ m.rest) = some m :=
        ⟨pre, by rw [hs', hsound], rfl, by rw [← hsound]; exact hm⟩
      split at h
      · simp only [List.mem_singleton] at h
        subst h
        exact hhead
      · rename_i c cs hmat hrest
        simp only [List.mem_cons] at h
        rcases h with h | h
        · subst h; exact hhead
        · obtain ⟨P, hP, hi, hr⟩ := ih _ _ _ _ h
          refine ⟨pre ++ c :: P, ?_, ?_, ?_⟩
          · rw [hs', hsound, hmat, hrest, hP]; simp
          · rw [hi]; simp; omega
          · rw [lastChar_append, lastChar_cons]; exact hr
      · simp only [List.mem_cons] at h
        rcases h with h | h
        · subst h; exact hhead
        · obtain ⟨P, hP, hi, hr⟩ := ih _ _ _ _ h
          refine ⟨pre ++ m.matched ++ P, ?_, ?_, ?_⟩
          · rw [hs', hsound]
            conv_lhs => rw [hP]
            simp
          · rw [hi]; simp; omega
          · rw [lastChar_append]; exact hr

/-- A position where the expression matches is the index of a match of the loop of `exec`, or
lies inside an earlier match of the loop. -/
theorem execAllFrom_covers (rx : Rx) (hrx : SoundRx rx)
    (hne : ∀ p s m, rx p s = some m → m.matched ≠ []) (fuel : Nat) :
    ∀ (pos : Nat) (prev : Option Char) (s P S : Str) (m : Match), s.length < fuel →
      s = P ++ S → rx (lastChar prev P) S = some m →
      ∃ im ∈ execAllFrom rx fuel pos prev s,
        im = (pos + P.length, m) ∨
          (im.1 < pos + P.length ∧ pos + P.length < im.1 + im.2.matched.length) := by
  induction fuel with
  | zero => intro _ _ s _ _ _ h; omega
  | succ fuel ih =>
    intro pos prev s P S m hlen hsplit hm
    cases hsr : search rx prev s with
    | none =>
      rw [search_none_all hsr P S hsplit] at hm
      simp at hm
    | some r =>
      obtain ⟨pre0, m0⟩ := r
      obtain ⟨s0, hs0, hm0⟩ := search_some hsr
      have hsound := hrx _ _ _ hm0
      have hne0 := hne _ _ _ hm0
      rw [execAllFrom_step rx fuel pos prev s pre0 m0 hsr hne0]
      have hsame : P = pre0 → ∃ im ∈ (pos + pre0.length, m0) ::
            execAllFrom rx fuel (pos + pre0.length + m0.matched.length)
              (lastChar prev (pre0 ++ m0.matched)) m0.rest,
          im = (pos + P.length, m) ∨
            (im.1 < pos + P.length ∧ pos + P.length < im.1 + im.2.matched.length) := by
        intro hP
        subst hP
        have hS : S = s0 := List.append_cancel_left (hsplit.symm.trans hs0)
        subst hS
        rw [hm0] at hm
        simp only [Option.some.injEq] at hm
        subst hm
        exact ⟨_, List.mem_cons_self _ _, Or.inl rfl⟩
      have heq : pre0 ++ s0 = P ++ S := hs0.symm.trans hsplit
      rcases List.append_eq_append_iff.mp heq with ⟨a', hPa, hs0a⟩ | ⟨c', hpre, hSc⟩
      · -- the position is at or after the match found
        rw [hsound] at hs0a
        rcases List.append_eq_append_iff.mp hs0a with ⟨b', hab, hrest⟩ | ⟨c'', hmat, hSc⟩
        · -- inside the text after the match
          have hlen' : m0.rest.length < fuel := by
            have h1 : s.length = pre0.length + (m0.matched.length + m0.rest.length) := by
              rw [hs0, hsound]; simp
            have h2 : 0 < m0.matched.length := List.length_pos.mpr hne0
            omega
          have hm' : rx (lastChar (lastChar prev (pre0 ++ m0.matched)) b') S = some m := by
            rw [← lastChar_append, List.append_assoc, ← hab, ← hPa]; exact hm
          obtain ⟨im, him, hcase⟩ := ih (pos + pre0.length + m0.matched.length)
            (lastChar prev (pre0 ++ m0.matched)) m0.rest b' S m hlen' hrest hm'
          refine ⟨im, List.mem_cons_of_mem _ him, ?_⟩
          have hPl : P.length = pre0.length + m0.matched.length + b'.length := by
            rw [hPa, hab]; simp; omega
          rw [hPl]
          rcases hcase with h | ⟨h1, h2⟩
          · left; rw [h]; congr 1; omega
          · right; constructor <;> omega
        · cases a' with
          | nil => exact hsame (by simpa using hPa)
          | cons a as =>
            cases c'' with
            | nil =>
              have hlen' : m0.rest.length < fuel := by
                have h1 : s.length = pre0.length + (m0.matched.length + m0.rest.length) := by
                  rw [hs0, hsound]; simp
                have h2 : 0 < m0.matched.length := List.length_pos.mpr hne0
                omega
              have hmat' : m0.matched = a :: as := by simpa using hmat
              have hm' : rx (lastChar (lastChar prev (pre0 ++ m0.matched)) []) S = some m := by
                rw [← lastChar_append, List.append_nil, hmat', ← hPa]; exact hm
              obtain ⟨im, him, hcase⟩ := ih (pos + pre0.length + m0.matched.length)
                (lastChar prev (pre0 ++ m0.matched)) m0.rest [] S m hlen'
                (by simpa using hSc.symm) hm'
              refine ⟨im, List.mem_cons_of_mem _ him, ?_⟩
              have hPl : P.length = pre0.length + m0.matched.length := by
                rw [hPa, hmat']; simp
              rw [hPl, ← Nat.add_assoc]
              simpa using hcase
            | cons c cs =>
              refine ⟨_, List.mem_cons_self _ _, Or.inr ⟨?_, ?_⟩⟩
              · rw [hPa]; simp
              · rw [hPa, hmat]; simp; omega
      · cases c' with
        | nil => exact hsame (by simpa using hpre.symm)
        | cons c cs =>
          have hlt : P.length < pre0.length := by rw [hpre]; simp
          rw [search_leftmost hsr P S hsplit hlt] at hm
          simp at hm

/-- The last character of a text that is not empty does not depend on what stands before. -/
theorem lastChar_congr (p p' : Option Char) (t : Str) (h : t ≠ []) :
    lastChar p t = lastChar p' t := by
  unfold lastChar
  cases hl : t.getLast? with
  | none => exact absurd (List.getLast?_eq_none_iff.mp hl) h
  | some c => rfl

/-- A last character is known once there is one before the text. -/
theorem lastChar_some (p : Char) (t : Str) : lastChar (some p) t ≠ none := by
  unfold lastChar
  cases t.getLast? <;> simp

/-- The result of `search` depends on the character before the text only through the match
at index 0. -/
theorem search_congr_head (rx : Rx) (p p' : Option Char) (s : Str) (h : rx p s = rx p' s) :
    search rx p s = search rx p' s := by
  cases s with
  | nil => rw [search, search, h]
  | cons c cs => rw [search, search, h]

/-- The loop of `exec` depends on the character before the text only through the match at
index 0, for an expression that matches no empty text. -/
theorem execAllFrom_congr_head (rx : Rx) (hne : ∀ p s m, rx p s = some m → m.matched ≠ [])
    (fuel pos : Nat) (p p' : Option Char) (s : Str) (h : rx p s = rx p' s) :
    execAllFrom rx fuel pos p s = execAllFrom rx fuel pos p' s := by
  cases fuel with
  | zero => rfl
  | succ fuel =>
    have hs := search_congr_head rx p p' s h
    cases hsr : search rx p s with
    | none =>
      rw [execAllFrom, execAllFrom, ← hs, hsr]
    | some r =>
      obtain ⟨pre, m⟩ := r
      obtain ⟨s', _, hm⟩ := search_some hsr
      have hne' := hne _ _ _ hm
      rw [execAllFrom_step _ _ _ _ _ _ _ hsr hne',
        execAllFrom_step _ _ _ _ _ _ _ (hs ▸ hsr) hne',
        lastChar_congr p p' (pre ++ m.matched) (by simp [hne'])]

/-- The step of the loop of `replace` at a match that is not empty. -/
theorem replaceAllFrom_step (rx : Rx) (r : Replacement) (fuel : Nat) (prev : Option Char)
    (s pre : Str) (m : Match) (h : search rx prev s = some (pre, m)) (hne : m.matched ≠ []) :
    replaceAllFrom rx r (fuel + 1) prev s
      = pre ++ r.expand m
          ++ replaceAllFrom rx r fuel (lastChar prev (pre ++ m.matched)) m.rest := by
  rw [replaceAllFrom, h]
  dsimp only
  split
  · rename_i hm _
    exact absurd hm hne
  · rename_i hm _
    exact absurd hm hne
  · rfl

/-- The loop of `replace` leaves a text in which nothing is found as it is. -/
theorem replaceAllFrom_of_search_none (rx : Rx) (r : Replacement) (fuel : Nat)
    (prev : Option Char) (s : Str) (h : search rx prev s = none) :
    replaceAllFrom rx r fuel prev s = s := by
  cases fuel with
  | zero => rfl
  | succ n => rw [replaceAllFrom, h]

/-! ## Texts without a backslash -/

/-- A literal that starts with a backslash is not found at the start of a text without one. -/
theorem dropLit_plain {lit s : Str} (hlit : lit.head? = some '\\') (hs : '\\' ∉ s) :
    dropLit lit s = none := by
  cases lit with
  | nil => simp at hlit
  | cons a as =>
    simp only [List.head?_cons, Option.some.injEq] at hlit
    subst hlit
    cases s with
    | nil => rfl
    | cons c cs =>
      have hc : '\\' ≠ c := fun e => hs (by rw [e]; exact List.mem_cons_self _ _)
      simp [dropLit, hc]

/-- What is left after a run of characters has no backslash when the text has none. -/
theorem dropWhile_plain {s : Str} (p : Char → Bool) (hs : '\\' ∉ s) : '\\' ∉ s.dropWhile p :=
  fun h => hs ((List.dropWhile_suffix p).subset h)

/-- A literal that starts with a backslash needs one. -/
theorem needsBackslash_rxLit (lit : Str) (hlit : lit.head? = some '\\') :
    NeedsBackslash (rxLit lit) := by
  intro prev s hs
  simp [rxLit, dropLit_plain hlit hs]

/-- A literal with a backslash followed by white space needs one. -/
theorem needsBackslash_rxLitSpaces (lit : Str) (hlit : lit.head? = some '\\') :
    NeedsBackslash (rxLitSpaces lit) := by
  intro prev s hs
  simp [rxLitSpaces, dropLit_plain hlit hs]

/-- White space followed by a literal with a backslash needs one. -/
theorem needsBackslash_rxSpacesLit (lit : Str) (hlit : lit.head? = some '\\') :
    NeedsBackslash (rxSpacesLit lit) := by
  intro prev s hs
  simp [rxSpacesLit, dropLit_plain hlit (dropWhile_plain isSpace hs)]

/-- The line break at the end of a line needs a backslash. -/
theorem needsBackslash_rxBreakEol : NeedsBackslash rxBreakEol := by
  intro prev s hs
  simp [rxBreakEol, @dropLit_plain lineBreak _ rfl hs]

/-- The line break before a newline needs a backslash. -/
theorem needsBackslash_rxBreakNl : NeedsBackslash rxBreakNl := by
  intro prev s hs
  simp [rxBreakNl, @dropLit_plain lineBreak _ rfl hs]

/-- An environment needs a backslash. -/
theorem needsBackslash_rxEnv (name : Str) : NeedsBackslash (rxEnv name) := by
  intro prev s hs
  have h : envTag ("\\begin\x7b".toList ++ name) s = none := by
    unfold envTag
    rw [dropLit_plain (by rfl) hs]
  unfold rxEnv
  rw [h]

/-- A figure block needs a backslash. -/
theorem needsBackslash_rxFigure : NeedsBackslash rxFigure := by
  intro prev s hs
  simp [rxFigure, @dropLit_plain figureBegin _ rfl hs]

/-- An item needs a backslash. -/
theorem needsBackslash_rxItem : NeedsBackslash rxItem := by
  intro prev s hs
  unfold rxItem
  rw [@dropLit_plain itemLit _ rfl (dropWhile_plain isSpace hs)]
  simp

/-- A directive with a braced argument needs a backslash. -/
theorem needsBackslash_rxBraced (lit : Str) (hlit : lit.head? = some '\\') :
    NeedsBackslash (rxBraced lit) := by
  intro prev s hs
  simp [rxBraced, dropLit_plain hlit hs]

/-- The line of a graphic needs a backslash. -/
theorem needsBackslash_rxIncludeLine : NeedsBackslash rxIncludeLine := by
  intro prev s hs
  simp [rxIncludeLine, @dropLit_plain includeLit _ rfl hs]

/-- An alternation of expressions that need a backslash needs one. -/
theorem needsBackslash_rxAlt (rxs : List Rx) (h : ∀ rx ∈ rxs, NeedsBackslash rx) :
    NeedsBackslash (rxAlt rxs) := by
  intro prev s hs
  induction rxs with
  | nil => rfl
  | cons rx rxs ih =>
    rw [rxAlt, h rx (List.mem_cons_self _ _) prev s hs]
    exact ih fun rx' hrx' => h rx' (List.mem_cons_of_mem _ hrx')

/-- The spacing directives need a backslash. -/
theorem needsBackslash_rxSpacing : NeedsBackslash rxSpacing := by
  apply needsBackslash_rxAlt
  intro rx hrx
  simp only [List.mem_cons, List.mem_singleton, List.not_mem_nil, or_false] at hrx
  rcases hrx with rfl | rfl | rfl | rfl <;> exact needsBackslash_rxBraced _ rfl

/-- The skip directives need a backslash. -/
theorem needsBackslash_rxSkip : NeedsBackslash rxSkip := by
  apply needsBackslash_rxAlt
  intro rx hrx
  simp only [List.mem_cons, List.mem_singleton, List.not_mem_nil, or_false] at hrx
  rcases hrx with rfl | rfl | rfl <;> exact needsBackslash_rxLit _ rfl

/-- On a text in which the steps before it find nothing, only the last two steps of
`convertLatex` act. -/
theorem convertLatex_of_noDirective {s : Str} (h : NoDirective s) :
    convertLatex s = trim (replaceAll rxBlankLines (.pattern "\n\n".toList) s) := by
  have key : ∀ (rx : Rx) (r : Replacement), rx ∈ directiveSteps → replaceAll rx r s = s :=
    fun rx r hrx => replaceAll_of_search_none rx r s (h rx hrx)
  unfold convertLatex
  split
  · rename_i h
    subst h
    rfl
  · dsimp only
    rw [key rxBreakEol _ (by simp [directiveSteps]),
      key rxBreakNl _ (by simp [directiveSteps]),
      key (rxLitSpaces "\\[".toList) _ (by simp [directiveSteps]),
      key (rxSpacesLit "\\]".toList) _ (by simp [directiveSteps]),
      key (rxLit "\\(".toList) _ (by simp [directiveSteps]),
      key (rxLit "\\)".toList) _ (by simp [directiveSteps]),
      key (rxEnv "equation".toList) _ (by simp [directiveSteps]),
      key (rxEnv "align".toList) _ (by simp [directiveSteps]),
      key (rxLit "\\begin\x7bitemize\x7d".toList) _ (by simp [directiveSteps]),
      key (rxLit "\\end\x7bitemize\x7d".toList) _ (by simp [directiveSteps]),
      key rxItem _ (by simp [directiveSteps]),
      key (rxLit "\\begin\x7benumerate\x7d".toList) _ (by simp [directiveSteps]),
      key (rxLit "\\end\x7benumerate\x7d".toList) _ (by simp [directiveSteps]),
      key rxFigure _ (by simp [directiveSteps]),
      key (rxBraced "\\tag\x7b".toList) _ (by simp [directiveSteps]),
      key (rxBraced "\\captionsetup\x7b".toList) _ (by simp [directiveSteps]),
      key (rxLit "\\begin\x7bcenter\x7d".toList) _ (by simp [directiveSteps]),
      key (rxLit "\\end\x7bcenter\x7d".toList) _ (by simp [directiveSteps]),
      key rxIncludeLine _ (by simp [directiveSteps]),
      key (rxBraced "\\label\x7b".toList) _ (by simp [directiveSteps]),
      key (rxBraced "\\ref\x7b".toList) _ (by simp [directiveSteps]),
      key (rxLit "\\nonumber".toList) _ (by simp [directiveSteps]),
      key rxSpacing _ (by simp [directiveSteps]),
      key rxSkip _ (by simp [directiveSteps]),
      key (rxLitSpaces "\\noindent".toList) _ (by simp [directiveSteps]),
      key (rxLitSpaces "\\centering".toList) _ (by simp [directiveSteps]),
      key (rxBraced "\\text\x7b".toList) _ (by simp [directiveSteps])]

/-- In a text without a backslash the steps before the blank-line step find nothing. -/
theorem noDirective_of_plain {s : Str} (hs : '\\' ∉ s) : NoDirective s := by
  have key : ∀ rx, NeedsBackslash rx → search rx none s = none := by
    intro rx h
    apply search_eq_none
    intro pre s' p e
    exact h p s' fun hmem => hs (by rw [e]; exact List.mem_append_right _ hmem)
  intro rx hrx
  simp only [directiveSteps, List.mem_cons, List.mem_singleton, List.not_mem_nil,
    or_false] at hrx
  rcases hrx with rfl | rfl | rfl | rfl | rfl | rfl | rfl | rfl | rfl | rfl | rfl | rfl | rfl
    | rfl | rfl | rfl | rfl | rfl | rfl | rfl | rfl | rfl | rfl | rfl | rfl | rfl | rfl
  · exact key _ needsBackslash_rxBreakEol
  · exact key _ needsBackslash_rxBreakNl
  · exact key _ (needsBackslash_rxLitSpaces _ rfl)
  · exact key _ (needsBackslash_rxSpacesLit _ rfl)
  · exact key _ (needsBackslash_rxLit _ rfl)
  · exact key _ (needsBackslash_rxLit _ rfl)
  · exact key _ (needsBackslash_rxEnv _)
  · exact key _ (needsBackslash_rxEnv _)
  · exact key _ (needsBackslash_rxLit _ rfl)
  · exact key _ (needsBackslash_rxLit _ rfl)
  · exact key _ needsBackslash_rxItem
  · exact key _ (needsBackslash_rxLit _ rfl)
  · exact key _ (needsBackslash_rxLit _ rfl)
  · exact key _ needsBackslash_rxFigure
  · exact key _ (needsBackslash_rxBraced _ rfl)
  · exact key _ (needsBackslash_rxBraced _ rfl)
  · exact key _ (needsBackslash_rxLit _ rfl)
  · exact key _ (needsBackslash_rxLit _ rfl)
  · exact key _ needsBackslash_rxIncludeLine
  · exact key _ (needsBackslash_rxBraced _ rfl)
  · exact key _ (needsBackslash_rxBraced _ rfl)
  · exact key _ (needsBackslash_rxLit _ rfl)
  · exact key _ needsBackslash_rxSpacing
  · exact key _ needsBackslash_rxSkip
  · exact key _ (needsBackslash_rxLitSpaces _ rfl)
  · exact key _ (needsBackslash_rxLitSpaces _ rfl)
  · exact key _ (needsBackslash_rxBraced _ rfl)

/-- On a text without a backslash only the last two steps of `convertLatex` act. -/
theorem convertLatex_plain {s : Str} (hs : '\\' ∉ s) :
    convertLatex s = trim (replaceAll rxBlankLines (.pattern "\n\n".toList) s) :=
  convertLatex_of_noDirective (noDirective_of_plain hs)

/-! ## Runs of newlines and trimmed texts -/

/-- A run over a text with a character outside it ends inside the text. -/
theorem takeWhile_append_of_stop (p : Char → Bool) (l X : Str)
    (h : ∃ c ∈ l, p c = false) : (l ++ X).takeWhile p = l.takeWhile p := by
  induction l with
  | nil => simp at h
  | cons a as ih =>
    rw [List.cons_append]
    by_cases ha : p a = true
    · rw [List.takeWhile_cons_of_pos ha, List.takeWhile_cons_of_pos ha]
      obtain ⟨c, hc, hpc⟩ := h
      rcases List.mem_cons.mp hc with rfl | hc'
      · rw [ha] at hpc; simp at hpc
      · rw [ih ⟨c, hc', hpc⟩]
    · rw [List.takeWhile_cons_of_neg ha, List.takeWhile_cons_of_neg ha]

/-- A run does not get shorter when the text goes on. -/
theorem length_takeWhile_le_append (p : Char → Bool) (S B : Str) :
    (S.takeWhile p).length ≤ ((S ++ B).takeWhile p).length := by
  induction S with
  | nil => simp
  | cons a as ih =>
    rw [List.cons_append]
    by_cases ha : p a = true
    · rw [List.takeWhile_cons_of_pos ha, List.takeWhile_cons_of_pos ha]
      simpa using ih
    · rw [List.takeWhile_cons_of_neg ha]
      simp

/-- A character test fails at the start of every part of a text none of whose characters
passes it. -/
theorem takeWhile_eq_nil_of_forall (p : Char → Bool) (s : Str) (h : ∀ c ∈ s, p c = false) :
    s.takeWhile p = [] ∧ s.dropWhile p = s := by
  cases s with
  | nil => exact ⟨rfl, rfl⟩
  | cons c t =>
    have hc := h c (List.mem_cons_self _ _)
    simp [hc]

/-- The blank-line expression fails exactly where fewer than three newlines start. -/
theorem rxBlankLines_eq_none (prev : Option Char) (s : Str) :
    rxBlankLines prev s = none ↔ (s.takeWhile (fun c => c == '\n')).length < 3 := by
  unfold rxBlankLines
  split
  · simp; omega
  · simp; omega

/-- The match of the blank-line expression: the whole run of newlines, three at least. -/
theorem rxBlankLines_some {prev : Option Char} {s : Str} {m : Match}
    (h : rxBlankLines prev s = some m) :
    3 ≤ (s.takeWhile (fun c => c == '\n')).length ∧
      m.matched = s.takeWhile (fun c => c == '\n') ∧
      m.rest = s.dropWhile (fun c => c == '\n') := by
  unfold rxBlankLines at h
  split at h
  · rename_i h3
    simp only [Option.some.injEq] at h
    subst h
    exact ⟨h3, rfl, rfl⟩
  · simp at h

/-- A text where the blank-line expression finds nothing has no run of three newlines. -/
theorem noBlankRun_of_search_none {prev : Option Char} {s : Str}
    (h : search rxBlankLines prev s = none) : NoBlankRun s := by
  intro P S hs
  exact (rxBlankLines_eq_none _ S).mp (search_none_all h P S hs)

/-- The blank-line expression finds nothing in a text without a run of three newlines. -/
theorem search_rxBlankLines_none {s : Str} (h : NoBlankRun s) (prev : Option Char) :
    search rxBlankLines prev s = none := by
  apply search_eq_none
  intro pre s' p e
  exact (rxBlankLines_eq_none p s').mpr (h pre s' e)

/-- A suffix of a text without a run of three newlines has none. -/
theorem NoBlankRun.of_append_left {A y : Str} (h : NoBlankRun (A ++ y)) : NoBlankRun y := by
  intro P S hs
  exact h (A ++ P) S (by rw [hs, List.append_assoc])

/-- An initial part of a text without a run of three newlines has none. -/
theorem NoBlankRun.of_append_right {y B : Str} (h : NoBlankRun (y ++ B)) : NoBlankRun y := by
  intro P S hs
  have := h P (S ++ B) (by rw [hs, List.append_assoc])
  exact Nat.lt_of_le_of_lt (length_takeWhile_le_append _ S B) this

/-- Trimming keeps a text free of runs of three newlines. -/
theorem NoBlankRun.trim {x : Str} (h : NoBlankRun x) : NoBlankRun (trim x) := by
  unfold Irodov.trim
  obtain ⟨A, hA⟩ := List.dropWhile_suffix (p := isSpace) (l := x)
  obtain ⟨B, hB⟩ := List.rdropWhile_prefix (p := isSpace) (l := x.dropWhile isSpace)
  have h1 : NoBlankRun (x.dropWhile isSpace) := NoBlankRun.of_append_left (by rw [hA]; exact h)
  exact NoBlankRun.of_append_right (by rw [hB]; exact h1)

/-- A text without a run of three newlines does not contain three newlines in a row. -/
theorem NoBlankRun.no_three_newlines {s : Str} (h : NoBlankRun s) : ¬ "\n\n\n".toList <:+: s := by
  rintro ⟨P, Q, e⟩
  have := h P ("\n\n\n".toList ++ Q) (by rw [← e, List.append_assoc])
  have h3 : 3 ≤ (("\n\n\n".toList ++ Q).takeWhile (fun c => c == '\n')).length := by
    show 3 ≤ (('\n' :: '\n' :: '\n' :: Q).takeWhile (fun c => c == '\n')).length
    simp [List.takeWhile_cons]
  omega

/-- After the blank-line step no three newlines follow one another, and a text that did not
start with a newline still does not. -/
theorem replaceAllFrom_rxBlankLines (fuel : Nat) :
    ∀ (prev : Option Char) (s : Str), s.length < fuel →
      NoBlankRun (replaceAllFrom rxBlankLines (.pattern "\n\n".toList) fuel prev s) ∧
      (s.takeWhile (fun c => c == '\n') = [] →
        (replaceAllFrom rxBlankLines (.pattern "\n\n".toList) fuel prev s).takeWhile
          (fun c => c == '\n') = []) := by
  induction fuel with
  | zero => intro _ s h; omega
  | succ fuel ih =>
    intro prev s hlen
    cases hsr : search rxBlankLines prev s with
    | none =>
      rw [replaceAllFrom_of_search_none _ _ _ _ _ hsr]
      exact ⟨noBlankRun_of_search_none hsr, fun h => h⟩
    | some r =>
      obtain ⟨pre, m⟩ := r
      obtain ⟨s', hs', hm⟩ := search_some hsr
      obtain ⟨h3, hmat, hrest⟩ := rxBlankLines_some hm
      have hne : m.matched ≠ [] := by
        intro e
        rw [hmat] at e
        rw [e] at h3
        simp at h3
      rw [replaceAllFrom_step _ _ _ _ _ _ _ hsr hne]
      have hexp : Replacement.expand (.pattern "\n\n".toList) m = "\n\n".toList := rfl
      rw [hexp]
      have hrl : m.rest.length < fuel := by
        have e1 : s'.length = m.matched.length + m.rest.length := by
          rw [hmat, hrest, ← List.length_append, List.takeWhile_append_dropWhile]
        have e2 : s.length = pre.length + s'.length := by rw [hs']; simp
        have e3 : 3 ≤ m.matched.length := by rw [hmat]; exact h3
        omega
      obtain ⟨ihNo, ihHead⟩ := ih (lastChar prev (pre ++ m.matched)) m.rest hrl
      have hhead := ihHead (by
        rw [hrest]
        cases hd : s'.dropWhile (fun c => c == '\n') with
        | nil => rfl
        | cons c cs =>
          have := List.head_dropWhile_not (fun c => c == '\n') s' (by rw [hd]; simp)
          simp only [hd, List.head_cons] at this
          rw [List.takeWhile_cons_of_neg (by simpa using this)])
      generalize replaceAllFrom rxBlankLines (.pattern "\n\n".toList) fuel
        (lastChar prev (pre ++ m.matched)) m.rest = out at ihNo hhead ⊢
      have htail : ∀ a' S0 : Str, "\n\n".toList ++ out = a' ++ S0 →
          (S0.takeWhile (fun c => c == '\n')).length < 3 := by
        intro a' S0 e
        match a', e with
        | [], e =>
          simp only [List.nil_append] at e
          rw [← e]
          show (('\n' :: '\n' :: out).takeWhile (fun c => c == '\n')).length < 3
          simp [List.takeWhile_cons, hhead]
        | [x], e =>
          have e' : '\n' :: out = S0 := by
            have : '\n' :: '\n' :: out = x :: S0 := e
            simp only [List.cons.injEq] at this
            exact this.2
          rw [← e']
          simp [List.takeWhile_cons, hhead]
        | x :: y :: a'', e =>
          have e' : out = a'' ++ S0 := by
            have : '\n' :: '\n' :: out = x :: y :: (a'' ++ S0) := e
            simp only [List.cons.injEq] at this
            exact this.2.2
          exact ihNo a'' S0 e'
      constructor
      · intro P0 S0 e
        rw [List.append_assoc] at e
        rcases List.append_eq_append_iff.mp e with ⟨a', _, ha⟩ | ⟨c', hpre, hS0⟩
        · exact htail a' S0 ha
        · cases c' with
          | nil =>
            exact htail [] S0 (by simpa using hS0.symm)
          | cons c cs =>
            have hlt : P0.length < pre.length := by rw [hpre]; simp
            have hleft := (rxBlankLines_eq_none _ _).mp
              (search_leftmost hsr P0 ((c :: cs) ++ s')
                (by rw [hs', hpre, List.append_assoc]) hlt)
            have hstop : ∃ d ∈ c :: cs, (fun c => c == '\n') d = false := by
              by_contra hall
              simp only [not_exists, not_and, Bool.not_eq_false] at hall
              rw [List.takeWhile_append_of_pos hall, List.length_append] at hleft
              omega
            rw [hS0, takeWhile_append_of_stop _ _ _ hstop]
            rw [takeWhile_append_of_stop _ _ _ hstop] at hleft
            exact hleft
      · intro hs0
        cases pre with
        | nil =>
          simp only [List.nil_append] at hs'
          rw [← hs', hs0] at h3
          simp at h3
        | cons c cs =>
          rw [hs', List.cons_append] at hs0
          have hc : (c == '\n') = false := by
            by_contra hc
            simp only [Bool.not_eq_false] at hc
            simp [List.takeWhile_cons, hc] at hs0
          simp [List.takeWhile_cons, hc]

/-- The text `convertLatex` returns has no run of three newlines. -/
theorem convertLatex_noBlankRun (text : Str) : NoBlankRun (convertLatex text) := by
  unfold convertLatex
  split
  · intro P S e
    have : S = [] := by
      cases P <;> cases S <;> simp at e ⊢
    subst this
    simp
  · exact NoBlankRun.trim (replaceAllFrom_rxBlankLines _ none _ (Nat.lt_succ_self _)).1

/-- The blank-line step on two texts without newline with three newlines or more between
them. -/
theorem replaceAll_rxBlankLines_between (a b : Str) (n : Nat) (hn : 3 ≤ n)
    (ha : ∀ c ∈ a, c ≠ '\n') (hb : ∀ c ∈ b, c ≠ '\n') :
    replaceAll rxBlankLines (.pattern "\n\n".toList) (a ++ List.replicate n '\n' ++ b)
      = a ++ "\n\n".toList ++ b := by
  have hnl : ∀ (s : Str), (∀ c ∈ s, c ≠ '\n') → ∀ c ∈ s, (fun c => c == '\n') c = false := by
    intro s hs c hc
    simpa using hs c hc
  have hrun : ∀ c ∈ List.replicate n '\n', (fun c => c == '\n') c = true := by
    intro c hc
    simp [List.eq_of_mem_replicate hc]
  have htb := takeWhile_eq_nil_of_forall _ b (hnl b hb)
  have hm : ∀ p, rxBlankLines p (List.replicate n '\n' ++ b)
      = some ⟨List.replicate n '\n', [], b⟩ := by
    intro p
    unfold rxBlankLines
    rw [List.takeWhile_append_of_pos hrun, List.dropWhile_append_of_pos hrun, htb.1, htb.2,
      List.append_nil, if_pos (by simpa using hn)]
  have hskip : ∀ k, k < a.length → ∀ p,
      rxBlankLines p (a.drop k ++ (List.replicate n '\n' ++ b)) = none := by
    intro k hk p
    rw [rxBlankLines_eq_none]
    cases hd : a.drop k with
    | nil =>
      have := List.drop_eq_nil_iff.mp hd
      omega
    | cons d ds =>
      have hmem : d ∈ a := (List.drop_subset k a) (by rw [hd]; exact List.mem_cons_self _ _)
      have := hnl a ha d hmem
      simp only at this
      simp [List.takeWhile_cons, this]
  have hsearch := search_append_match rxBlankLines a (List.replicate n '\n' ++ b) none
    ⟨List.replicate n '\n', [], b⟩ hskip hm
  have hne : (List.replicate n '\n') ≠ [] := by
    intro e
    have := congrArg List.length e
    simp at this
    omega
  have hb' : ∀ prev, search rxBlankLines prev b = none := by
    intro prev
    apply search_eq_none
    intro pre s' p e
    rw [rxBlankLines_eq_none]
    have := (takeWhile_eq_nil_of_forall _ s'
      (hnl s' fun c hc => hb c (by rw [e]; exact List.mem_append_right _ hc))).1
    rw [this]
    simp
  unfold replaceAll
  rw [List.append_assoc, replaceAllFrom_step _ _ _ _ _ _ _ hsearch hne]
  dsimp only
  rw [replaceAllFrom_of_search_none _ _ _ _ _ (hb' _)]
  rfl

/-- A text that starts and ends with a character that is not white space is its own
trimmed form. -/
theorem trim_eq_self (x : Str) (hhead : ∃ c t, x = c :: t ∧ isSpace c = false)
    (hlast : ∃ t c, x = t ++ [c] ∧ isSpace c = false) : trim x = x := by
  unfold trim
  obtain ⟨c, t, rfl, hc⟩ := hhead
  rw [List.dropWhile_cons_of_neg (by simp [hc])]
  obtain ⟨t', c', e, hc'⟩ := hlast
  rw [e, List.rdropWhile_concat_neg _ _ _ (by simp [hc'])]

/-- Trimming a trimmed text changes nothing. -/
theorem trim_trim (x : Str) : trim (trim x) = trim x := by
  have h1 := takeWhile_isSpace_trim x
  have h2 : (trim x).dropWhile isSpace = trim x := by
    have := List.takeWhile_append_dropWhile isSpace (trim x)
    rw [h1, List.nil_append] at this
    exact this
  conv_lhs => rw [trim, h2]
  unfold trim
  exact List.rdropWhile_idempotent _ _

/-! ## The table, the body and the files -/

/-- The method `get` after `set`. -/
theorem StrMap.get_set {α : Type} (m : StrMap α) (k k' : Str) (v : α) :
    (m.set k v).get k' = if k = k' then some v else m.get k' := by
  induction m with
  | nil => simp [StrMap.set, StrMap.get]
  | cons e m ih =>
    obtain ⟨k0, v0⟩ := e
    simp only [StrMap.set]
    by_cases h0 : k0 = k
    · rw [if_pos h0]
      simp only [StrMap.get]
      subst h0
      by_cases h1 : k0 = k' <;> simp [h1]
    · rw [if_neg h0]
      simp only [StrMap.get, ih]
      by_cases h1 : k0 = k'
      · have h2 : k ≠ k' := fun e => h0 (h1.trans e.symm)
        simp [h1, h2]
      · simp [h1]

/-- The value of a key after a run of `set`: that of the last entry with the key, or the one
the table had. -/
theorem StrMap.get_foldl_set {α : Type} (f : Str → α) (entries : List (Str × Str))
    (init : StrMap α) (k : Str) :
    (entries.foldl (fun m e => m.set e.1 (f e.2)) init).get k =
      match entries.reverse.find? fun e => e.1 == k with
      | some e => some (f e.2)
      | none => init.get k := by
  induction entries generalizing init with
  | nil => rfl
  | cons e es ih =>
    rw [List.foldl_cons, ih, List.reverse_cons, List.find?_append, StrMap.get_set]
    cases List.find? (fun e => e.1 == k) es.reverse with
    | some e' => rfl
    | none =>
      by_cases hk : e.1 = k
      · simp [hk]
      · simp [hk]

/-- The text of the intro block starts with the heading mark. -/
theorem buildIntroText_mark (raw secId : Str) :
    ∃ t, buildIntroText raw secId = "## ".toList ++ t := by
  unfold buildIntroText
  dsimp only
  rw [List.append_assoc, List.append_assoc]
  exact ⟨_, rfl⟩

/-- The body is the intro block followed by the problem blocks. -/
theorem sectionBody_eq (data : SectionData) :
    sectionBody data
      = BodyItem.intro (buildIntroText data.introRaw data.id) ::
          data.problems.map problemBlock := by
  obtain ⟨t, ht⟩ := buildIntroText_mark data.introRaw data.id
  unfold sectionBody
  rw [if_pos (by rw [ht]; exact trim_heading_ne_nil t)]
  rfl

/-- What is emitted comes from an entry of the catalog whose identifier has section data. -/
theorem mem_emit {sectionData : StrMap SectionData} {cat : List CatalogEntry} {f : OutFile} :
    f ∈ emit sectionData cat ↔
      ∃ sec ∈ cat, ∃ data, sectionData.get sec.id = some data ∧
        f = ⟨sec.part, sec.id ++ ".json".toList, ⟨sec.id, sec.title, sectionBody data⟩⟩ := by
  induction cat with
  | nil => simp [emit]
  | cons sec secs ih =>
    rw [emit]
    cases hg : sectionData.get sec.id with
    | none =>
      simp only [ih, List.mem_cons, exists_eq_or_imp, hg]
      simp
    | some data =>
      simp only [List.mem_cons, ih, exists_eq_or_imp, hg, Option.some.injEq, exists_eq_left']

/-! ## Claim C11: normalising twice -/

/-- Claim C11, amended: a normal form in which no step of `convertLatex` before the
blank-line step finds a match, as is every normal form without a backslash, is not altered
by normalising it again; so it is with the normal form of `\[x^2\]`. -/
theorem settled_normal_form_is_stable (t : Str) (h : NoDirective (convertLatex t)) :
    convertLatex (convertLatex t) = convertLatex t := by
  rw [convertLatex_of_noDirective h,
    replaceAll_of_search_none _ _ _ (search_rxBlankLines_none (convertLatex_noBlankRun t) none)]
  obtain ⟨x, hx⟩ := convertLatex_trimmed t
  rw [hx, trim_trim]

/-- The amended claim C11 at the text `\[x^2\]`, whose normal form has no backslash, and at
`\(\alpha\)`, whose normal form has one. -/
theorem settled_normal_form_is_stable_witness :
    (convertLatex "\\[x^2\\]".toList = "$\nx^2\n$".toList ∧
      convertLatex (convertLatex "\\[x^2\\]".toList) = convertLatex "\\[x^2\\]".toList) ∧
    (convertLatex "\\(\\alpha\\)".toList = "$\\alpha$".toList ∧
      convertLatex (convertLatex "\\(\\alpha\\)".toList)
        = convertLatex "\\(\\alpha\\)".toList) :=
  ⟨⟨by decide, settled_normal_form_is_stable "\\[x^2\\]".toList
      (noDirective_of_plain (by decide))⟩,
    ⟨by decide, settled_normal_form_is_stable "\\(\\alpha\\)".toList (by decide)⟩⟩

/-- Claim C11 fails for a directive inside a directive: the first pass turns
`\text{\text{a}}` into `\text{a}`, and a second pass turns that into `a`. -/
theorem normalising_twice_differs :
    convertLatex "\\text\x7b\\text\x7ba\x7d\x7d".toList = "\\text\x7ba\x7d".toList ∧
    convertLatex (convertLatex "\\text\x7b\\text\x7ba\x7d\x7d".toList) = "a".toList ∧
    convertLatex (convertLatex "\\text\x7b\\text\x7ba\x7d\x7d".toList)
      ≠ convertLatex "\\text\x7b\\text\x7ba\x7d\x7d".toList := by
  refine ⟨by decide, by decide, by decide⟩

/-! ## Claim C12: the answer table -/

/-- The marker of the spec is the marker the answer expression reads. -/
theorem specAnswerMarker_eq (s : Str) :
    specAnswerMarker s =
      match dottedNumber s with
      | some (num, u) => (dropLit ". ".toList u).map fun v => (num, v)
      | none => none := by
  unfold specAnswerMarker dottedNumber
  have hlit : ". ".toList = ['.', ' '] := rfl
  rw [hlit]
  generalize s.takeWhile isDigit = A
  generalize s.dropWhile isDigit = D
  cases D with
  | nil => cases A <;> rfl
  | cons d t =>
    by_cases hd : d = '.'
    · subst hd
      cases A with
      | nil =>
        simp only [ne_eq, not_true_eq_false, false_and, if_false]
        split <;> rfl
      | cons a as =>
        simp only []
        generalize t.takeWhile isDigit = B
        generalize t.dropWhile isDigit = E
        cases B with
        | nil =>
          simp only [ne_eq, not_true_eq_false, and_false, if_false]
          split <;> rfl
        | cons b bs =>
          simp only []
          cases E with
          | nil => rfl
          | cons e u =>
            by_cases he : e = '.'
            · subst he
              cases u with
              | nil => rfl
              | cons f v =>
                by_cases hf : f = ' '
                · subst hf
                  simp [dropLit]
                · have hf' : ¬ ' ' = f := fun e => hf e.symm
                  simp [dropLit, hf, hf']
            · have he' : ¬ '.' = e := fun h => he h.symm
              simp [dropLit, he, he']
    · have hd' : ¬ '.' = d := fun h => hd h.symm
      cases A <;> simp [hd, hd']

/-- The text of a marker of the spec: the identifier has no newline and the marker stands at
the start. -/
theorem specAnswerMarker_some {s id v : Str} (h : specAnswerMarker s = some (id, v)) :
    s = id ++ ". ".toList ++ v ∧ '\n' ∉ id := by
  rw [specAnswerMarker_eq] at h
  split at h
  · rename_i num u hnum
    simp only [Option.map_eq_some', Prod.mk.injEq] at h
    obtain ⟨v', hv', rfl, rfl⟩ := h
    refine ⟨?_, ?_⟩
    · rw [dottedNumber_sound hnum, dropLit_eq_some.mp hv', List.append_assoc]
    · obtain ⟨a, b, _, hda, _, hdb, rfl⟩ := dottedNumber_some hnum
      intro hmem
      simp only [List.mem_append, List.mem_cons] at hmem
      rcases hmem with h | h | h
      · have := hda _ h
        revert this; decide
      · revert h; decide
      · have := hdb _ h
        revert this; decide
  · simp at h

/-- The lookahead of the answer expression holds at the end of the text and at a newline a
marker follows. -/
theorem answerStop_cons (c : Char) (cs : Str) :
    answerStop (c :: cs) = decide (c = '\n' ∧ (specAnswerMarker cs).isSome = true) := by
  by_cases hc : c = '\n'
  · subst hc
    rw [specAnswerMarker_eq]
    unfold answerStop
    cases h : dottedNumber cs with
    | none => simp [h]
    | some r =>
      obtain ⟨num, u⟩ := r
      simp [h, startsWith]
  · unfold answerStop
    split
    · simp at *
    · rename_i heq
      simp only [List.cons.injEq] at heq
      exact absurd heq.1 hc
    · simp [hc]

/-- The lazy body of the answer expression is the text up to the next line-start marker. -/
theorem lazyBody_answerStop (v : Str) :
    lazyBody answerStop v
      = some (specAnswerText v, v.drop (specAnswerText v).length) := by
  induction v with
  | nil => rfl
  | cons c cs ih =>
    rw [lazyBody, answerStop_cons, specAnswerText]
    by_cases h : c = '\n' ∧ (specAnswerMarker cs).isSome = true
    · simp [h]
    · simp only [h, decide_False, Bool.false_eq_true, if_false, ih, Option.map_some']
      rfl

/-- The entry the answer expression reads at the start of a text is that of the marker of the
spec. -/
theorem answerEntry_eq (s : Str) :
    answerEntry s = (specAnswerMarker s).map fun iv =>
      (iv.1, specAnswerText iv.2, iv.1 ++ ". ".toList ++ specAnswerText iv.2,
        iv.2.drop (specAnswerText iv.2).length) := by
  rw [specAnswerMarker_eq]
  unfold answerEntry
  cases dottedNumber s with
  | none => rfl
  | some r =>
    obtain ⟨num, u⟩ := r
    dsimp only
    cases dropLit ". ".toList u with
    | none => rfl
    | some v =>
      dsimp only
      rw [lazyBody_answerStop]
      rfl

/-- After index 0 the answer expression matches at a newline an entry follows. -/
theorem answerRe_some_prev (p : Option Char) (hp : p ≠ none) (s : Str) :
    answerRe p s =
      match s with
      | '\n' :: t => (specAnswerMarker t).map fun iv =>
          ⟨'\n' :: (iv.1 ++ ". ".toList ++ specAnswerText iv.2), [iv.1, specAnswerText iv.2],
            iv.2.drop (specAnswerText iv.2).length⟩
      | _ => none := by
  cases p with
  | none => exact absurd rfl hp
  | some q =>
    unfold answerRe
    dsimp only
    split
    · rename_i t
      rw [answerEntry_eq]
      cases specAnswerMarker t <;> rfl
    · rfl

/-- At index 0 the answer expression reads the entry of a marker that stands there, and is
otherwise as after index 0. -/
theorem answerRe_none (s : Str) :
    answerRe none s =
      match specAnswerMarker s with
      | some iv =>
        some ⟨iv.1 ++ ". ".toList ++ specAnswerText iv.2, [iv.1, specAnswerText iv.2],
          iv.2.drop (specAnswerText iv.2).length⟩
      | none => answerRe (some ' ') s := by
  unfold answerRe
  dsimp only
  rw [answerEntry_eq]
  cases specAnswerMarker s <;> rfl

/-- The answer expression matches no empty text. -/
theorem answerRe_ne_nil {p : Option Char} {s : Str} {m : Match} (h : answerRe p s = some m) :
    m.matched ≠ [] := by
  have key : ∀ q : Char, answerRe (some q) s = some m → m.matched ≠ [] := by
    intro q hq
    rw [answerRe_some_prev _ (by simp)] at hq
    split at hq
    · simp only [Option.map_eq_some'] at hq
      obtain ⟨iv, _, rfl⟩ := hq
      simp
    · simp at hq
  cases p with
  | some q => exact key q h
  | none =>
    rw [answerRe_none] at h
    split at h
    · simp only [Option.some.injEq] at h
      rw [← h]
      simp
    · exact key _ h

/-- The entries after newlines of a text that starts with a part without newline. -/
theorem specEntriesAfterNewlines_append (x y : Str) (hx : '\n' ∉ x) :
    specEntriesAfterNewlines (x ++ y) = specEntriesAfterNewlines y := by
  induction x with
  | nil => rfl
  | cons c cs ih =>
    have hc : c ≠ '\n' := fun e => hx (by rw [e]; exact List.mem_cons_self _ _)
    rw [List.cons_append, specEntriesAfterNewlines, if_neg hc, List.nil_append]
    exact ih fun h => hx (List.mem_cons_of_mem _ h)

/-- No line-start marker stands inside the text of an entry. -/
theorem specEntriesAfterNewlines_drop (v : Str) :
    specEntriesAfterNewlines v
      = specEntriesAfterNewlines (v.drop (specAnswerText v).length) := by
  induction v with
  | nil => rfl
  | cons c cs ih =>
    rw [specAnswerText]
    by_cases h : c = '\n' ∧ (specAnswerMarker cs).isSome = true
    · rw [if_pos h]
      rfl
    · rw [if_neg h]
      simp only [List.length_cons, List.drop_succ_cons]
      rw [specEntriesAfterNewlines, ← ih]
      have : (if c = '\n' then specAnswerEntryAt cs else []) = [] := by
        by_cases hc : c = '\n'
        · rw [if_pos hc]
          have hm : specAnswerMarker cs = none := by
            cases hm : specAnswerMarker cs with
            | none => rfl
            | some r => exact absurd ⟨hc, by rw [hm]; rfl⟩ h
          unfold specAnswerEntryAt
          rw [hm]
        · rw [if_neg hc]
      rw [this, List.nil_append]

/-- The entries after newlines of a text that starts with a marker are those of what is
left after the text of its entry. -/
theorem specEntriesAfterNewlines_marker {s id v : Str}
    (h : specAnswerMarker s = some (id, v)) :
    specEntriesAfterNewlines s
      = specEntriesAfterNewlines (v.drop (specAnswerText v).length) := by
  obtain ⟨hs, hid⟩ := specAnswerMarker_some h
  rw [hs, specEntriesAfterNewlines_append _ _ (by
    intro hmem
    simp only [List.mem_append] at hmem
    rcases hmem with h | h
    · exact hid h
    · revert h; decide)]
  exact specEntriesAfterNewlines_drop v

/-- Where the answer expression matches nowhere in an initial part, the part has no
line-start marker after a newline. -/
theorem specEntriesAfterNewlines_skip (pre s' : Str) (p : Char)
    (h : ∀ P S, pre ++ s' = P ++ S → P.length < pre.length →
      answerRe (lastChar (some p) P) S = none) :
    specEntriesAfterNewlines (pre ++ s') = specEntriesAfterNewlines s' := by
  induction pre generalizing p with
  | nil => rfl
  | cons c cs ih =>
    rw [List.cons_append, specEntriesAfterNewlines]
    have h0 := h [] (c :: cs ++ s') rfl (by simp)
    have hfirst : (if c = '\n' then specAnswerEntryAt (cs ++ s') else []) = [] := by
      by_cases hc : c = '\n'
      · subst hc
        rw [if_pos rfl]
        rw [answerRe_some_prev _ (lastChar_some p []) ] at h0
        simp only [List.cons_append, Option.map_eq_none'] at h0
        unfold specAnswerEntryAt
        rw [h0]
      · rw [if_neg hc]
    rw [hfirst, List.nil_append]
    apply ih c
    intro P S e hlt
    have := h (c :: P) S (by rw [List.cons_append, List.cons_append, e]) (by simpa using hlt)
    rw [lastChar_cons] at this
    exact this

/-- The list of the matches of the answer expression after index 0, read as entries, is the
list of the entries of the markers after newlines. -/
theorem execAllFrom_answerRe (fuel : Nat) :
    ∀ (pos : Nat) (p : Char) (s : Str), s.length < fuel →
      (execAllFrom answerRe fuel pos (some p) s).map (fun im => (im.2.group 1, im.2.group 2))
        = specEntriesAfterNewlines s := by
  induction fuel with
  | zero => intro _ _ s h; omega
  | succ fuel ih =>
    intro pos p s hlen
    cases hsr : search answerRe (some p) s with
    | none =>
      rw [execAllFrom, hsr]
      have := specEntriesAfterNewlines_skip s [] p
        (fun P S e _ => search_none_all hsr P S (by simpa using e))
      rw [List.append_nil] at this
      rw [this]
      rfl
    | some r =>
      obtain ⟨pre, m⟩ := r
      obtain ⟨s', hs', hm⟩ := search_some hsr
      rw [answerRe_some_prev _ (lastChar_some p pre)] at hm
      split at hm
      · rename_i t
        simp only [Option.map_eq_some'] at hm
        obtain ⟨⟨id, v⟩, hmk, hmeq⟩ := hm
        have hne : m.matched ≠ [] := by rw [← hmeq]; simp
        rw [execAllFrom_step _ _ _ _ _ _ _ hsr hne]
        obtain ⟨q, hq⟩ := Option.ne_none_iff_exists'.mp (lastChar_some p (pre ++ m.matched))
        rw [hq]
        have hrest : m.rest = v.drop (specAnswerText v).length := by rw [← hmeq]
        have hlen' : m.rest.length < fuel := by
          have h1 := (specAnswerMarker_some hmk).1
          have h2 : s.length = pre.length + (1 + (id.length + 2 + v.length)) := by
            rw [hs', h1]
            simp
            omega
          rw [hrest, List.length_drop]
          omega
        rw [List.map_cons, ih _ q _ hlen', hs',
          specEntriesAfterNewlines_skip pre ('\n' :: t) p
            (fun P S e hlt => search_leftmost hsr P S (hs'.trans e) hlt),
          specEntriesAfterNewlines, if_pos rfl, specEntriesAfterNewlines_marker hmk, hrest]
        unfold specAnswerEntryAt
        rw [hmk, ← hmeq]
        rfl
      · simp at hm

/-- The matches of the answer expression, read as entries, are the entries of the line-start
markers of the region, in order. -/
theorem execAll_answerRe (region : Str) :
    (execAll answerRe region).map (fun im => (im.2.group 1, im.2.group 2))
      = specAnswerEntries region := by
  unfold execAll specAnswerEntries
  cases hmk : specAnswerMarker region with
  | some iv =>
    obtain ⟨id, v⟩ := iv
    have hm : answerRe none region
        = some ⟨id ++ ". ".toList ++ specAnswerText v, [id, specAnswerText v],
          v.drop (specAnswerText v).length⟩ := by
      rw [answerRe_none, hmk]
    have hsr := search_of_match hm
    rw [execAllFrom_step _ _ _ _ _ _ _ hsr (by simp)]
    obtain ⟨q, hq⟩ : ∃ q, lastChar none ([] ++ (id ++ ". ".toList ++ specAnswerText v))
        = some q := lastChar_of_ne_nil _ _ (by simp)
    dsimp only
    rw [hq, List.map_cons, execAllFrom_answerRe _ _ q _ (by
      have h1 := (specAnswerMarker_some hmk).1
      rw [List.length_drop]
      have : region.length = id.length + 2 + v.length := by rw [h1]; simp; omega
      omega)]
    unfold specAnswerEntryAt
    rw [hmk, specEntriesAfterNewlines_marker hmk]
    rfl
  | none =>
    have hm : answerRe none region = answerRe (some ' ') region := by
      rw [answerRe_none, hmk]
    have hexec : execAllFrom answerRe (region.length + 1) 0 none region
        = execAllFrom answerRe (region.length + 1) 0 (some ' ') region :=
      execAllFrom_congr_head answerRe (fun _ _ _ h => answerRe_ne_nil h) _ _ _ _ _ hm
    rw [hexec, execAllFrom_answerRe _ _ _ _ (Nat.lt_succ_self _)]
    unfold specAnswerEntryAt
    rw [hmk]
    rfl

/-- The answer table is the run of `set` over the entries of the line-start markers. -/
theorem parseAnswers_eq (region : Str) :
    parseAnswers region
      = (specAnswerEntries region).foldl
          (fun (m : StrMap Str) e => m.set e.1 (trim e.2)) [] := by
  unfold parseAnswers
  rw [← execAll_answerRe, List.foldl_map]

/-- Claim C12: the matches of the answer expression are, in order, the line-start markers
`d.d. ` of the answers region, each with the text from the end of the marker to the next
line-start marker or the end of the region; the Answer Table has a key for exactly the
identifiers of these markers, and the value of an identifier is the trimmed text of the last
marker with it.  The region `1.1. v = 5 m/s` maps `1.1` to `v = 5 m/s`. -/
theorem answer_table_follows_markers (region : Str) :
    (execAll answerRe region).map (fun im => (im.2.group 1, im.2.group 2))
      = specAnswerEntries region ∧
    (∀ id, (∃ v, (parseAnswers region).get id = some v) ↔
      id ∈ (specAnswerEntries region).map Prod.fst) ∧
    (∀ id, (parseAnswers region).get id = specAnswerValue region id) ∧
    specAnswerEntries "1.1. v = 5 m/s".toList = [("1.1".toList, "v = 5 m/s".toList)] ∧
    parseAnswers "1.1. v = 5 m/s".toList = [("1.1".toList, "v = 5 m/s".toList)] ∧
    (parseAnswers "1.1. v = 5 m/s".toList).get "1.1".toList = some "v = 5 m/s".toList := by
  have hget : ∀ id, (parseAnswers region).get id = specAnswerValue region id := by
    intro id
    rw [parseAnswers_eq, StrMap.get_foldl_set, specAnswerValue]
    cases List.find? (fun e => e.1 == id) (specAnswerEntries region).reverse <;> rfl
  refine ⟨execAll_answerRe region, ?_, hget, by decide, by decide, by decide⟩
  intro id
  rw [hget, specAnswerValue]
  constructor
  · rintro ⟨v, hv⟩
    simp only [Option.map_eq_some'] at hv
    obtain ⟨e, he, _⟩ := hv
    have hmem := List.mem_of_find?_eq_some he
    have hid := List.find?_some he
    simp only [beq_iff_eq] at hid
    exact List.mem_map.mpr ⟨e, List.mem_reverse.mp hmem, hid⟩
  · intro hmem
    obtain ⟨e, he, hid⟩ := List.mem_map.mp hmem
    cases hf : List.find? (fun e => e.1 == id) (specAnswerEntries region).reverse with
    | some e' => exact ⟨trim e'.2, rfl⟩
    | none =>
      have := List.find?_eq_none.mp hf e (List.mem_reverse.mpr he)
      simp [hid] at this

/-! ## Claim C13: the address of an image -/

/-- The viewer strips the leading `images/` of an address under the image directory once. -/
theorem imgSrc_imageDir (r : Str) :
    imgSrc (imageDir ++ r ++ ".jpg".toList) = "irodov-problems/".toList ++ r ++ ".jpg".toList :=
  rfl

/-- What a piece with a figure block and a graphic adds. -/
theorem partItems_graphic {part pre pre' : Str} {figMatch imgMatch : Match}
    (hfig : search rxFigure none part = some (pre, figMatch))
    (himg : search rxIncludeGraphics none (figMatch.group 1) = some (pre', imgMatch)) :
    ∃ caption, partItems part
      = [ContentBlock.image (imageDir ++ imgMatch.group 1 ++ ".jpg".toList) caption] := by
  unfold partItems
  rw [hfig]
  dsimp only
  rw [himg]
  exact ⟨_, rfl⟩

/-- An image block comes from a piece with a figure block and a graphic. -/
theorem image_mem_partItems {part src caption : Str}
    (h : ContentBlock.image src caption ∈ partItems part) :
    ∃ pre figMatch pre' imgMatch,
      search rxFigure none part = some (pre, figMatch) ∧
      search rxIncludeGraphics none (figMatch.group 1) = some (pre', imgMatch) ∧
      src = imageDir ++ imgMatch.group 1 ++ ".jpg".toList := by
  unfold partItems at h
  split at h
  · rename_i pre figMatch hfig
    split at h
    · rename_i pre' imgMatch himg
      simp only [List.mem_singleton, ContentBlock.image.injEq] at h
      exact ⟨pre, figMatch, pre', imgMatch, hfig, himg, h.1⟩
    · simp at h
  · split at h <;> simp at h

/-- The blocks of a span that has an image block are those of its pieces. -/
theorem mem_buildContentArray_of_mem_partItems {rawText part : Str} {b : ContentBlock}
    (hpart : part ∈ splitKeep rxFigure rawText) (hb : b ∈ partItems part) :
    b ∈ buildContentArray rawText := by
  have hmem : b ∈ (splitKeep rxFigure rawText).flatMap partItems :=
    List.mem_flatMap.mpr ⟨part, hpart, hb⟩
  rw [buildContentArray_eq, if_neg (List.ne_nil_of_mem hmem)]
  exact hmem

/-- Claim C13: a piece of the span with a figure block whose graphic reference is `r` gives
an image block with `src` = `images/irodov-problems/` + `r` + `.jpg`, every image block of
`buildContentArray` is such a one, so it is for a figure block
`\begin{figure}X\includegraphics{r}Y\caption{cap}Z\end{figure}` between two texts, and the
image branch of `formatText` gives the block the address
`baseUrl` + `images/irodov-problems/` + `r` + `.jpg`: the leading `images/` is dropped once
and the rest put under `baseUrl` + `images/`. -/
theorem image_address_resolved :
    (∀ rawText part pre figMatch pre' imgMatch, part ∈ splitKeep rxFigure rawText →
      search rxFigure none part = some (pre, figMatch) →
      search rxIncludeGraphics none (figMatch.group 1) = some (pre', imgMatch) →
      ∃ caption, ContentBlock.image
          ("images/irodov-problems/".toList ++ imgMatch.group 1 ++ ".jpg".toList) caption
        ∈ buildContentArray rawText) ∧
    (∀ rawText src caption, ContentBlock.image src caption ∈ buildContentArray rawText →
      ∃ part ∈ splitKeep rxFigure rawText, ∃ pre figMatch pre' imgMatch,
        search rxFigure none part = some (pre, figMatch) ∧
        search rxIncludeGraphics none (figMatch.group 1) = some (pre', imgMatch) ∧
        src = "images/irodov-problems/".toList ++ imgMatch.group 1 ++ ".jpg".toList) ∧
    (∀ A B X r Y cap Z, ¬ figureBegin <:+: A → ¬ ContainsFigureBlock B →
      ¬ figureEnd <:+: figureInner X r Y cap Z → ¬ includeLit <:+: X →
      ¬ captionLit <:+: figureHead X r Y → r ≠ [] → (∀ c ∈ r, c ≠ '\x7d') →
      (∀ c ∈ cap, c ≠ '\x7d' ∧ c ≠ '\\') →
      ContentBlock.image ("images/irodov-problems/".toList ++ r ++ ".jpg".toList) cap
        ∈ buildContentArray (A ++ figureBlock X r Y cap Z ++ B)) ∧
    (∀ baseUrl r caption,
      imgSrc ("images/irodov-problems/".toList ++ r ++ ".jpg".toList)
        = "irodov-problems/".toList ++ r ++ ".jpg".toList ∧
      imageUrl baseUrl ("images/irodov-problems/".toList ++ r ++ ".jpg".toList)
        = baseUrl ++ "images/irodov-problems/".toList ++ r ++ ".jpg".toList ∧
      formatImage baseUrl
          (.image ("images/irodov-problems/".toList ++ r ++ ".jpg".toList) caption)
        = "<div class=\"image-container\"><img src=\"".toList
          ++ (baseUrl ++ "images/irodov-problems/".toList ++ r ++ ".jpg".toList)
          ++ "\" alt=\"".toList ++ caption ++ "\">".toList
          ++ (if caption ≠ [] then "<p class=\"caption\">".toList ++ caption ++ "</p>".toList
              else [])
          ++ "</div>".toList) ∧
    buildContentArray plainFigureSpan
      = [.image "images/irodov-problems/fig_1_3.jpg".toList []] ∧
    imageUrl "/books/".toList "images/irodov-problems/fig_1_3.jpg".toList
      = "/books/images/irodov-problems/fig_1_3.jpg".toList := by
  have hurl : ∀ baseUrl r : Str,
      imageUrl baseUrl ("images/irodov-problems/".toList ++ r ++ ".jpg".toList)
        = baseUrl ++ "images/irodov-problems/".toList ++ r ++ ".jpg".toList := by
    intro baseUrl r
    have h := imgSrc_imageDir r
    unfold imageDir at h
    rw [imageUrl, h]
    simp only [List.append_assoc]
    rfl
  refine ⟨?_, ?_, ?_, ?_, by decide, by decide⟩
  · intro rawText part pre figMatch pre' imgMatch hpart hfig himg
    obtain ⟨caption, hcap⟩ := partItems_graphic hfig himg
    refine ⟨caption, mem_buildContentArray_of_mem_partItems hpart ?_⟩
    rw [hcap]
    exact List.mem_singleton.mpr rfl
  · intro rawText src caption h
    rw [buildContentArray_eq] at h
    split at h
    · simp at h
    · obtain ⟨part, hpart, hp⟩ := List.mem_flatMap.mp h
      obtain ⟨pre, figMatch, pre', imgMatch, hfig, himg, hsrc⟩ := image_mem_partItems hp
      exact ⟨part, hpart, pre, figMatch, pre', imgMatch, hfig, himg, hsrc⟩
  · intro A B X r Y cap Z hA hB hEnd hInc hCap hr hr' hcap
    have hsplit := splitKeep_figure A (figureInner X r Y cap Z) B hA hEnd hB
    refine @mem_buildContentArray_of_mem_partItems _ (figureBlock X r Y cap Z) _ ?_ ?_
    · unfold figureBlock
      rw [hsplit]
      simp
    · rw [partItems_figureBlock X r Y cap Z hEnd hInc hCap hr hr' hcap]
      exact List.mem_singleton.mpr rfl
  · intro baseUrl r caption
    refine ⟨imgSrc_imageDir r, hurl baseUrl r, ?_⟩
    rw [formatImage, hurl]

/-! ## Claim C14: the documents emitted -/

/-- The identifiers with section data are those of the headings found. -/
theorem parseSections_get (answers : StrMap Str) (problemText id : Str)
    (bs : List SectionBoundary) (acc : StrMap SectionData) :
    (∃ data, (parseSections answers problemText bs acc).get id = some data) ↔
      (∃ data, acc.get id = some data) ∨ ∃ b ∈ bs, b.id = id := by
  induction bs generalizing acc with
  | nil => simp [parseSections]
  | cons b bs ih =>
    simp only [parseSections]
    rw [ih, StrMap.get_set]
    by_cases hb : b.id = id
    · simp [hb]
    · simp [hb]

/-- What the files written show of the catalog is a sublist of what the catalog shows. -/
theorem emit_map_sublist {α : Type} (sectionData : StrMap SectionData)
    (proj : OutFile → α) (g : CatalogEntry → α)
    (hg : ∀ sec data,
      proj ⟨sec.part, sec.id ++ ".json".toList, ⟨sec.id, sec.title, sectionBody data⟩⟩ = g sec)
    (cat : List CatalogEntry) :
    ((emit sectionData cat).map proj).Sublist (cat.map g) := by
  induction cat with
  | nil => simp [emit]
  | cons sec secs ih =>
    rw [emit]
    cases hget : sectionData.get sec.id with
    | none => exact List.Sublist.cons _ ih
    | some data =>
      simp only [List.map_cons, hg]
      exact List.Sublist.cons₂ _ ih

/-- The digits, dot, digits at the start of a text that goes on with another character. -/
theorem dottedNumber_at (a b u : Str) (ha : a ≠ []) (hda : ∀ c ∈ a, isDigit c = true)
    (hb : b ≠ []) (hdb : ∀ c ∈ b, isDigit c = true)
    (hu : ∀ c t, u = c :: t → isDigit c = false) :
    dottedNumber (a ++ '.' :: (b ++ u)) = some (a ++ '.' :: b, u) := by
  have h1 : (a ++ '.' :: (b ++ u)).takeWhile isDigit = a := by
    rw [List.takeWhile_append_of_pos hda, List.takeWhile_cons_of_neg (by decide)]
    simp
  have h2 : (a ++ '.' :: (b ++ u)).dropWhile isDigit = '.' :: (b ++ u) := by
    rw [List.dropWhile_append_of_pos hda, List.dropWhile_cons_of_neg (by decide)]
  have hu' : u.takeWhile isDigit = [] ∧ u.dropWhile isDigit = u := by
    cases u with
    | nil => exact ⟨rfl, rfl⟩
    | cons c t =>
      have := hu c t rfl
      simp [this]
  have h3 : (b ++ u).takeWhile isDigit = b := by
    rw [List.takeWhile_append_of_pos hdb, hu'.1]
    simp
  have h4 : (b ++ u).dropWhile isDigit = u := by
    rw [List.dropWhile_append_of_pos hdb, hu'.2]
  unfold dottedNumber
  obtain ⟨x, a', rfl⟩ := List.exists_cons_of_ne_nil ha
  obtain ⟨y, b', rfl⟩ := List.exists_cons_of_ne_nil hb
  simp only [List.cons_append] at h1 h2 h3 h4
  simp [h1, h2, h3, h4]

/-- The heading expression matches a heading where it stands. -/
theorem subsectionRe_at (id title post : Str) (prev : Option Char) (hid : IsSectionId id)
    (ht : title ≠ []) (hclose : ∀ c ∈ title, c ≠ '\x7d') :
    subsectionRe prev (headingText id title ++ post)
      = some ⟨headingText id title, [id, title], post⟩ := by
  obtain ⟨a, b, ha, hda, hb, hdb, rfl⟩ := hid
  have hnum := dottedNumber_at a b (". ".toList ++ (title ++ '\x7d' :: post)) ha hda hb hdb
    (by intro c t h; simp at h; rw [← h.1]; decide)
  have htw := takeWhile_notClose title post hclose
  have e : headingText (a ++ '.' :: b) title ++ post
      = subsectionLit ++ (a ++ '.' :: (b ++ (". ".toList ++ (title ++ '\x7d' :: post)))) := by
    simp [headingText, subsectionLit]
  unfold subsectionRe
  rw [e, dropLit_append]
  dsimp only
  rw [hnum]
  dsimp only
  rw [dropLit_append]
  dsimp only
  rw [htw.1, htw.2]
  obtain ⟨x, t', rfl⟩ := List.exists_cons_of_ne_nil ht
  simp [headingText, subsectionLit]

/-- The text of a match of the heading expression is a heading with the captured identifier
and title. -/
theorem subsectionRe_matched {prev : Option Char} {s : Str} {m : Match}
    (h : subsectionRe prev s = some m) :
    m.matched = headingText (m.group 1) (m.group 2) ∧ m.group 2 ≠ [] ∧
      ∀ c ∈ m.group 2, c ≠ '\x7d' := by
  unfold subsectionRe at h
  split at h
  · simp at h
  · split at h
    · simp at h
    · split at h
      · simp at h
      · rename_i v _
        split at h
        · rename_i b body c rest htw hd
          simp only [Option.some.injEq] at h
          subst h
          have hc := dropWhile_notClose_head hd
          subst hc
          refine ⟨by simp [headingText, subsectionLit, Match.group, capture], ?_, ?_⟩
          · simp [Match.group, capture]
          · intro c hc
            have hc' : c ∈ v.takeWhile notClose := by
              rw [htw]; simpa [Match.group, capture] using hc
            have := List.mem_takeWhile_imp hc'
            simpa [notClose] using this
        · simp at h

/-- Claim C14, amended: when `parse` does not throw, a document is emitted for an identifier
if and only if the identifier is in the catalog and the left-to-right scan of the statements
region finds a heading with it.  Each document is that of a catalog entry, at the path
`<part>/<id>.json`, with the id and title of the entry; no identifier gets two documents and
no two catalog entries have the same path; an entry without a heading found is passed over
and the run still succeeds.  Every heading found is an occurrence of
`\subsection*{<id>. <title>}` in the region, and an occurrence is found unless it starts
inside a heading found before it. -/
theorem documents_for_headings_found (raw problemText answerText : Str)
    (h : splitRegions raw = .ok (problemText, answerText)) :
    ∃ files, parse raw = .ok files ∧
      (∀ id, (∃ f ∈ files, f.doc.id = id) ↔
        ((∃ sec ∈ SECTIONS, sec.id = id) ∧
          ∃ b ∈ sectionBoundaries problemText, b.id = id)) ∧
      (∀ f ∈ files, ∃ sec ∈ SECTIONS,
        f.path = sec.path ∧ f.doc.id = sec.id ∧ f.doc.title = sec.title) ∧
      (files.map fun f => f.doc.id).Nodup ∧
      (files.map OutFile.path).Nodup ∧
      (SECTIONS.map CatalogEntry.path).Nodup ∧
      (∀ b ∈ sectionBoundaries problemText, ∃ pre title post,
        title ≠ [] ∧ (∀ c ∈ title, c ≠ '\x7d') ∧ b.title = b.id ++ ". ".toList ++ title ∧
        problemText = pre ++ headingText b.id title ++ post ∧ b.startIdx = pre.length) ∧
      (∀ id pre title post, IsSectionId id → title ≠ [] → (∀ c ∈ title, c ≠ '\x7d') →
        problemText = pre ++ headingText id title ++ post →
        (∃ b ∈ sectionBoundaries problemText, b.id = id ∧ b.startIdx = pre.length) ∨
        (∃ b ∈ sectionBoundaries problemText, b.startIdx < pre.length ∧
          pre.length < b.startIdx + (subsectionLit ++ b.title ++ "\x7d".toList).length)) := by
  have hpaths : (SECTIONS.map CatalogEntry.path).Nodup := by decide
  have hids : (SECTIONS.map fun sec => sec.id).Nodup := by decide
  refine ⟨emit (parseSections (parseAnswers answerText) problemText
    (sectionBoundaries problemText) []) SECTIONS, ?_, ?_, ?_, ?_, ?_, hpaths, ?_, ?_⟩
  · unfold parse
    rw [h]
  · intro id
    constructor
    · rintro ⟨f, hf, hid⟩
      obtain ⟨sec, hsec, data, hget, rfl⟩ := mem_emit.mp hf
      refine ⟨⟨sec, hsec, hid⟩, ?_⟩
      have := (parseSections_get _ _ sec.id _ _).mp ⟨data, hget⟩
      rcases this with ⟨d, hd⟩ | hb
      · simp [StrMap.get] at hd
      · obtain ⟨b, hb, hbid⟩ := hb
        exact ⟨b, hb, hbid.trans hid⟩
    · rintro ⟨⟨sec, hsec, hid⟩, b, hb, hbid⟩
      obtain ⟨data, hget⟩ := (parseSections_get (parseAnswers answerText) problemText sec.id
        (sectionBoundaries problemText) []).mpr (Or.inr ⟨b, hb, hbid.trans hid.symm⟩)
      exact ⟨_, mem_emit.mpr ⟨sec, hsec, data, hget, rfl⟩, hid⟩
  · intro f hf
    obtain ⟨sec, hsec, data, hget, rfl⟩ := mem_emit.mp hf
    exact ⟨sec, hsec, by simp [OutFile.path, CatalogEntry.path], rfl, rfl⟩
  · exact (emit_map_sublist _ (fun f => f.doc.id) (fun sec => sec.id) (fun _ _ => rfl)
      SECTIONS).nodup hids
  · exact (emit_map_sublist _ OutFile.path CatalogEntry.path
      (fun _ _ => by simp [OutFile.path, CatalogEntry.path]) SECTIONS).nodup hpaths
  · intro b hb
    unfold sectionBoundaries at hb
    obtain ⟨im, him, rfl⟩ := List.mem_map.mp hb
    obtain ⟨P, hP, hi, hr⟩ := execAllFrom_mem_split subsectionRe soundRx_subsectionRe _ _ _ _ _ him
    obtain ⟨hmat, hne, hclose⟩ := subsectionRe_matched hr
    refine ⟨P, im.2.group 2, im.2.rest, hne, hclose, rfl, ?_, by simpa using hi⟩
    rw [← hmat, List.append_assoc]
    exact hP
  · intro id pre title post hid ht hclose hsplit
    have hm := subsectionRe_at id title post (lastChar none pre) hid ht hclose
    have hne : ∀ p s m, subsectionRe p s = some m → m.matched ≠ [] := by
      intro p s m hm
      rw [(subsectionRe_matched hm).1]
      simp [headingText]
    obtain ⟨im, him, hcase⟩ := execAllFrom_covers subsectionRe soundRx_subsectionRe hne
      (problemText.length + 1) 0 none problemText pre (headingText id title ++ post) _
      (Nat.lt_succ_self _) (by rw [hsplit, List.append_assoc]) hm
    have hmem : (⟨im.2.group 1, im.2.group 1 ++ ". ".toList ++ im.2.group 2, im.1⟩ :
        SectionBoundary) ∈ sectionBoundaries problemText :=
      List.mem_map.mpr ⟨im, him, rfl⟩
    rcases hcase with hc | ⟨h1, h2⟩
    · left
      refine ⟨_, hmem, ?_, ?_⟩
      · rw [hc]; rfl
      · rw [hc]; simp
    · right
      refine ⟨_, hmem, by simpa using h1, ?_⟩
      obtain ⟨P, hP, hi, hr⟩ := execAllFrom_mem_split subsectionRe soundRx_subsectionRe _ _ _ _ _ him
      have hmat := (subsectionRe_matched hr).1
      rw [hmat] at h2
      simpa [headingText, subsectionLit, Nat.add_assoc] using h2

/-- The amended claim C14 at the source of the scenario. -/
theorem documents_for_headings_found_witness :
    ∃ files, parse scenarioSource = .ok files ∧
      (∀ id, (∃ f ∈ files, f.doc.id = id) ↔
        ((∃ sec ∈ SECTIONS, sec.id = id) ∧
          ∃ b ∈ sectionBoundaries (List.replicate 7998 '\n' ++ kinematicsSpan), b.id = id)) ∧
      (∀ f ∈ files, ∃ sec ∈ SECTIONS,
        f.path = sec.path ∧ f.doc.id = sec.id ∧ f.doc.title = sec.title) ∧
      (files.map fun f => f.doc.id).Nodup ∧
      (files.map OutFile.path).Nodup ∧
      (SECTIONS.map CatalogEntry.path).Nodup ∧
      (∀ b ∈ sectionBoundaries (List.replicate 7998 '\n' ++ kinematicsSpan),
        ∃ pre title post,
        title ≠ [] ∧ (∀ c ∈ title, c ≠ '\x7d') ∧ b.title = b.id ++ ". ".toList ++ title ∧
        List.replicate 7998 '\n' ++ kinematicsSpan = pre ++ headingText b.id title ++ post ∧
        b.startIdx = pre.length) ∧
      (∀ id pre title post, IsSectionId id → title ≠ [] → (∀ c ∈ title, c ≠ '\x7d') →
        List.replicate 7998 '\n' ++ kinematicsSpan = pre ++ headingText id title ++ post →
        (∃ b ∈ sectionBoundaries (List.replicate 7998 '\n' ++ kinematicsSpan),
          b.id = id ∧ b.startIdx = pre.length) ∨
        (∃ b ∈ sectionBoundaries (List.replicate 7998 '\n' ++ kinematicsSpan),
          b.startIdx < pre.length ∧
          pre.length < b.startIdx + (subsectionLit ++ b.title ++ "\x7d".toList).length)) :=
  documents_for_headings_found scenarioSource (List.replicate 7998 '\n' ++ kinematicsSpan)
    scenarioAnswers (splitRegions_padded 7998 kinematicsSpan scenarioAnswers (by decide)
      (by decide))

/-- Claim C14 fails where a heading stands inside the braces of another: the identifier 1.2
is in the catalog and the heading `\subsection*{1.2. Dynamics}` occurs in the statements
region, yet the only document emitted is that of 1.1. -/
theorem heading_inside_heading_gets_no_document :
    splitRegions (sourceOf 7999 nestedHeadingSpan)
      = .ok (List.replicate 7999 '\n' ++ nestedHeadingSpan, scenarioAnswers) ∧
    (∃ sec ∈ SECTIONS, sec.id = "1.2".toList) ∧
    HeadingOccurs "1.2".toList (List.replicate 7999 '\n' ++ nestedHeadingSpan) ∧
    parse (sourceOf 7999 nestedHeadingSpan)
      = .ok [⟨"part_1".toList, "1.1.json".toList,
          ⟨"1.1".toList, "1.1. Kinematics".toList,
            [.intro "## 1.1. Kinematics \\subsection*\x7b1.2. Dynamics\n\n".toList]⟩⟩] := by
  refine ⟨splitRegions_padded 7999 nestedHeadingSpan scenarioAnswers (by decide) (by decide),
    by decide, ?_, ?_⟩
  · have e : nestedHeadingSpan = "\\subsection*\x7b1.1. Kinematics ".toList
        ++ headingText "1.2".toList "Dynamics".toList := by decide
    exact ⟨List.replicate 7999 '\n' ++ "\\subsection*\x7b1.1. Kinematics ".toList,
      "Dynamics".toList, [], by decide, by decide,
      by rw [List.append_nil, List.append_assoc, ← e]⟩
  · rw [parse_sourceOf 7999 nestedHeadingSpan (by decide)]
    exact congrArg Except.ok (by decide)

/-! ## Claim C15: the ends and the blank lines of a normal form -/

/-- Claim C15, amended: the text `convertLatex` returns does not start or end with white
space and has no three newlines in a row, so at most one blank line in a row is left; three
newlines or more between two texts without backslash or newline are reduced to one blank
line, as in `a\n\n\n\nb`. -/
theorem normal_form_ends_and_blank_lines (text : Str) :
    (∀ c t, convertLatex text = c :: t → isSpace c = false) ∧
    (∀ t c, convertLatex text = t ++ [c] → isSpace c = false) ∧
    ¬ "\n\n\n".toList <:+: convertLatex text ∧
    (∀ (a b : Str) (n : Nat), 3 ≤ n → (∀ c ∈ a ++ b, c ≠ '\\' ∧ c ≠ '\n') →
      (∃ c t, a = c :: t ∧ isSpace c = false) → (∃ t c, b = t ++ [c] ∧ isSpace c = false) →
      convertLatex (a ++ List.replicate n '\n' ++ b) = a ++ "\n\n".toList ++ b) ∧
    convertLatex "a\n\n\n\nb".toList = "a\n\nb".toList := by
  obtain ⟨x, hx⟩ := convertLatex_trimmed text
  refine ⟨?_, ?_, (convertLatex_noBlankRun text).no_three_newlines, ?_, by decide⟩
  · intro c t e
    have := takeWhile_isSpace_trim x
    rw [← hx, e] at this
    by_contra hc
    simp only [Bool.not_eq_false] at hc
    simp [List.takeWhile_cons, hc] at this
  · intro t c e
    by_contra hc
    simp only [Bool.not_eq_false] at hc
    exact trim_no_trailing_space x t [c] (by rw [← hx, e]) (by simp)
      (by intro d hd; rw [List.mem_singleton.mp hd]; exact hc)
  · intro a b n hn hab hhead hlast
    have hplain : '\\' ∉ a ++ List.replicate n '\n' ++ b := by
      intro hmem
      simp only [List.mem_append] at hmem
      rcases hmem with (h | h) | h
      · exact (hab _ (List.mem_append_left _ h)).1 rfl
      · have := List.eq_of_mem_replicate h
        simp at this
      · exact (hab _ (List.mem_append_right _ h)).1 rfl
    rw [convertLatex_plain hplain, replaceAll_rxBlankLines_between a b n hn
      (fun c hc => (hab c (List.mem_append_left _ hc)).2)
      (fun c hc => (hab c (List.mem_append_right _ hc)).2)]
    apply trim_eq_self
    · obtain ⟨c, t, rfl, hc⟩ := hhead
      exact ⟨c, t ++ "\n\n".toList ++ b, by simp, hc⟩
    · obtain ⟨t, c, rfl, hc⟩ := hlast
      exact ⟨a ++ "\n\n".toList ++ t, c, by simp, hc⟩

/-- Claim C15 fails in its last clause: the three blank lines between `a` and `\item b` are
reduced to none by the step for `\item`, and the three blank lines at the end of a text are
trimmed away. -/
theorem blank_lines_reduced_to_none :
    convertLatex "a\n\n\n\n\\item b".toList = "a\n- b".toList ∧
    convertLatex "a\n\n\n\n".toList = "a".toList := by
  constructor <;> decide

/-! ## Claim C16: the elements of a body and the viewer -/

/-- Claim C16 fails on the intro block: the viewer returns an element for every problem
block, but for every intro block, which has no `type`, it returns `null`; in the run of the
scenario the body has two elements, and only the problem block is rendered. -/
theorem intro_block_is_not_rendered :
    (∀ value, createContentElement (.intro value) = none) ∧
    (∀ number title statement answer,
      createContentElement (.problem number title statement answer)
        = some .problemContainer) ∧
    (∀ data, renderContent (sectionBody data)
        = data.problems.map fun _ => ViewerElement.problemContainer) ∧
    (parse scenarioSource).toOption.map (fun files =>
        files.map fun f => f.doc.body.map createContentElement)
      = some [[none, some .problemContainer]] := by
  refine ⟨fun _ => rfl, fun _ _ _ _ => rfl, ?_, ?_⟩
  · intro data
    rw [sectionBody_eq, renderContent, List.filterMap_cons]
    have h : createContentElement (.intro (buildIntroText data.introRaw data.id)) = none := rfl
    rw [h]
    dsimp only
    induction data.problems with
    | nil => rfl
    | cons p ps ih =>
      rw [List.map_cons, List.filterMap_cons, List.map_cons]
      have hp : createContentElement (problemBlock p) = some .problemContainer := rfl
      rw [hp]
      dsimp only
      rw [ih]
  · rw [parse_scenario]
    rfl

/-! ## Claim C17: the intro block is always there -/

/-- Claim C17: the text `buildIntroText` returns always begins with `## `, so its trimmed
form is never empty; the body of every emitted section is therefore the intro block followed
by one problem block for each problem, and has one element more than the section has
problems, whatever the intro span is. -/
theorem intro_block_never_omitted :
    (∀ raw secId, "## ".toList <+: buildIntroText raw secId ∧
        trim (buildIntroText raw secId) ≠ []) ∧
    (∀ (sectionData : StrMap SectionData) (cat : List CatalogEntry),
      ∀ f ∈ emit sectionData cat, ∃ sec ∈ cat, ∃ data,
        sectionData.get sec.id = some data ∧
        f.doc.body = BodyItem.intro (buildIntroText data.introRaw data.id) ::
            data.problems.map problemBlock ∧
        f.doc.body.length = data.problems.length + 1 ∧
        f.doc.body.head? = some (BodyItem.intro (buildIntroText data.introRaw data.id))) ∧
    (∀ raw files, parse raw = .ok files →
      ∃ problemText answerText, splitRegions raw = .ok (problemText, answerText) ∧
        ∀ f ∈ files, ∃ data,
          (parseSections (parseAnswers answerText) problemText
            (sectionBoundaries problemText) []).get f.doc.id = some data ∧
          f.doc.body = BodyItem.intro (buildIntroText data.introRaw data.id) ::
              data.problems.map problemBlock ∧
          f.doc.body.length = data.problems.length + 1) ∧
    buildIntroText "\\subsection*\x7b1.1. Kinematics\x7d".toList "1.1".toList
      = "## 1.1. Kinematics\n\n".toList ∧
    buildIntroText [] "1.1".toList = "## 1.1\n\n".toList := by
  have hemit : ∀ (sectionData : StrMap SectionData) (cat : List CatalogEntry),
      ∀ f ∈ emit sectionData cat, ∃ sec ∈ cat, ∃ data,
        sectionData.get sec.id = some data ∧
        f.doc.body = BodyItem.intro (buildIntroText data.introRaw data.id) ::
            data.problems.map problemBlock ∧
        f.doc.body.length = data.problems.length + 1 ∧
        f.doc.body.head?
          = some (BodyItem.intro (buildIntroText data.introRaw data.id)) := by
    intro sectionData cat f hf
    obtain ⟨sec, hsec, data, hget, rfl⟩ := mem_emit.mp hf
    refine ⟨sec, hsec, data, hget, sectionBody_eq data, ?_, ?_⟩
    · simp [sectionBody_eq]
    · simp [sectionBody_eq]
  refine ⟨?_, hemit, ?_, by decide, by decide⟩
  · intro raw secId
    obtain ⟨t, ht⟩ := buildIntroText_mark raw secId
    exact ⟨⟨t, ht.symm⟩, by rw [ht]; exact trim_heading_ne_nil t⟩
  · intro raw files hparse
    unfold parse at hparse
    split at hparse
    · simp at hparse
    · rename_i problemText answerText hsplit
      simp only [Except.ok.injEq] at hparse
      subst hparse
      refine ⟨problemText, answerText, hsplit, ?_⟩
      intro f hf
      obtain ⟨sec, _, data, hget, rfl⟩ := mem_emit.mp hf
      exact ⟨data, hget, sectionBody_eq data, by simp [sectionBody_eq]⟩

end Irodov
